import Mathlib

/-!
# Squadro: a shallow embedding of `Board.cpp` and `MinimaxAI.cpp`

The C++ class `Board` holds a `std::vector<Piece>` and the player to move.  The
embedding keeps the vector as a `List Piece` and the `int` fields as `Int`
(no arithmetic of the program leaves the 32-bit range on a board whose positions
lie in `[0,6]`).  `%` on `int` truncates towards zero, so it is `Int.tmod`.

An access `v[i]` past the end of a vector has no defined result in C++; the
embedding reports it as `MoveResult.bad_index` (or `none` for the queries).  The
`while (true)` loop of `makeMove` is run with a fuel counter; exhausting it is
reported as `MoveResult.no_return`.  `chainLoop_fuel` shows that on a board with
the constructor's ids the fuel `makeMove` supplies is enough, and
`chainLoop_mono` that more fuel never changes a result.
-/

namespace Squadro

/-- The struct `Piece` of `Piece.hpp`. -/
structure Piece where
  id : Int
  position : Int
  has_turned_around : Bool
  player : Int
deriving DecidableEq, Repr

/-- The data members `pieces` and `currentPlayer` of class `Board`. -/
structure Board where
  pieces : List Piece
  currentPlayer : Int
deriving DecidableEq, Repr

/-- What a call of `Board::makeMove` does: return normally with a new state,
throw one of its two exceptions (with the state the object is left in), or have
no defined result. -/
inductive MoveResult where
  | ok (b : Board)
  | out_of_range (state : Board)
  | logic_error (state : Board)
  | bad_index
  | no_return
deriving DecidableEq, Repr

/-- The member `speeds_h` of `Board.hpp`. -/
def speeds_h : List Int := [1, 3, 2, 3, 1]

/-- The member `speeds_v` of `Board.hpp`. -/
def speeds_v : List Int := [3, 1, 2, 1, 3]

/-- Vector subscript `v[i]` with an `int` index. -/
def vecAt {α : Type} (v : List α) (i : Int) : Option α :=
  if i < 0 then none else v[i.toNat]?

/-- The constructor `Board::Board()`. -/
def Board.init : Board :=
  { pieces :=
      ((List.range 5).map fun i => ({ id := i, position := 0, has_turned_around := false, player := 0 } : Piece))
      ++ ((List.range 5).map fun i => ({ id := i + 5, position := 0, has_turned_around := false, player := 1 } : Piece))
    currentPlayer := 0 }

/-- A piece is finished when it is back at its origin after turning around. -/
def Piece.finished (p : Piece) : Bool :=
  p.position == 0 && p.has_turned_around

/-- The counting loop of `Board::getWinner`: the pair `(returned_h, returned_v)`. -/
def countReturned (pieces : List Piece) : Int × Int :=
  pieces.foldl
    (fun acc piece =>
      if piece.player == 0 && piece.position == 0 && piece.has_turned_around then
        (acc.1 + 1, acc.2)
      else if piece.player == 1 && piece.position == 0 && piece.has_turned_around then
        (acc.1, acc.2 + 1)
      else acc)
    (0, 0)

/-- `Board::getWinner`. -/
def Board.getWinner (b : Board) : Int :=
  let r := countReturned b.pieces
  if r.1 ≥ 4 then 0
  else if r.2 ≥ 4 then 1
  else -1

/-- `Board::isGameOver`. -/
def Board.isGameOver (b : Board) : Bool :=
  b.getWinner != -1

/-- The loop of `Board::getLegalMoves` over the remaining values of `i`. -/
def getLegalMovesLoop (pieces : List Piece) (start_id : Int) : List Int → Option (List Int)
  | [] => some []
  | i :: rest =>
    match vecAt pieces (start_id + i) with
    | none => none
    | some piece =>
      match getLegalMovesLoop pieces start_id rest with
      | none => none
      | some legal_moves =>
        if !(piece.position == 0 && piece.has_turned_around) then
          some (piece.id :: legal_moves)
        else some legal_moves

/-- `Board::getLegalMoves`; `none` when a subscript is past the end of `pieces`. -/
def Board.getLegalMoves (b : Board) : Option (List Int) :=
  let start_id : Int := if b.currentPlayer == 0 then 0 else 5
  getLegalMovesLoop b.pieces start_id [0, 1, 2, 3, 4]

/-- `Board::getPieceSpeed`; `none` when the table subscript is out of range. -/
def getPieceSpeed (piece : Piece) : Option Int :=
  let base :=
    if piece.player == 0 then vecAt speeds_h (piece.id.tmod 5)
    else vecAt speeds_v (piece.id.tmod 5)
  match base with
  | none => none
  | some base_speed =>
    if piece.has_turned_around then
      if base_speed == 1 then some 3
      else if base_speed == 3 then some 1
      else some base_speed
    else some base_speed

/-- The intersection test inside both search loops of `makeMove`, for an
opponent that passed the `continue` guard. -/
def hit (moving_piece opponent : Piece) (sq : Int) : Bool :=
  let moving_track := moving_piece.id.tmod 5 + 1
  let opponent_track := opponent.id.tmod 5 + 1
  let opponent_pos := opponent.position
  if moving_piece.player == 0 && opponent_pos == moving_track && opponent_track == sq then true
  else if moving_piece.player == 1 && opponent_pos == moving_track && opponent_track == sq then true
  else false

/-- The search loop `for (auto& opponent : pieces)` of `makeMove`: the index of
the first piece of another player that passes the intersection test. -/
def findOpponent (moving_piece : Piece) (sq : Int) : List Piece → Option Nat
  | [] => none
  | opponent :: rest =>
    if opponent.player == moving_piece.player then
      (findOpponent moving_piece sq rest).map (· + 1)
    else if hit moving_piece opponent sq then some 0
    else (findOpponent moving_piece sq rest).map (· + 1)

/-- The assignment `opponent->position = opponent->has_turned_around ? 6 : 0`. -/
def Piece.reset (o : Piece) : Piece :=
  { o with position := if o.has_turned_around then 6 else 0 }

/-- Apply `f` to the element at index `j`. -/
def modifyAt (f : Piece → Piece) (j : Nat) (pieces : List Piece) : List Piece :=
  match pieces[j]? with
  | some o => pieces.set j (f o)
  | none => pieces

/-- Step 1 of `makeMove`: the loop `for (int i = 0; i < speed; ++i)` with
`n` iterations left.  Returns the pieces, `current_pos` and
`jump_occurred_on_move`. -/
def stepLoop (moving_piece : Piece) (direction : Int) :
    Nat → List Piece → Int → List Piece × Int × Bool
  | 0, pieces, current_pos => (pieces, current_pos, false)
  | n + 1, pieces, current_pos =>
    let next_pos := current_pos + direction
    match findOpponent moving_piece next_pos pieces with
    | some j => (modifyAt Piece.reset j pieces, next_pos, true)
    | none => stepLoop moving_piece direction n pieces next_pos

/-- Step 3 of `makeMove`: the loop `while (true)`, run with `fuel` iterations
allowed; `none` when the fuel runs out before the loop breaks. -/
def chainLoop (moving_piece : Piece) (direction : Int) :
    Nat → List Piece → Int → Option (List Piece × Int)
  | 0, _, _ => none
  | fuel + 1, pieces, current_pos =>
    match findOpponent moving_piece current_pos pieces with
    | some j =>
      chainLoop moving_piece direction fuel (modifyAt Piece.reset j pieces) (current_pos + direction)
    | none => some (pieces, current_pos)

/-- The tail of `makeMove`: store `current_pos` in the moving piece, then clamp
and handle the turn-around. -/
def Piece.land (moving_piece : Piece) (current_pos : Int) : Piece :=
  let p := { moving_piece with position := current_pos }
  if !p.has_turned_around && p.position ≥ 6 then
    { p with position := 6, has_turned_around := true }
  else if p.has_turned_around && p.position ≤ 0 then
    { p with position := 0 }
  else p

/-- Steps 1 to 3 of `makeMove` for a moving piece that passed both guards:
the pieces after all captures and the final `current_pos`. -/
def advance (pieces : List Piece) (moving_piece : Piece) (speed : Int) : Option (List Piece × Int) :=
  let direction : Int := if moving_piece.has_turned_around then -1 else 1
  let current_pos := moving_piece.position
  let s := stepLoop moving_piece direction speed.toNat pieces current_pos
  let current_pos := if s.2.2 then s.2.1 + direction else s.2.1
  chainLoop moving_piece direction (pieces.length + 1) s.1 current_pos

/-- `Board::makeMove`. -/
def Board.makeMove (b : Board) (pieceId : Int) : MoveResult :=
  if pieceId < 0 || pieceId ≥ 10 then .out_of_range b
  else
    match b.pieces[pieceId.toNat]? with
    | none => .bad_index
    | some moving_piece =>
      if moving_piece.player != b.currentPlayer then .logic_error b
      else
        match getPieceSpeed moving_piece with
        | none => .bad_index
        | some speed =>
          match advance b.pieces moving_piece speed with
          | none => .no_return
          | some (pieces, current_pos) =>
            .ok { pieces := modifyAt (fun p => p.land current_pos) pieceId.toNat pieces
                  currentPlayer := 1 - b.currentPlayer }

/-- Successive calls of `makeMove`; the first call that does not return
normally ends the run with its result. -/
def Board.play (b : Board) : List Int → MoveResult
  | [] => .ok b
  | pieceId :: rest =>
    match b.makeMove pieceId with
    | .ok b1 => b1.play rest
    | r => r

/-! ## Vocabulary of the specification -/

/-- The track index of a piece on the shared grid, `id % 5 + 1`. -/
def Piece.track (p : Piece) : Int := p.id.tmod 5 + 1

/-- Opponent `o` intersects square `q` of mover `m`. -/
def intersects (m o : Piece) (q : Int) : Prop :=
  o.player ≠ m.player ∧ o.position = m.track ∧ o.track = q

instance (m o : Piece) (q : Int) : Decidable (intersects m o q) := by
  unfold intersects; infer_instance

/-- Ten pieces, `pieces[i].id == i`, ids 0-4 owned by player 0 and ids 5-9 by
player 1. -/
def shaped (pieces : List Piece) : Prop :=
  pieces.map Piece.id = [0, 1, 2, 3, 4, 5, 6, 7, 8, 9] ∧
  pieces.map Piece.player = [0, 0, 0, 0, 0, 1, 1, 1, 1, 1]

instance (pieces : List Piece) : Decidable (shaped pieces) := by
  unfold shaped; infer_instance

/-- The pieces of the board have the ids and owners the constructor gave them. -/
def Board.Shaped (b : Board) : Prop := shaped b.pieces

instance (b : Board) : Decidable b.Shaped := by
  unfold Board.Shaped; infer_instance

/-- A well-formed board: shaped as above, every position in `[0,6]`, and the
player to move is 0 or 1. -/
def Board.WellFormed (b : Board) : Prop :=
  b.Shaped ∧ (∀ p ∈ b.pieces, 0 ≤ p.position ∧ p.position ≤ 6) ∧
  (b.currentPlayer = 0 ∨ b.currentPlayer = 1)

instance (b : Board) : Decidable b.WellFormed := by
  unfold Board.WellFormed; infer_instance

/-- The direction of travel of a piece: `+1` before the turn-around, `-1` after. -/
def Piece.direction (p : Piece) : Int := if p.has_turned_around then -1 else 1

/-- The list `ps1` arises from `ps` by resetting some pieces not owned by the
mover `m`: same length, and each piece is untouched or an opponent that was
reset. -/
def CapturedFrom (m : Piece) (ps ps1 : List Piece) : Prop :=
  ps1.length = ps.length ∧
  ∀ (i : Nat) (o : Piece), ps[i]? = some o →
    ps1[i]? = some o ∨ (o.player ≠ m.player ∧ ps1[i]? = some o.reset)

/-- Number of finished pieces of `player`. -/
def Board.finishedCount (b : Board) (player : Int) : Nat :=
  b.pieces.countP fun p => p.player == player && p.finished

/-- A board reached after sixteen moves in which piece 1 has completed its lap
and its owner is to move. -/
def finishedBoard : Board :=
  { pieces :=
      [⟨0, 0, false, 0⟩, ⟨1, 0, true, 0⟩, ⟨2, 0, false, 0⟩, ⟨3, 0, false, 0⟩, ⟨4, 0, false, 0⟩,
       ⟨5, 0, false, 1⟩, ⟨6, 0, true, 1⟩, ⟨7, 0, false, 1⟩, ⟨8, 0, false, 1⟩, ⟨9, 0, false, 1⟩]
    currentPlayer := 0 }

/-- A board reached after the moves 0, 7, 0, 6: pieces 6 and 7 both stand on
the row of piece 1, on consecutive columns. -/
def chainBoard : Board :=
  { pieces :=
      [⟨0, 0, false, 0⟩, ⟨1, 0, false, 0⟩, ⟨2, 0, false, 0⟩, ⟨3, 0, false, 0⟩, ⟨4, 0, false, 0⟩,
       ⟨5, 0, false, 1⟩, ⟨6, 2, false, 1⟩, ⟨7, 2, false, 1⟩, ⟨8, 0, false, 1⟩, ⟨9, 0, false, 1⟩]
    currentPlayer := 0 }

/-- A board in which piece 5 stands on the first square of piece 0. -/
def captureBoard : Board :=
  { pieces :=
      [⟨0, 0, false, 0⟩, ⟨1, 0, false, 0⟩, ⟨2, 0, false, 0⟩, ⟨3, 0, false, 0⟩, ⟨4, 0, false, 0⟩,
       ⟨5, 1, true, 1⟩, ⟨6, 0, false, 1⟩, ⟨7, 0, false, 1⟩, ⟨8, 0, false, 1⟩, ⟨9, 0, false, 1⟩]
    currentPlayer := 0 }

/-- The board after the first move `makeMove(0)` of a game. -/
def firstMoveBoard : Board :=
  { pieces :=
      [⟨0, 1, false, 0⟩, ⟨1, 0, false, 0⟩, ⟨2, 0, false, 0⟩, ⟨3, 0, false, 0⟩, ⟨4, 0, false, 0⟩,
       ⟨5, 0, false, 1⟩, ⟨6, 0, false, 1⟩, ⟨7, 0, false, 1⟩, ⟨8, 0, false, 1⟩, ⟨9, 0, false, 1⟩]
    currentPlayer := 1 }

/-! ## The static evaluator of `MinimaxAI.cpp` -/

/-- The loop of `MinimaxAI::evaluateState` over the pieces: the triple
`(score, p0_returned, p1_returned)`. -/
def evaluateLoop (pieces : List Piece) : Int × Int × Int :=
  pieces.foldl
    (fun acc p =>
      let piece_score := if p.has_turned_around then (6 - p.position) * 2 + 10 else p.position
      let score := if p.player == 0 then acc.1 + piece_score else acc.1 - piece_score
      if p.position == 0 && p.has_turned_around then
        if p.player == 0 then (score, acc.2.1 + 1, acc.2.2)
        else (score, acc.2.1, acc.2.2 + 1)
      else (score, acc.2.1, acc.2.2))
    (0, 0, 0)

/-- `MinimaxAI::evaluateState`. -/
def evaluateState (board : Board) : Int :=
  let winner := board.getWinner
  if winner == 0 then 1000
  else if winner == 1 then -1000
  else
    let r := evaluateLoop board.pieces
    r.1 + r.2.1 * 30 - r.2.2 * 30

/-- The contribution `c(piece)` of the specification. -/
def Piece.contribution (p : Piece) : Int :=
  if p.has_turned_around then (6 - p.position) * 2 + 10 else p.position

/-- The sign of a piece in the specification: `+1` for player 0, `-1` for
player 1. -/
def Piece.sign (p : Piece) : Int :=
  if p.player = 0 then 1 else if p.player = 1 then -1 else 0

/-- The reference definition of the static evaluation, as the specification
words it. -/
def evaluateRef (b : Board) : Int :=
  if b.getWinner = 0 then 1000
  else if b.getWinner = 1 then -1000
  else (b.pieces.map fun p => p.sign * p.contribution).sum
    + 30 * (b.finishedCount 0 : Int) - 30 * (b.finishedCount 1 : Int)

/-- A board reached after 64 moves of a game: player 1 has four finished
pieces, player 0 has three and is to move. -/
def wonBoard : Board :=
  { pieces :=
      [⟨0, 3, true, 0⟩, ⟨1, 0, true, 0⟩, ⟨2, 0, true, 0⟩, ⟨3, 0, true, 0⟩, ⟨4, 0, false, 0⟩,
       ⟨5, 5, true, 1⟩, ⟨6, 0, true, 1⟩, ⟨7, 0, true, 1⟩, ⟨8, 0, true, 1⟩, ⟨9, 0, true, 1⟩]
    currentPlayer := 0 }

/-- The board `wonBoard` after the further move `makeMove(0)`. -/
def flippedBoard : Board :=
  { pieces :=
      [⟨0, 0, true, 0⟩, ⟨1, 0, true, 0⟩, ⟨2, 0, true, 0⟩, ⟨3, 0, true, 0⟩, ⟨4, 0, false, 0⟩,
       ⟨5, 5, true, 1⟩, ⟨6, 0, true, 1⟩, ⟨7, 0, true, 1⟩, ⟨8, 0, true, 1⟩, ⟨9, 0, true, 1⟩]
    currentPlayer := 1 }

/-- The number of capturing iterations the loop `while (true)` of `makeMove`
executes when it is allowed `fuel` iterations (a ghost counter on
`chainLoop`). -/
def chainCaptures (moving_piece : Piece) (direction : Int) : Nat → List Piece → Int → Nat
  | 0, _, _ => 0
  | fuel + 1, pieces, current_pos =>
    match findOpponent moving_piece current_pos pieces with
    | some j =>
      chainCaptures moving_piece direction fuel (modifyAt Piece.reset j pieces)
        (current_pos + direction) + 1
    | none => 0

/-- The number of captures of one call of `makeMove`: the capture of the step
loop, if there is one, plus the capturing iterations of the chain loop run with
`fuel` iterations allowed. -/
def moveCaptures (pieces : List Piece) (moving_piece : Piece) (speed : Int) (fuel : Nat) : Nat :=
  let direction : Int := if moving_piece.has_turned_around then -1 else 1
  let s := stepLoop moving_piece direction speed.toNat pieces moving_piece.position
  let current_pos := if s.2.2 then s.2.1 + direction else s.2.1
  (if s.2.2 then 1 else 0) + chainCaptures moving_piece direction fuel s.1 current_pos

/-- No piece of player 0 and piece of player 1 stand on the same grid
intersection: each on the square of its own track that the other's track
crosses. -/
def Board.NoShared (b : Board) : Prop :=
  ∀ a ∈ b.pieces, ∀ o ∈ b.pieces, a.player = 0 → o.player = 1 →
    ¬ (a.position = o.track ∧ o.position = a.track)

instance (b : Board) : Decidable b.NoShared := by
  unfold Board.NoShared; infer_instance

/-- The board `chainBoard` after `makeMove(1)`: pieces 6 and 7 were captured. -/
def chainedBoard : Board :=
  { pieces :=
      [⟨0, 0, false, 0⟩, ⟨1, 4, false, 0⟩, ⟨2, 0, false, 0⟩, ⟨3, 0, false, 0⟩, ⟨4, 0, false, 0⟩,
       ⟨5, 0, false, 1⟩, ⟨6, 0, false, 1⟩, ⟨7, 0, false, 1⟩, ⟨8, 0, false, 1⟩, ⟨9, 0, false, 1⟩]
    currentPlayer := 1 }

/-! ## The search of `MinimaxAI.cpp`

`minimax` reads the clock at every call.  The readings are an input of the
embedding: `clock n` is the outcome of the test `now - start_time > time_limit * 0.8`
at the `n`-th call made inside one task, and every call returns, besides its
value, the number of readings made so far.  A call that ends in an exception or
has no defined result is `none`.  The parameter `depth` is never negative in the
program (`findBestMove` passes `depth - 1` with `depth` in `1..29`), so it is a
`Nat`. -/

/-- `std::numeric_limits<int>::min()`. -/
def INT_MIN : Int := -2147483648

/-- `std::numeric_limits<int>::max()`. -/
def INT_MAX : Int := 2147483647

/-- The loop over `legalMoves` in the maximizing branch of `minimax`;
`recurse` is the recursive call at `depth - 1`. -/
def maxLoop (recurse : Board → Int → Int → Nat → Option (Int × Nat)) (board : Board) :
    List Int → Int → Int → Int → Nat → Option (Int × Nat)
  | [], maxEval, _, _, tick => some (maxEval, tick)
  | move :: rest, maxEval, alpha, beta, tick =>
    match board.makeMove move with
    | .ok nextBoard =>
      match recurse nextBoard alpha beta tick with
      | none => none
      | some (eval, tick1) =>
        if beta ≤ max alpha eval then some (max maxEval eval, tick1)
        else maxLoop recurse board rest (max maxEval eval) (max alpha eval) beta tick1
    | _ => none

/-- The loop over `legalMoves` in the minimizing branch of `minimax`. -/
def minLoop (recurse : Board → Int → Int → Nat → Option (Int × Nat)) (board : Board) :
    List Int → Int → Int → Int → Nat → Option (Int × Nat)
  | [], minEval, _, _, tick => some (minEval, tick)
  | move :: rest, minEval, alpha, beta, tick =>
    match board.makeMove move with
    | .ok nextBoard =>
      match recurse nextBoard alpha beta tick with
      | none => none
      | some (eval, tick1) =>
        if min beta eval ≤ alpha then some (min minEval eval, tick1)
        else minLoop recurse board rest (min minEval eval) alpha (min beta eval) tick1
    | _ => none

/-- `MinimaxAI::minimax`. -/
def minimax (clock : Nat → Bool) (depth : Nat) (board : Board) (isMaximizingPlayer : Bool)
    (alpha beta : Int) (tick : Nat) : Option (Int × Nat) :=
  if clock tick then some (evaluateState board, tick + 1)
  else
    match depth with
    | 0 => some (evaluateState board, tick + 1)
    | depth + 1 =>
      if board.isGameOver then some (evaluateState board, tick + 1)
      else
        match board.getLegalMoves with
        | none => none
        | some legalMoves =>
          if legalMoves.isEmpty then some (evaluateState board, tick + 1)
          else if isMaximizingPlayer then
            maxLoop (fun nextBoard a b t => minimax clock depth nextBoard false a b t)
              board legalMoves INT_MIN alpha beta (tick + 1)
          else
            minLoop (fun nextBoard a b t => minimax clock depth nextBoard true a b t)
              board legalMoves INT_MAX alpha beta (tick + 1)

/-- The values of the positions reached from `board` by `moves`, in move
order. -/
def childValues (value : Board → Option Int) (board : Board) : List Int → Option (List Int)
  | [] => some []
  | move :: rest =>
    match board.makeMove move with
    | .ok nextBoard =>
      match value nextBoard, childValues value board rest with
      | some v, some vs => some (v :: vs)
      | _, _ => none
    | _ => none

/-- The exhaustive full-width minimax of the specification: `evaluateState`
at depth 0, at game over and without legal moves; otherwise the maximum over
all legal moves for player 0 and the minimum for player 1. -/
def exhaustive : Nat → Board → Option Int
  | 0, board => some (evaluateState board)
  | depth + 1, board =>
    if board.isGameOver then some (evaluateState board)
    else
      match board.getLegalMoves with
      | none => none
      | some legalMoves =>
        match childValues (exhaustive depth) board legalMoves with
        | none => none
        | some [] => some (evaluateState board)
        | some (v :: vs) =>
          some (if board.currentPlayer = 0 then vs.foldl max v else vs.foldl min v)

/-- What a fail-soft alpha-beta result `r` says about the exact value `v` for
the window `(alpha, beta)`: an upper bound at or below `alpha`, a lower bound at
or above `beta`, and the exact value strictly inside. -/
def Brackets (alpha beta v r : Int) : Prop :=
  (r ≤ alpha → v ≤ r) ∧ (beta ≤ r → r ≤ v) ∧ (alpha < r → r < beta → r = v)

/-! ## `findBestMove`

The tasks of one depth only read the board they are given, so their values do
not depend on how the worker pool schedules them; the embedding computes them in
submission order, which is the order in which `future.get()` collects them.
What the program takes from its environment is an input of the embedding
(`SearchEnv`). -/

/-- The local constant `NUM_MCTS_ROLLOUTS` of the task. -/
def NUM_MCTS_ROLLOUTS : Int := 500

/-- The tally of `MinimaxAI::mctsRollout`; `outcome i` is the board `tempBoard`
at the end of the random playout of simulation `i`. -/
def mctsRollout (outcome : Nat → Board) (num_simulations : Nat) : Int :=
  let r := (List.range num_simulations).foldl
    (fun acc i =>
      let winner := (outcome i).getWinner
      if winner == 0 then (acc.1 + 1, acc.2)
      else if winner == 1 then (acc.1, acc.2 + 1)
      else acc)
    ((0, 0) : Int × Int)
  r.1 - r.2

/-- The conversion `static_cast<int>` of a `double` inside the `int` range:
truncation toward zero. -/
def truncate (x : ℚ) : Int := if 0 ≤ x then Int.floor x else Int.ceil x

/-- The expression
`static_cast<int>(0.7 * minimax_score + 0.3 * (mcts_score / NUM_MCTS_ROLLOUTS) * (60 - depth))`.
The quotient `mcts_score / NUM_MCTS_ROLLOUTS` has two `int` operands, so it is
the truncating integer division.  The `double` arithmetic is the exact
arithmetic plus `err`, the accumulated representation and rounding error of the
floating-point operations. -/
def combinedScore (minimax_score mcts_score : Int) (depth : Nat) (err : ℚ) : Int :=
  truncate ((7 / 10 : ℚ) * (minimax_score : ℚ)
    + (3 / 10 : ℚ) * ((Int.tdiv mcts_score NUM_MCTS_ROLLOUTS : Int) : ℚ)
        * ((60 - (depth : Int) : Int) : ℚ)
    + err)

/-- The score of the specification: the rollout margin enters as the exact
ratio `rolloutMargin / simulationCount`. -/
def combinedScoreSpec (alphaBetaValue rolloutMargin : Int) (depth : Nat) : Int :=
  truncate ((7 / 10 : ℚ) * (alphaBetaValue : ℚ)
    + (3 / 10 : ℚ) * ((rolloutMargin : ℚ) / 500) * ((60 - (depth : Int) : Int) : ℚ))

/-- What `findBestMove` takes from its environment. -/
structure SearchEnv where
  /-- The test `elapsed > time_limit * 0.8` at the start of a depth. -/
  expired : Nat → Bool
  /-- The clock readings of `minimax` inside the task of a depth and a move. -/
  clock : Nat → Int → Nat → Bool
  /-- The final boards of the random playouts of the task of a depth and a move. -/
  outcome : Nat → Int → Nat → Board
  /-- The floating-point error in the score of the task of a depth and a move. -/
  err : Nat → Int → ℚ

/-- The task enqueued by `findBestMove` for one move at one depth. -/
def taskScore (env : SearchEnv) (board : Board) (depth : Nat) (isMaximizing : Bool)
    (move : Int) : Option Int :=
  match board.makeMove move with
  | .ok nextBoard =>
    match minimax (env.clock depth move) (depth - 1) nextBoard (!isMaximizing)
        INT_MIN INT_MAX 0 with
    | none => none
    | some (minimax_score, _) =>
      let mcts_score := mctsRollout (env.outcome depth move) NUM_MCTS_ROLLOUTS.toNat
      some (combinedScore minimax_score mcts_score depth (env.err depth move))
  | _ => none

/-- The vector `move_values`: the results of the tasks of one depth, collected
in the order of `legalMoves`. -/
def taskScores (env : SearchEnv) (board : Board) (depth : Nat) (isMaximizing : Bool) :
    List Int → Option (List Int)
  | [] => some []
  | move :: rest =>
    match taskScore env board depth isMaximizing move,
      taskScores env board depth isMaximizing rest with
    | some v, some vs => some (v :: vs)
    | _, _ => none

/-- The selection loop `for (size_t i = 0; i < legalMoves.size(); ++i)` of
`findBestMove`, over the remaining moves and their values; returns
`(best_move_this_depth, best_value)`. -/
def selectLoop (isMaximizing : Bool) : List Int → List Int → Int → Int → Option (Int × Int)
  | [], _, best_move_this_depth, best_value => some (best_move_this_depth, best_value)
  | _ :: _, [], _, _ => none
  | move :: moves, value :: values, best_move_this_depth, best_value =>
    if (isMaximizing && value > best_value) || (!isMaximizing && value < best_value) then
      selectLoop isMaximizing moves values move value
    else selectLoop isMaximizing moves values best_move_this_depth best_value

/-- The move recorded for one completed depth. -/
def selectBest (isMaximizing : Bool) (legalMoves move_values : List Int) : Option Int :=
  (selectLoop isMaximizing legalMoves move_values (-1)
    (if isMaximizing then INT_MIN else INT_MAX)).map Prod.fst

/-- The loop `for (int depth = 1; depth < 30; ++depth)` of `findBestMove`, with
`remaining` iterations left. -/
def depthLoop (env : SearchEnv) (board : Board) (legalMoves : List Int) (isMaximizing : Bool) :
    Nat → Nat → Int → Option Int
  | 0, _, best_move_overall => some best_move_overall
  | remaining + 1, depth, best_move_overall =>
    if env.expired depth then some best_move_overall
    else
      match taskScores env board depth isMaximizing legalMoves with
      | none => none
      | some move_values =>
        match selectBest isMaximizing legalMoves move_values with
        | none => none
        | some best_move_this_depth =>
          depthLoop env board legalMoves isMaximizing remaining (depth + 1) best_move_this_depth

/-- `MinimaxAI::findBestMove`. -/
def findBestMove (env : SearchEnv) (board : Board) : Option Int :=
  match board.getLegalMoves with
  | none => none
  | some legalMoves =>
    match legalMoves with
    | [] => some (-1)
    | first :: _ =>
      depthLoop env board legalMoves (board.currentPlayer == 0) 29 1 first

/-- An environment whose deadline is reached after the first depth and whose
playouts all end on `wonBoard`. -/
def sampleEnv : SearchEnv :=
  { expired := fun depth => decide (2 ≤ depth)
    clock := fun _ _ _ => false
    outcome := fun _ _ _ => wonBoard
    err := fun _ _ => 0 }

/-! ## The random playout of `mctsRollout` -/

/-- How the loop `while (!tempBoard->isGameOver())` of one simulation of
`mctsRollout` is left. -/
inductive PlayoutEnd where
  /-- The loop condition failed: `tempBoard` is game over. -/
  | game_over (tempBoard : Board)
  /-- The statement `if (moves.empty()) break;` was executed. -/
  | no_moves (tempBoard : Board)
  /-- A subscript was out of range or `makeMove` ended in an exception. -/
  | undefined
  /-- The loop is still running after the iterations allowed. -/
  | running
  deriving DecidableEq, Repr

/-- One random playout of `MinimaxAI::mctsRollout`, the loop
`while (!tempBoard->isGameOver())`, allowed `fuel` tests of its condition.
`draw k` is the `k`-th number produced by the generator `gen`; the distribution
`distrib(0, moves.size() - 1)` brings it into the range of the subscripts of
`moves`.  The board on which the playout of simulation `i` ends is the board
`outcome i` of `mctsRollout` above. -/
def playout (draw : Nat → Nat) : Nat → Nat → Board → PlayoutEnd
  | 0, _, _ => .running
  | fuel + 1, k, tempBoard =>
    if tempBoard.isGameOver then .game_over tempBoard
    else
      match tempBoard.getLegalMoves with
      | none => .undefined
      | some moves =>
        if moves.isEmpty then .no_moves tempBoard
        else
          match moves[draw k % moves.length]? with
          | none => .undefined
          | some random_move =>
            match tempBoard.makeMove random_move with
            | .ok nextBoard => playout draw fuel (k + 1) nextBoard
            | _ => .undefined

/-- The board on which the playout from the initial board ends when every draw
is 0: player 0 has four finished pieces. -/
def playedBoard : Board :=
  { pieces :=
      [⟨0, 0, true, 0⟩, ⟨1, 0, true, 0⟩, ⟨2, 0, true, 0⟩, ⟨3, 0, true, 0⟩, ⟨4, 0, false, 0⟩,
       ⟨5, 0, true, 1⟩, ⟨6, 0, true, 1⟩, ⟨7, 4, false, 1⟩, ⟨8, 0, false, 1⟩, ⟨9, 0, false, 1⟩]
    currentPlayer := 1 }

/-- The board `captureBoard` after `makeMove(0)`: piece 5 was sent back to 6. -/
def capturedBoard : Board :=
  { pieces :=
      [⟨0, 2, false, 0⟩, ⟨1, 0, false, 0⟩, ⟨2, 0, false, 0⟩, ⟨3, 0, false, 0⟩, ⟨4, 0, false, 0⟩,
       ⟨5, 6, true, 1⟩, ⟨6, 0, false, 1⟩, ⟨7, 0, false, 1⟩, ⟨8, 0, false, 1⟩, ⟨9, 0, false, 1⟩]
    currentPlayer := 1 }

/-- A board reached after the moves 0, 5, 3, 5, 3: piece 3 has turned around
and piece 5 stands at position 5, three squares being its speed. -/
def turnBoard : Board :=
  { pieces :=
      [⟨0, 0, false, 0⟩, ⟨1, 0, false, 0⟩, ⟨2, 0, false, 0⟩, ⟨3, 6, true, 0⟩, ⟨4, 0, false, 0⟩,
       ⟨5, 5, false, 1⟩, ⟨6, 0, false, 1⟩, ⟨7, 0, false, 1⟩, ⟨8, 0, false, 1⟩, ⟨9, 0, false, 1⟩]
    currentPlayer := 1 }

/-- The board `turnBoard` after `makeMove(5)`: piece 5 has turned around at 6. -/
def turnedBoard : Board :=
  { pieces :=
      [⟨0, 0, false, 0⟩, ⟨1, 0, false, 0⟩, ⟨2, 0, false, 0⟩, ⟨3, 6, true, 0⟩, ⟨4, 0, false, 0⟩,
       ⟨5, 6, true, 1⟩, ⟨6, 0, false, 1⟩, ⟨7, 0, false, 1⟩, ⟨8, 0, false, 1⟩, ⟨9, 0, false, 1⟩]
    currentPlayer := 0 }

/-- The board `turnBoard` after the moves 5, 3, 5: pieces 3 and 5 are on their
way back. -/
def laterBoard : Board :=
  { pieces :=
      [⟨0, 0, false, 0⟩, ⟨1, 0, false, 0⟩, ⟨2, 0, false, 0⟩, ⟨3, 5, true, 0⟩, ⟨4, 0, false, 0⟩,
       ⟨5, 5, true, 1⟩, ⟨6, 0, false, 1⟩, ⟨7, 0, false, 1⟩, ⟨8, 0, false, 1⟩, ⟨9, 0, false, 1⟩]
    currentPlayer := 0 }

/-- A board reached after the moves 2, 6, 2, 6, 2, 6, 2, 7, 2, 6: piece 2 is on
its way back at position 1, two squares being its speed. -/
def returnBoard : Board :=
  { pieces :=
      [⟨0, 0, false, 0⟩, ⟨1, 0, false, 0⟩, ⟨2, 1, true, 0⟩, ⟨3, 0, false, 0⟩, ⟨4, 0, false, 0⟩,
       ⟨5, 0, false, 1⟩, ⟨6, 1, false, 1⟩, ⟨7, 2, false, 1⟩, ⟨8, 0, false, 1⟩, ⟨9, 0, false, 1⟩]
    currentPlayer := 0 }

/-- The board `returnBoard` after `makeMove(2)`: piece 2 is finished. -/
def returnedBoard : Board :=
  { pieces :=
      [⟨0, 0, false, 0⟩, ⟨1, 0, false, 0⟩, ⟨2, 0, true, 0⟩, ⟨3, 0, false, 0⟩, ⟨4, 0, false, 0⟩,
       ⟨5, 0, false, 1⟩, ⟨6, 1, false, 1⟩, ⟨7, 2, false, 1⟩, ⟨8, 0, false, 1⟩, ⟨9, 0, false, 1⟩]
    currentPlayer := 1 }

/-! ## Elementary facts about the helpers -/

theorem length_modifyAt (f : Piece → Piece) (j : Nat) (ps : List Piece) :
    (modifyAt f j ps).length = ps.length := by
  unfold modifyAt
  split <;> simp

theorem getElem?_modifyAt (f : Piece → Piece) (j : Nat) (ps : List Piece) (i : Nat) :
    (modifyAt f j ps)[i]? = if i = j then ps[i]?.map f else ps[i]? := by
  unfold modifyAt
  split
  · rename_i o h
    by_cases hij : i = j
    · subst hij
      have hlt : i < ps.length := by
        rcases Nat.lt_or_ge i ps.length with h1 | h1
        · exact h1
        · rw [List.getElem?_eq_none h1] at h; cases h
      simp [h, List.getElem?_set, hlt]
    · have : ¬ j = i := fun e => hij e.symm
      simp [hij, List.getElem?_set, this]
  · rename_i h
    by_cases hij : i = j
    · subst hij; simp [h]
    · simp [hij]

theorem map_modifyAt {β : Type} (g : Piece → β) (f : Piece → Piece) (hf : ∀ p, g (f p) = g p)
    (j : Nat) (ps : List Piece) : (modifyAt f j ps).map g = ps.map g := by
  apply List.ext_getElem?
  intro i
  rw [List.getElem?_map, getElem?_modifyAt, List.getElem?_map]
  split
  · cases ps[i]? <;> simp [hf]
  · rfl

theorem hit_iff (mp o : Piece) (sq : Int) :
    hit mp o sq = true ↔ (mp.player = 0 ∨ mp.player = 1) ∧ o.position = mp.track ∧ o.track = sq := by
  unfold hit Piece.track
  by_cases h0 : mp.player = 0 <;> by_cases h1 : mp.player = 1 <;>
    by_cases h2 : o.position = mp.id.tmod 5 + 1 <;> by_cases h3 : o.id.tmod 5 + 1 = sq <;>
    simp [h0, h1, h2, h3]

theorem findOpponent_eq_none (mp : Piece) (sq : Int) (ps : List Piece) :
    findOpponent mp sq ps = none ↔ ∀ o ∈ ps, o.player ≠ mp.player → hit mp o sq = false := by
  induction ps with
  | nil => simp [findOpponent]
  | cons o rest ih =>
    unfold findOpponent
    by_cases hp : o.player = mp.player
    · simp [hp, ih]
    · by_cases hh : hit mp o sq = true
      · simp [hp, hh]
      · simp [hp, hh, ih]

theorem findOpponent_eq_some (mp : Piece) (sq : Int) (ps : List Piece) (j : Nat)
    (h : findOpponent mp sq ps = some j) :
    ∃ o, ps[j]? = some o ∧ o.player ≠ mp.player ∧ hit mp o sq = true := by
  induction ps generalizing j with
  | nil => simp [findOpponent] at h
  | cons o rest ih =>
    unfold findOpponent at h
    by_cases hp : o.player = mp.player
    · simp [hp] at h
      obtain ⟨a, ha, rfl⟩ := h
      simpa using ih a ha
    · by_cases hh : hit mp o sq = true
      · simp [hp, hh] at h
        subst h
        exact ⟨o, by simp, hp, hh⟩
      · simp [hp, hh] at h
        obtain ⟨a, ha, rfl⟩ := h
        simpa using ih a ha

theorem findOpponent_of_unique (mp : Piece) (sq : Int) (ps : List Piece) (j : Nat) (o : Piece)
    (hj : ps[j]? = some o) (hp : o.player ≠ mp.player) (hh : hit mp o sq = true)
    (huniq : ∀ i o', ps[i]? = some o' → o'.player ≠ mp.player → hit mp o' sq = true → i = j) :
    findOpponent mp sq ps = some j := by
  cases hf : findOpponent mp sq ps with
  | none =>
    rw [findOpponent_eq_none] at hf
    have := hf o (List.getElem?_mem hj) hp
    simp [hh] at this
  | some i =>
    obtain ⟨o', ho', hp', hh'⟩ := findOpponent_eq_some mp sq ps i hf
    rw [huniq i o' ho' hp' hh']


/-! ## Boards with the constructor's ids and owners -/

theorem shaped_piece {ps : List Piece} (h : shaped ps) {i : Nat} {p : Piece}
    (hp : ps[i]? = some p) :
    i < 10 ∧ p.id = (i : Int) ∧ p.player = if i < 5 then 0 else 1 := by
  have h1 : (ps.map Piece.id)[i]? = some p.id := by simp [hp]
  have h2 : (ps.map Piece.player)[i]? = some p.player := by simp [hp]
  rw [h.1] at h1
  rw [h.2] at h2
  have hi : i < 10 := by
    rcases Nat.lt_or_ge i 10 with h3 | h3
    · exact h3
    · rw [List.getElem?_eq_none (by simpa using h3)] at h1; cases h1
  refine ⟨hi, ?_, ?_⟩
  · interval_cases i <;> simp at h1 <;> simp [h1]
  · interval_cases i <;> simp at h2 <;> simp [h2]

theorem shaped_length {ps : List Piece} (h : shaped ps) : ps.length = 10 := by
  have := congrArg List.length h.1
  simpa using this

theorem shaped_get {ps : List Piece} (h : shaped ps) {i : Nat} (hi : i < 10) :
    ∃ p, ps[i]? = some p ∧ p.id = (i : Int) ∧ p.player = if i < 5 then 0 else 1 := by
  have hl : i < ps.length := by rw [shaped_length h]; exact hi
  refine ⟨ps[i], List.getElem?_eq_getElem hl, ?_⟩
  exact (shaped_piece h (List.getElem?_eq_getElem hl)).2

theorem shaped_track {ps : List Piece} (h : shaped ps) {i : Nat} {p : Piece}
    (hp : ps[i]? = some p) : p.track = ((i % 5 : Nat) : Int) + 1 := by
  obtain ⟨hi, hid, -⟩ := shaped_piece h hp
  unfold Piece.track
  rw [hid]
  interval_cases i <;> rfl

theorem shaped_track_range {ps : List Piece} (h : shaped ps) {o : Piece} (ho : o ∈ ps) :
    1 ≤ o.track ∧ o.track ≤ 5 := by
  obtain ⟨i, hi⟩ := List.getElem?_of_mem ho
  rw [shaped_track h hi]
  omega

theorem shaped_modifyAt {ps : List Piece} (h : shaped ps) (f : Piece → Piece)
    (hid : ∀ p, (f p).id = p.id) (hpl : ∀ p, (f p).player = p.player) (j : Nat) :
    shaped (modifyAt f j ps) := by
  unfold shaped
  rw [map_modifyAt Piece.id f hid, map_modifyAt Piece.player f hpl]
  exact h

/-- Two opponents of the mover on the same track are the same piece. -/
theorem shaped_opponent_unique {ps : List Piece} (h : shaped ps) (mp : Piece) {i j : Nat}
    {o o1 : Piece} (hi : ps[i]? = some o) (hj : ps[j]? = some o1)
    (hp : o.player ≠ mp.player) (hp1 : o1.player ≠ mp.player)
    (hm : mp.player = 0 ∨ mp.player = 1) (ht : o.track = o1.track) : i = j := by
  have ti := shaped_track h hi
  have tj := shaped_track h hj
  obtain ⟨hi10, -, pi⟩ := shaped_piece h hi
  obtain ⟨hj10, -, pj⟩ := shaped_piece h hj
  rw [ti, tj] at ht
  rw [pi] at hp
  rw [pj] at hp1
  rcases hm with hm | hm <;> rw [hm] at hp hp1 <;> split at hp <;> split at hp1 <;>
    simp at hp hp1 <;> omega

theorem getPieceSpeed_shaped {ps : List Piece} (h : shaped ps) {i : Nat} {p : Piece}
    (hp : ps[i]? = some p) :
    ∃ s, getPieceSpeed p = some s ∧ 1 ≤ s ∧ s ≤ 3 := by
  obtain ⟨hi, hid, hpl⟩ := shaped_piece h hp
  unfold getPieceSpeed
  rw [hid, hpl]
  interval_cases i <;> cases p.has_turned_around <;> simp [vecAt, speeds_h, speeds_v] <;> decide


/-! ## The capture relation and the two loops of `makeMove` -/

theorem reset_reset (o : Piece) : o.reset.reset = o.reset := by
  cases o; simp [Piece.reset]

theorem CapturedFrom.refl (m : Piece) (ps : List Piece) : CapturedFrom m ps ps :=
  ⟨rfl, fun _ _ h => Or.inl h⟩

theorem CapturedFrom.trans {m : Piece} {ps ps1 ps2 : List Piece}
    (h1 : CapturedFrom m ps ps1) (h2 : CapturedFrom m ps1 ps2) : CapturedFrom m ps ps2 := by
  refine ⟨h2.1.trans h1.1, ?_⟩
  intro i o ho
  rcases h1.2 i o ho with h | ⟨hp, h⟩
  · exact h2.2 i o h
  · rcases h2.2 i _ h with h3 | ⟨-, h3⟩
    · exact Or.inr ⟨hp, h3⟩
    · rw [reset_reset] at h3
      exact Or.inr ⟨hp, h3⟩

theorem capturedFrom_reset {mp : Piece} {sq : Int} {ps : List Piece} {j : Nat}
    (h : findOpponent mp sq ps = some j) :
    CapturedFrom mp ps (modifyAt Piece.reset j ps) := by
  obtain ⟨o, ho, hp, -⟩ := findOpponent_eq_some mp sq ps j h
  refine ⟨length_modifyAt _ _ _, ?_⟩
  intro i x hx
  rw [getElem?_modifyAt]
  by_cases hij : i = j
  · subst hij
    rw [ho] at hx
    cases hx
    exact Or.inr ⟨hp, by simp [ho]⟩
  · exact Or.inl (by simp [hij, hx])

theorem shaped_capturedFrom {m : Piece} {ps ps1 : List Piece} (h : shaped ps)
    (hc : CapturedFrom m ps ps1) : shaped ps1 := by
  have key : ∀ (g : Piece → Int), (∀ o, g o.reset = g o) → ps1.map g = ps.map g := by
    intro g hg
    apply List.ext_getElem?
    intro i
    rw [List.getElem?_map, List.getElem?_map]
    cases hi : ps[i]? with
    | none =>
      have : ps1[i]? = none := by
        rw [List.getElem?_eq_none_iff] at hi ⊢
        rw [hc.1]; exact hi
      simp [this]
    | some o =>
      rcases hc.2 i o hi with h1 | ⟨-, h1⟩
      · simp [h1]
      · simp [h1, hg]
  exact ⟨(key Piece.id fun _ => rfl).trans h.1, (key Piece.player fun _ => rfl).trans h.2⟩


theorem stepLoop_some {mp : Piece} {d : Int} {ps : List Piece} {cur : Int} {j : Nat} (n : Nat)
    (h : findOpponent mp (cur + d) ps = some j) :
    stepLoop mp d (n + 1) ps cur = (modifyAt Piece.reset j ps, cur + d, true) := by
  simp only [stepLoop, h]

theorem stepLoop_none {mp : Piece} {d : Int} {ps : List Piece} {cur : Int} (n : Nat)
    (h : findOpponent mp (cur + d) ps = none) :
    stepLoop mp d (n + 1) ps cur = stepLoop mp d n ps (cur + d) := by
  simp only [stepLoop, h]

theorem chainLoop_some {mp : Piece} {d : Int} {ps : List Piece} {cur : Int} {j : Nat}
    (fuel : Nat) (h : findOpponent mp cur ps = some j) :
    chainLoop mp d (fuel + 1) ps cur
      = chainLoop mp d fuel (modifyAt Piece.reset j ps) (cur + d) := by
  simp only [chainLoop, h]

theorem chainLoop_none {mp : Piece} {d : Int} {ps : List Piece} {cur : Int}
    (fuel : Nat) (h : findOpponent mp cur ps = none) :
    chainLoop mp d (fuel + 1) ps cur = some (ps, cur) := by
  simp only [chainLoop, h]

/-- The step loop only resets opponents and moves `current_pos` by at most `n`
steps in the direction of travel. -/
theorem stepLoop_inv (mp : Piece) (d : Int) (n : Nat) (ps : List Piece) (cur : Int) :
    CapturedFrom mp ps (stepLoop mp d n ps cur).1 ∧
    ∃ t : Nat, t ≤ n ∧ (stepLoop mp d n ps cur).2.1 = cur + t * d ∧
      ((stepLoop mp d n ps cur).2.2 = true → 1 ≤ t) := by
  induction n generalizing cur with
  | zero => exact ⟨CapturedFrom.refl _ _, 0, le_refl _, by simp [stepLoop], by simp [stepLoop]⟩
  | succ n ih =>
    cases hf : findOpponent mp (cur + d) ps with
    | some j =>
      rw [stepLoop_some n hf]
      exact ⟨capturedFrom_reset hf, 1, by omega, by simp, by simp⟩
    | none =>
      rw [stepLoop_none n hf]
      obtain ⟨h1, t, ht, h2, h3⟩ := ih (cur + d)
      refine ⟨h1, t + 1, by omega, ?_, fun _ => by omega⟩
      rw [h2]
      push_cast
      ring

/-- The chain loop only resets opponents and moves `current_pos` in the
direction of travel. -/
theorem chainLoop_inv (mp : Piece) (d : Int) (fuel : Nat) (ps : List Piece) (cur : Int)
    (ps1 : List Piece) (cur1 : Int) (h : chainLoop mp d fuel ps cur = some (ps1, cur1)) :
    CapturedFrom mp ps ps1 ∧ ∃ t : Nat, cur1 = cur + t * d := by
  induction fuel generalizing ps cur with
  | zero => simp [chainLoop] at h
  | succ fuel ih =>
    cases hf : findOpponent mp cur ps with
    | some j =>
      rw [chainLoop_some fuel hf] at h
      obtain ⟨h1, t, h2⟩ := ih _ _ h
      refine ⟨(capturedFrom_reset hf).trans h1, t + 1, ?_⟩
      rw [h2]
      push_cast
      ring
    | none =>
      rw [chainLoop_none fuel hf] at h
      simp only [Option.some.injEq, Prod.mk.injEq] at h
      obtain ⟨rfl, rfl⟩ := h
      exact ⟨CapturedFrom.refl _ _, 0, by simp⟩

/-- More fuel never changes a result of the chain loop. -/
theorem chainLoop_mono (mp : Piece) (d : Int) (fuel : Nat) (ps : List Piece) (cur : Int)
    (r : List Piece × Int) (h : chainLoop mp d fuel ps cur = some r) (extra : Nat) :
    chainLoop mp d (fuel + extra) ps cur = some r := by
  induction fuel generalizing ps cur with
  | zero => simp [chainLoop] at h
  | succ fuel ih =>
    rw [show fuel + 1 + extra = (fuel + extra) + 1 by omega]
    cases hf : findOpponent mp cur ps with
    | some j =>
      rw [chainLoop_some _ hf] at h ⊢
      exact ih _ _ h
    | none =>
      rw [chainLoop_none _ hf] at h ⊢
      exact h

/-- On a board whose tracks lie in `1..5` the chain loop breaks within six
iterations: every capturing iteration needs `current_pos` in `1..5`, and
`current_pos` moves by one square each time. -/
theorem chainLoop_fuel (mp : Piece) (d : Int) (hd : d = 1 ∨ d = -1) (fuel : Nat)
    (ps : List Piece) (cur : Int) (hs : shaped ps) (h1 : 1 ≤ fuel)
    (h2 : 1 ≤ cur → cur ≤ 5 → (if d = 1 then 7 - cur else cur + 1) ≤ (fuel : Int)) :
    ∃ r, chainLoop mp d fuel ps cur = some r := by
  induction fuel generalizing ps cur with
  | zero => omega
  | succ fuel ih =>
    cases hf : findOpponent mp cur ps with
    | none => exact ⟨_, chainLoop_none fuel hf⟩
    | some j =>
      rw [chainLoop_some fuel hf]
      obtain ⟨o, ho, -, hh⟩ := findOpponent_eq_some mp cur ps j hf
      rw [hit_iff] at hh
      have hr := shaped_track_range hs (List.getElem?_mem ho)
      rw [hh.2.2] at hr
      have h3 := h2 hr.1 hr.2
      have hs1 : shaped (modifyAt Piece.reset j ps) :=
        shaped_modifyAt hs Piece.reset (fun _ => rfl) (fun _ => rfl) j
      apply ih _ _ hs1
      · rcases hd with hd | hd <;> simp [hd] at h3 <;> omega
      · intro h4 h5
        rcases hd with hd | hd <;> simp [hd] at h3 ⊢ <;> omega


/-! ## `makeMove` as a whole -/

theorem direction_cases (mp : Piece) : mp.direction = 1 ∨ mp.direction = -1 := by
  unfold Piece.direction
  split <;> simp

theorem advance_eq (ps : List Piece) (mp : Piece) (s : Int) :
    advance ps mp s =
      chainLoop mp mp.direction (ps.length + 1)
        (stepLoop mp mp.direction s.toNat ps mp.position).1
        (if (stepLoop mp mp.direction s.toNat ps mp.position).2.2 then
          (stepLoop mp mp.direction s.toNat ps mp.position).2.1 + mp.direction
        else (stepLoop mp mp.direction s.toNat ps mp.position).2.1) := rfl

theorem advance_inv {ps : List Piece} {mp : Piece} {s : Int} {ps1 : List Piece} {cur : Int}
    (h : advance ps mp s = some (ps1, cur)) :
    CapturedFrom mp ps ps1 ∧ ∃ t : Nat, cur = mp.position + t * mp.direction := by
  rw [advance_eq] at h
  generalize mp.direction = d at h ⊢
  obtain ⟨h1, t, -, h2, h3⟩ := stepLoop_inv mp d s.toNat ps mp.position
  obtain ⟨h4, u, h5⟩ := chainLoop_inv _ _ _ _ _ _ _ h
  refine ⟨h1.trans h4, ?_⟩
  rw [h2] at h5
  split at h5
  · exact ⟨t + 1 + u, by rw [h5]; push_cast; ring⟩
  · exact ⟨t + u, by rw [h5]; push_cast; ring⟩

theorem advance_total {ps : List Piece} (hs : shaped ps) (mp : Piece) (s : Int) :
    ∃ r, advance ps mp s = some r := by
  rw [advance_eq]
  have hd := direction_cases mp
  generalize mp.direction = d at hd ⊢
  have hs1 := shaped_capturedFrom hs (stepLoop_inv mp d s.toNat ps mp.position).1
  apply chainLoop_fuel _ _ hd _ _ _ hs1
  · omega
  · intro h1 h2
    rw [shaped_length hs]
    split <;> push_cast <;> omega

theorem makeMove_of_advance {b : Board} {i : Nat} (hi : i < 10) {mp : Piece}
    (hmp : b.pieces[i]? = some mp) (hown : mp.player = b.currentPlayer) {s : Int}
    (hs : getPieceSpeed mp = some s) {ps1 : List Piece} {cur : Int}
    (ha : advance b.pieces mp s = some (ps1, cur)) :
    b.makeMove (i : Int) =
      .ok { pieces := modifyAt (fun p => p.land cur) i ps1, currentPlayer := 1 - b.currentPlayer } := by
  unfold Board.makeMove
  have h1 : ¬ ((i : Int) < 0) := by omega
  have h2 : ¬ ((i : Int) ≥ 10) := by omega
  simp [h1, h2, hmp, hown, hs, ha]

/-- The three ways a call of `makeMove` on a shaped board can end. -/
theorem makeMove_cases (b : Board) (hs : b.Shaped) (pieceId : Int) :
    ((pieceId < 0 ∨ pieceId > 9) ∧ b.makeMove pieceId = .out_of_range b) ∨
    (0 ≤ pieceId ∧ pieceId ≤ 9 ∧
      (∃ p, b.pieces[pieceId.toNat]? = some p ∧ p.player ≠ b.currentPlayer) ∧
      b.makeMove pieceId = .logic_error b) ∨
    (0 ≤ pieceId ∧ pieceId ≤ 9 ∧
      (∃ p, b.pieces[pieceId.toNat]? = some p ∧ p.player = b.currentPlayer) ∧
      ∃ b1, b.makeMove pieceId = .ok b1) := by
  by_cases hr : pieceId < 0 ∨ pieceId > 9
  · left
    refine ⟨hr, ?_⟩
    unfold Board.makeMove
    have : (pieceId < 0 || pieceId ≥ 10) = true := by
      rcases hr with h | h
      · simp [h]
      · have : pieceId ≥ 10 := by omega
        simp [this]
    rw [if_pos this]
  · right
    have h0 : 0 ≤ pieceId := by omega
    have h9 : pieceId ≤ 9 := by omega
    obtain ⟨i, rfl⟩ := Int.eq_ofNat_of_zero_le h0
    have hi : i < 10 := by omega
    obtain ⟨mp, hmp, -, -⟩ := shaped_get hs hi
    by_cases hown : mp.player = b.currentPlayer
    · right
      obtain ⟨s, hsp, -, -⟩ := getPieceSpeed_shaped hs hmp
      obtain ⟨⟨ps1, cur⟩, ha⟩ := advance_total hs mp s
      exact ⟨h0, h9, ⟨mp, by simpa using hmp, hown⟩, _, makeMove_of_advance hi hmp hown hsp ha⟩
    · left
      refine ⟨h0, h9, ⟨mp, by simpa using hmp, hown⟩, ?_⟩
      unfold Board.makeMove
      have h1 : ¬ ((i : Int) < 0) := by omega
      have h2 : ¬ ((i : Int) ≥ 10) := by omega
      simp [h1, h2, hmp, hown]

/-- C1: on a board with the constructor's ids and owners, `makeMove(pieceId)`
throws `std::out_of_range` exactly when `pieceId < 0` or `pieceId > 9`, throws
`std::logic_error` exactly when `pieceId` is in `[0,9]` and the owner of
`pieces[pieceId]` is not `currentPlayer`, and returns normally in every other
case; a throwing call leaves the board as it was. -/
theorem makeMove_guards (b : Board) (hs : b.Shaped) (pieceId : Int) :
    ((∃ s, b.makeMove pieceId = .out_of_range s) ↔ (pieceId < 0 ∨ pieceId > 9)) ∧
    ((∃ s, b.makeMove pieceId = .logic_error s) ↔
      (0 ≤ pieceId ∧ pieceId ≤ 9 ∧
        ∃ p, b.pieces[pieceId.toNat]? = some p ∧ p.player ≠ b.currentPlayer)) ∧
    ((∃ b1, b.makeMove pieceId = .ok b1) ↔
      (¬ (pieceId < 0 ∨ pieceId > 9) ∧
        ¬ ∃ p, b.pieces[pieceId.toNat]? = some p ∧ p.player ≠ b.currentPlayer)) ∧
    (∀ s, b.makeMove pieceId = .out_of_range s ∨ b.makeMove pieceId = .logic_error s → s = b) := by
  rcases makeMove_cases b hs pieceId with ⟨hc, hr⟩ | ⟨h0, h9, ⟨p, hp, hne⟩, hr⟩ |
    ⟨h0, h9, ⟨p, hp, hown⟩, b1, hr⟩
  · rw [hr]
    refine ⟨by simp [hc], ?_, ?_, ?_⟩
    · simp only [reduceCtorEq, exists_false, false_iff]
      rintro ⟨h0, h9, -⟩
      omega
    · simp [hc]
    · intro s h
      rcases h with h | h <;> simp at h
      exact h.symm
  · rw [hr]
    refine ⟨?_, ?_, ?_, ?_⟩
    · simp only [reduceCtorEq, exists_false, false_iff]
      omega
    · simp only [MoveResult.logic_error.injEq, exists_eq', true_iff]
      exact ⟨h0, h9, p, hp, hne⟩
    · simp only [reduceCtorEq, exists_false, false_iff, not_and, not_not]
      intro _
      exact ⟨p, hp, hne⟩
    · intro s h
      rcases h with h | h <;> simp at h
      exact h.symm
  · rw [hr]
    refine ⟨?_, ?_, ?_, ?_⟩
    · simp only [reduceCtorEq, exists_false, false_iff]
      omega
    · simp only [reduceCtorEq, exists_false, false_iff, not_and]
      rintro - - ⟨q, hq, hne⟩
      rw [hp] at hq
      cases hq
      exact hne hown
    · simp only [MoveResult.ok.injEq, exists_eq', true_iff]
      refine ⟨by omega, ?_⟩
      rintro ⟨q, hq, hne⟩
      rw [hp] at hq
      cases hq
      exact hne hown
    · intro s h
      simp at h

theorem makeMove_guards_witness :
    Board.init.Shaped ∧
    (((∃ s, Board.init.makeMove 5 = .out_of_range s) ↔ ((5 : Int) < 0 ∨ (5 : Int) > 9)) ∧
    ((∃ s, Board.init.makeMove 5 = .logic_error s) ↔
      (0 ≤ (5 : Int) ∧ (5 : Int) ≤ 9 ∧
        ∃ p, Board.init.pieces[(5 : Int).toNat]? = some p ∧ p.player ≠ Board.init.currentPlayer)) ∧
    ((∃ b1, Board.init.makeMove 5 = .ok b1) ↔
      (¬ ((5 : Int) < 0 ∨ (5 : Int) > 9) ∧
        ¬ ∃ p, Board.init.pieces[(5 : Int).toNat]? = some p ∧ p.player ≠ Board.init.currentPlayer)) ∧
    (∀ s, Board.init.makeMove 5 = .out_of_range s ∨ Board.init.makeMove 5 = .logic_error s →
      s = Board.init)) :=
  ⟨by decide, makeMove_guards Board.init (by decide) 5⟩


/-! ## Exact results of the loops -/

theorem findOpponent_none_of_clear {mp : Piece} {q : Int} {ps : List Piece}
    (h : ∀ o ∈ ps, ¬ intersects mp o q) : findOpponent mp q ps = none := by
  rw [findOpponent_eq_none]
  intro o ho hp
  by_contra hh
  have hh1 : hit mp o q = true := by simpa using hh
  rw [hit_iff] at hh1
  exact h o ho ⟨hp, hh1.2.1, hh1.2.2⟩

theorem findOpponent_some_of_intersects {mp : Piece} {q : Int} {ps : List Piece}
    (hs : shaped ps) (hm : mp.player = 0 ∨ mp.player = 1) {j : Nat} {o : Piece}
    (hj : ps[j]? = some o) (hi : intersects mp o q) : findOpponent mp q ps = some j := by
  apply findOpponent_of_unique mp q ps j o hj hi.1 ((hit_iff _ _ _).2 ⟨hm, hi.2.1, hi.2.2⟩)
  intro i o1 ho1 hp1 hh1
  rw [hit_iff] at hh1
  exact shaped_opponent_unique hs mp ho1 hj hp1 hi.1 hm (hh1.2.2.trans hi.2.2.symm)

theorem stepLoop_clear (mp : Piece) (d : Int) (n : Nat) (ps : List Piece) (cur : Int)
    (h : ∀ t : Nat, 1 ≤ t → t ≤ n → findOpponent mp (cur + t * d) ps = none) :
    stepLoop mp d n ps cur = (ps, cur + n * d, false) := by
  induction n generalizing cur with
  | zero => simp [stepLoop]
  | succ n ih =>
    have h1 : findOpponent mp (cur + d) ps = none := by
      simpa using h 1 (le_refl _) (by omega)
    rw [stepLoop_none n h1, ih]
    · congr 2
      push_cast
      ring
    · intro t ht1 ht2
      have := h (t + 1) (by omega) (by omega)
      rw [← this]
      congr 1
      push_cast
      ring

theorem stepLoop_hit (mp : Piece) (d : Int) (n : Nat) (ps : List Piece) (cur : Int)
    (j0 : Nat) (h1 : 1 ≤ j0) (h2 : j0 ≤ n) (j : Nat)
    (hclear : ∀ t : Nat, 1 ≤ t → t < j0 → findOpponent mp (cur + t * d) ps = none)
    (hhit : findOpponent mp (cur + j0 * d) ps = some j) :
    stepLoop mp d n ps cur = (modifyAt Piece.reset j ps, cur + j0 * d, true) := by
  induction n generalizing cur j0 with
  | zero => omega
  | succ n ih =>
    by_cases hj0 : j0 = 1
    · subst hj0
      have h3 : findOpponent mp (cur + d) ps = some j := by simpa using hhit
      rw [stepLoop_some n h3]
      simp
    · have h3 : findOpponent mp (cur + d) ps = none := by
        simpa using hclear 1 (le_refl _) (by omega)
      rw [stepLoop_none n h3]
      have e : cur + d + ((j0 - 1 : Nat) : Int) * d = cur + (j0 : Int) * d := by
        rw [Nat.cast_sub h1]
        push_cast
        ring
      rw [ih (cur + d) (j0 - 1) (by omega) (by omega), e]
      · intro t ht1 ht2
        have := hclear (t + 1) (by omega) (by omega)
        rw [← this]
        congr 1
        push_cast
        ring
      · rw [e]
        exact hhit

/-- The pieces after the opponents that intersect one of the `k` squares
`cur, cur + d, ..., cur + (k-1) d` of the mover have been reset. -/
theorem chainLoop_exact (mp : Piece) (hm : mp.player = 0 ∨ mp.player = 1) (d : Int)
    (hd : d ≠ 0) (k : Nat) (fuel : Nat) (ps : List Piece) (cur : Int) (hs : shaped ps)
    (hfuel : k < fuel)
    (hcap : ∀ t : Nat, t < k → ∃ o ∈ ps, intersects mp o (cur + t * d))
    (hclear : ∀ o ∈ ps, ¬ intersects mp o (cur + k * d)) :
    chainLoop mp d fuel ps cur =
      some (ps.map (fun o => if ∃ t : Nat, t < k ∧ intersects mp o (cur + t * d)
                              then o.reset else o), cur + k * d) := by
  induction k generalizing fuel ps cur with
  | zero =>
    obtain ⟨f, rfl⟩ : ∃ f, fuel = f + 1 := ⟨fuel - 1, by omega⟩
    rw [chainLoop_none f (findOpponent_none_of_clear (by simpa using hclear))]
    simp
  | succ k ih =>
    obtain ⟨f, rfl⟩ : ∃ f, fuel = f + 1 := ⟨fuel - 1, by omega⟩
    obtain ⟨o, ho, hio⟩ := hcap 0 (by omega)
    simp only [Nat.cast_zero, zero_mul, add_zero] at hio
    obtain ⟨j, hj⟩ := List.getElem?_of_mem ho
    have hfind := findOpponent_some_of_intersects hs hm hj hio
    have hs1 : shaped (modifyAt Piece.reset j ps) :=
      shaped_modifyAt hs Piece.reset (fun _ => rfl) (fun _ => rfl) j
    have hne : ∀ t : Nat, cur + d + (t : Int) * d ≠ cur := by
      intro t e
      have : ((t : Int) + 1) * d = 0 := by linarith
      rcases mul_eq_zero.1 this with h | h
      · omega
      · exact hd h
    have hsq : ∀ t : Nat, cur + d + (t : Int) * d = cur + ((t + 1 : Nat) : Int) * d := by
      intro t; push_cast; ring
    rw [chainLoop_some f hfind, ih f (modifyAt Piece.reset j ps) (cur + d) hs1 (by omega)]
    · congr 1
      rw [Prod.mk.injEq]
      refine ⟨?_, by push_cast; ring⟩
      apply List.ext_getElem?
      intro i
      rw [List.getElem?_map, List.getElem?_map, getElem?_modifyAt]
      by_cases hij : i = j
      · subst hij
        simp only [if_true, hj, Option.map_some']
        have hl : (∃ t : Nat, t < k + 1 ∧ intersects mp o (cur + t * d)) :=
          ⟨0, by omega, by simpa using hio⟩
        rw [if_pos hl]
        split
        · rw [reset_reset]
        · rfl
      · simp only [if_neg hij]
        cases hx : ps[i]? with
        | none => rfl
        | some x =>
          simp only [Option.map_some', Option.some.injEq]
          have hiff : (∃ t : Nat, t < k ∧ intersects mp x (cur + d + t * d)) ↔
              (∃ t : Nat, t < k + 1 ∧ intersects mp x (cur + t * d)) := by
            constructor
            · rintro ⟨t, ht, hi⟩
              exact ⟨t + 1, by omega, by rw [← hsq]; exact hi⟩
            · rintro ⟨t, ht, hi⟩
              rcases Nat.eq_zero_or_pos t with h0 | h0
              · subst h0
                simp only [Nat.cast_zero, zero_mul, add_zero] at hi
                exact absurd (shaped_opponent_unique hs mp hx hj hi.1 hio.1 hm
                  (hi.2.2.trans hio.2.2.symm)) hij
              · refine ⟨t - 1, by omega, ?_⟩
                rw [hsq, Nat.sub_add_cancel h0]
                exact hi
          by_cases hc : ∃ t : Nat, t < k ∧ intersects mp x (cur + d + t * d)
          · rw [if_pos hc, if_pos (hiff.1 hc)]
          · rw [if_neg hc, if_neg (fun h => hc (hiff.2 h))]
    · intro t ht
      obtain ⟨x, hx, hix⟩ := hcap (t + 1) (by omega)
      obtain ⟨i, hi⟩ := List.getElem?_of_mem hx
      have hij : i ≠ j := by
        rintro rfl
        rw [hj] at hi
        cases hi
        exact hne t ((hsq t).trans (hix.2.2.symm.trans hio.2.2))
      refine ⟨x, ?_, by rw [hsq]; exact hix⟩
      apply List.getElem?_mem (n := i)
      rw [getElem?_modifyAt, if_neg hij]
      exact hi
    · intro x hx
      obtain ⟨i, hi⟩ := List.getElem?_of_mem hx
      rw [getElem?_modifyAt] at hi
      rw [hsq]
      by_cases hij : i = j
      · subst hij
        rw [if_pos rfl, hj] at hi
        simp only [Option.map_some', Option.some.injEq] at hi
        subst hi
        intro hix
        have : o.track = cur + ((k + 1 : Nat) : Int) * d := hix.2.2
        rw [hio.2.2, ← hsq] at this
        exact hne k this.symm
      · rw [if_neg hij] at hi
        exact hclear x (List.getElem?_mem hi)


/-! ## Exact results of `advance` -/

theorem advance_clear {ps : List Piece} {mp : Piece} {s : Int} (hs1 : 1 ≤ s)
    (hclear : ∀ t : Nat, 1 ≤ t → (t : Int) ≤ s →
      ∀ o ∈ ps, ¬ intersects mp o (mp.position + t * mp.direction)) :
    advance ps mp s = some (ps, mp.position + s * mp.direction) := by
  rw [advance_eq]
  have hst : ((s.toNat : Nat) : Int) = s := Int.toNat_of_nonneg (by omega)
  rw [stepLoop_clear mp mp.direction s.toNat ps mp.position]
  · simp only [Bool.false_eq_true, if_false, hst]
    apply chainLoop_none
    apply findOpponent_none_of_clear
    have := hclear s.toNat (by omega) (by omega)
    rw [hst] at this
    exact this
  · intro t ht1 ht2
    exact findOpponent_none_of_clear (hclear t ht1 (by omega))

theorem advance_hit {ps : List Piece} {mp : Piece} {s : Int} (hs : shaped ps)
    (hm : mp.player = 0 ∨ mp.player = 1) (j0 k : Nat) (hj1 : 1 ≤ j0) (hj2 : (j0 : Int) ≤ s)
    (hk : 1 ≤ k)
    (hfirst : ∀ t : Nat, 1 ≤ t → t < j0 →
      ∀ o ∈ ps, ¬ intersects mp o (mp.position + t * mp.direction))
    (hcap : ∀ t : Nat, t < k →
      ∃ o ∈ ps, intersects mp o (mp.position + j0 * mp.direction + t * mp.direction))
    (hclear : ∀ o ∈ ps,
      ¬ intersects mp o (mp.position + j0 * mp.direction + k * mp.direction)) :
    advance ps mp s =
      some (ps.map (fun o =>
              if ∃ t : Nat, t < k ∧
                  intersects mp o (mp.position + j0 * mp.direction + t * mp.direction)
              then o.reset else o),
            mp.position + j0 * mp.direction + k * mp.direction) := by
  have hd := direction_cases mp
  obtain ⟨o, ho, hio⟩ := hcap 0 (by omega)
  simp only [Nat.cast_zero, zero_mul, add_zero] at hio
  obtain ⟨j, hj⟩ := List.getElem?_of_mem ho
  have hfind := findOpponent_some_of_intersects hs hm hj hio
  have hk5 : k < ps.length + 2 := by
    obtain ⟨x, hx, hix⟩ := hcap (k - 1) (by omega)
    have r0 := shaped_track_range hs ho
    have r1 := shaped_track_range hs hx
    rw [hio.2.2] at r0
    rw [hix.2.2] at r1
    rw [shaped_length hs]
    have e : ((k - 1 : Nat) : Int) = (k : Int) - 1 := by omega
    rw [e] at r1
    rcases hd with h | h <;> rw [h] at r0 r1 <;> omega
  rw [advance_eq,
    stepLoop_hit mp mp.direction s.toNat ps mp.position j0 hj1 (by omega) j
      (fun t ht1 ht2 => findOpponent_none_of_clear (hfirst t ht1 ht2)) hfind]
  simp only [if_true]
  rw [← chainLoop_some (ps.length + 1) hfind]
  exact chainLoop_exact mp hm mp.direction (by rcases hd with h | h <;> rw [h] <;> decide)
    k (ps.length + 1 + 1) ps _ hs (by omega) hcap hclear


/-! ## The contract of `makeMove` -/

theorem modifyAt_eq_self {f : Piece → Piece} {i : Nat} {ps : List Piece} {m : Piece}
    (hm : ps[i]? = some m) (hf : f m = m) : modifyAt f i ps = ps := by
  apply List.ext_getElem?
  intro n
  rw [getElem?_modifyAt]
  split
  · rename_i h
    subst h
    simp [hm, hf]
  · rfl

/-- C2 (counterexample): sixteen moves from the initial board finish piece 1
with its owner to move; `makeMove(1)` then returns normally, raising no error. -/
theorem makeMove_finished_counterexample :
    Board.init.play [1, 6, 1, 6, 1, 6, 1, 6, 1, 6, 1, 6, 1, 6, 1, 6] = .ok finishedBoard ∧
    (∃ p, finishedBoard.pieces[1]? = some p ∧ p.player = finishedBoard.currentPlayer ∧
      p.position = 0 ∧ p.has_turned_around = true) ∧
    finishedBoard.makeMove 1 = .ok { finishedBoard with currentPlayer := 1 } := by
  decide

/-- C2 (amended): on a well-formed board, `makeMove` on a finished piece of the
player to move returns normally; it leaves every piece as it was and passes the
turn to the other player. -/
theorem makeMove_finished (b : Board) (hwf : b.WellFormed) (i : Nat) (m : Piece)
    (hm : b.pieces[i]? = some m) (hown : m.player = b.currentPlayer)
    (hfin : m.position = 0 ∧ m.has_turned_around = true) :
    b.makeMove (i : Int) = .ok { pieces := b.pieces, currentPlayer := 1 - b.currentPlayer } := by
  obtain ⟨hi, -, -⟩ := shaped_piece hwf.1 hm
  obtain ⟨s, hs, hs1, hs3⟩ := getPieceSpeed_shaped hwf.1 hm
  have hd : m.direction = -1 := by simp [Piece.direction, hfin.2]
  have ha : advance b.pieces m s = some (b.pieces, m.position + s * m.direction) := by
    apply advance_clear hs1
    intro t ht1 _ o ho hio
    have := shaped_track_range hwf.1 ho
    rw [hio.2.2, hfin.1, hd] at this
    omega
  rw [makeMove_of_advance hi hm hown hs ha, modifyAt_eq_self hm]
  have hle : m.position + s * m.direction ≤ 0 := by rw [hfin.1, hd]; omega
  generalize m.position + s * m.direction = c at hle
  obtain ⟨id, pos, tr, pl⟩ := m
  simp only at hfin
  obtain ⟨rfl, rfl⟩ := hfin
  simp [Piece.land, hle]

theorem makeMove_finished_witness :
    finishedBoard.WellFormed ∧
    finishedBoard.makeMove ((1 : Nat) : Int) =
      .ok { pieces := finishedBoard.pieces, currentPlayer := 1 - finishedBoard.currentPlayer } :=
  ⟨by decide,
   makeMove_finished finishedBoard (by decide) 1 ⟨1, 0, true, 0⟩ (by decide) (by decide)
     (by decide)⟩

/-! ## `getLegalMoves` and `getWinner` -/

theorem getLegalMovesLoop_eq (ps : List Piece) (start : Int) (is : List Int) (qs : List Piece)
    (h : is.map (fun i => vecAt ps (start + i)) = qs.map some) :
    getLegalMovesLoop ps start is
      = some ((qs.filter fun p => !p.finished).map Piece.id) := by
  induction is generalizing qs with
  | nil =>
    cases qs with
    | nil => rfl
    | cons q qs => simp at h
  | cons i is ih =>
    cases qs with
    | nil => simp at h
    | cons q qs =>
      simp only [List.map_cons, List.cons.injEq] at h
      unfold getLegalMovesLoop
      rw [h.1, ih qs h.2]
      simp only [Piece.finished, List.filter_cons]
      by_cases hf : (q.position == 0 && q.has_turned_around) = true
      · simp [hf]
      · simp only [Bool.not_eq_true] at hf
        simp [hf]

/-- The legal moves of a shaped board: ascending, and exactly the ids of the
unfinished pieces of the player to move. -/
theorem getLegalMoves_shaped (b : Board) (hs : b.Shaped)
    (hcp : b.currentPlayer = 0 ∨ b.currentPlayer = 1) :
    ∃ l, b.getLegalMoves = some l ∧ l.Pairwise (· < ·) ∧
      ∀ x, x ∈ l ↔ ∃ p ∈ b.pieces, p.id = x ∧ p.player = b.currentPlayer ∧
        ¬ (p.position = 0 ∧ p.has_turned_around = true) := by
  obtain ⟨ps, cp⟩ := b
  obtain ⟨h1, h2⟩ := hs
  simp only [List.map_eq_cons_iff, List.map_eq_nil_iff] at h1
  obtain ⟨p0, r0, rfl, i0, p1, r1, rfl, i1, p2, r2, rfl, i2, p3, r3, rfl, i3, p4, r4, rfl, i4,
    p5, r5, rfl, i5, p6, r6, rfl, i6, p7, r7, rfl, i7, p8, r8, rfl, i8, p9, r9, rfl, i9, rfl⟩ := h1
  simp only [List.map_cons, List.map_nil, List.cons.injEq, and_true] at h2
  obtain ⟨o0, o1, o2, o3, o4, o5, o6, o7, o8, o9⟩ := h2
  simp only at hcp
  have fin : ∀ p : Piece, (!p.finished) = true ↔ ¬ (p.position = 0 ∧ p.has_turned_around = true) := by
    intro p
    obtain ⟨a, pos, t, pl⟩ := p
    cases t <;> simp [Piece.finished]
  rcases hcp with rfl | rfl
  · refine ⟨(([p0, p1, p2, p3, p4].filter fun p => !p.finished).map Piece.id), ?_, ?_, ?_⟩
    · exact getLegalMovesLoop_eq _ _ _ _ (by simp [vecAt])
    · have hsub : (([p0, p1, p2, p3, p4].filter fun p => !p.finished).map Piece.id).Sublist
          ([p0, p1, p2, p3, p4].map Piece.id) := List.Sublist.map _ (List.filter_sublist _)
      refine List.Pairwise.sublist hsub ?_
      simp only [List.map_cons, List.map_nil, i0, i1, i2, i3, i4]
      decide
    · intro x
      simp only [List.mem_map, List.mem_filter, fin]
      constructor
      · rintro ⟨p, ⟨hp, hf⟩, rfl⟩
        refine ⟨p, ?_, rfl, ?_, hf⟩
        · simp only [List.mem_cons] at hp ⊢; tauto
        · simp only [List.mem_cons, List.mem_nil_iff, or_false] at hp
          rcases hp with rfl | rfl | rfl | rfl | rfl <;> assumption
      · rintro ⟨p, hp, rfl, hpl, hf⟩
        refine ⟨p, ⟨?_, hf⟩, rfl⟩
        simp only [List.mem_cons, List.mem_nil_iff, or_false] at hp ⊢
        rcases hp with rfl | rfl | rfl | rfl | rfl | rfl | rfl | rfl | rfl | rfl <;>
          simp_all
  · refine ⟨(([p5, p6, p7, p8, p9].filter fun p => !p.finished).map Piece.id), ?_, ?_, ?_⟩
    · exact getLegalMovesLoop_eq _ _ _ _ (by simp [vecAt])
    · have hsub : (([p5, p6, p7, p8, p9].filter fun p => !p.finished).map Piece.id).Sublist
          ([p5, p6, p7, p8, p9].map Piece.id) := List.Sublist.map _ (List.filter_sublist _)
      refine List.Pairwise.sublist hsub ?_
      simp only [List.map_cons, List.map_nil, i5, i6, i7, i8, i9]
      decide
    · intro x
      simp only [List.mem_map, List.mem_filter, fin]
      constructor
      · rintro ⟨p, ⟨hp, hf⟩, rfl⟩
        refine ⟨p, ?_, rfl, ?_, hf⟩
        · simp only [List.mem_cons] at hp ⊢; tauto
        · simp only [List.mem_cons, List.mem_nil_iff, or_false] at hp
          rcases hp with rfl | rfl | rfl | rfl | rfl <;> assumption
      · rintro ⟨p, hp, rfl, hpl, hf⟩
        refine ⟨p, ⟨?_, hf⟩, rfl⟩
        simp only [List.mem_cons, List.mem_nil_iff, or_false] at hp ⊢
        rcases hp with rfl | rfl | rfl | rfl | rfl | rfl | rfl | rfl | rfl | rfl <;>
          simp_all

/-- C3: on a board with the constructor's ids and owners whose player to move
is 0 or 1, `getLegalMoves` returns a list that is strictly ascending (so
without repetition) and whose members are exactly the ids of the pieces owned
by `currentPlayer` that are not finished. -/
theorem getLegalMoves_spec (b : Board) (hs : b.Shaped)
    (hcp : b.currentPlayer = 0 ∨ b.currentPlayer = 1) :
    ∃ l, b.getLegalMoves = some l ∧ l.Pairwise (· < ·) ∧
      ∀ x, x ∈ l ↔ ∃ p ∈ b.pieces, p.id = x ∧ p.player = b.currentPlayer ∧
        ¬ (p.position = 0 ∧ p.has_turned_around = true) :=
  getLegalMoves_shaped b hs hcp

theorem getLegalMoves_spec_witness :
    Board.init.Shaped ∧ (Board.init.currentPlayer = 0 ∨ Board.init.currentPlayer = 1) ∧
    ∃ l, Board.init.getLegalMoves = some l ∧ l.Pairwise (· < ·) ∧
      ∀ x, x ∈ l ↔ ∃ p ∈ Board.init.pieces, p.id = x ∧ p.player = Board.init.currentPlayer ∧
        ¬ (p.position = 0 ∧ p.has_turned_around = true) :=
  ⟨by decide, by decide, getLegalMoves_spec Board.init (by decide) (by decide)⟩

/-- C4: the constructed board has player 0 to move and legal moves
`[0,1,2,3,4]`; `makeMove(0)` on it returns the board in which piece 0 stands at
position 1, not turned around, every other piece is still at position 0 and not
turned around, and player 1 is to move. -/
theorem init_scenario :
    Board.init.currentPlayer = 0 ∧
    Board.init.getLegalMoves = some [0, 1, 2, 3, 4] ∧
    Board.init.makeMove 0 = .ok
      { pieces :=
          [⟨0, 1, false, 0⟩, ⟨1, 0, false, 0⟩, ⟨2, 0, false, 0⟩, ⟨3, 0, false, 0⟩,
           ⟨4, 0, false, 0⟩, ⟨5, 0, false, 1⟩, ⟨6, 0, false, 1⟩, ⟨7, 0, false, 1⟩,
           ⟨8, 0, false, 1⟩, ⟨9, 0, false, 1⟩]
        currentPlayer := 1 } := by
  decide

theorem countReturned_foldl (ps : List Piece) (a c : Int) :
    ps.foldl
      (fun acc piece =>
        if piece.player == 0 && piece.position == 0 && piece.has_turned_around then
          (acc.1 + 1, acc.2)
        else if piece.player == 1 && piece.position == 0 && piece.has_turned_around then
          (acc.1, acc.2 + 1)
        else acc)
      (a, c)
    = (a + ((ps.countP fun p => p.player == 0 && p.position == 0 && p.has_turned_around : Nat) : Int),
       c + ((ps.countP fun p => p.player == 1 && p.position == 0 && p.has_turned_around : Nat) : Int)) := by
  induction ps generalizing a c with
  | nil => simp
  | cons p ps ih =>
    rw [List.foldl_cons, List.countP_cons, List.countP_cons]
    by_cases c0 : (p.player == 0 && p.position == 0 && p.has_turned_around) = true
    · have c1 : (p.player == 1 && p.position == 0 && p.has_turned_around) = false := by
        simp only [Bool.and_eq_true, beq_iff_eq] at c0
        simp [c0.1.1]
      simp only [c0, c1, if_true, ih, Bool.false_eq_true, if_false]
      push_cast
      congr 1
      ring
    · simp only [Bool.not_eq_true] at c0
      by_cases c1 : (p.player == 1 && p.position == 0 && p.has_turned_around) = true
      · simp only [c0, c1, if_true, ih, Bool.false_eq_true, if_false]
        push_cast
        congr 1
        ring
      · simp only [Bool.not_eq_true] at c1
        simp only [c0, c1, ih, Bool.false_eq_true, if_false]
        simp

theorem countReturned_eq (b : Board) :
    countReturned b.pieces = (((b.finishedCount 0 : Nat) : Int), ((b.finishedCount 1 : Nat) : Int)) := by
  unfold countReturned Board.finishedCount
  rw [countReturned_foldl]
  simp [Piece.finished, Bool.and_assoc]

/-- C10: `getWinner` returns 0 only if player 0 has at least 4 finished
pieces, returns 1 only if player 1 has at least 4 finished pieces, returns -1
exactly when neither player has 4 finished pieces, and returns nothing else;
`isGameOver` is true exactly when some player has at least 4 finished pieces. -/
theorem getWinner_spec (b : Board) :
    (b.getWinner = 0 → 4 ≤ b.finishedCount 0) ∧
    (b.getWinner = 1 → 4 ≤ b.finishedCount 1) ∧
    (b.getWinner = -1 ↔ b.finishedCount 0 < 4 ∧ b.finishedCount 1 < 4) ∧
    (b.getWinner = 0 ∨ b.getWinner = 1 ∨ b.getWinner = -1) ∧
    (b.isGameOver = true ↔ 4 ≤ b.finishedCount 0 ∨ 4 ≤ b.finishedCount 1) := by
  unfold Board.isGameOver Board.getWinner
  rw [countReturned_eq]
  simp only
  by_cases h0 : 4 ≤ b.finishedCount 0
  · have : ((b.finishedCount 0 : Nat) : Int) ≥ 4 := by omega
    simp [this, h0]
  · have h0i : ¬ ((b.finishedCount 0 : Nat) : Int) ≥ 4 := by omega
    by_cases h1 : 4 ≤ b.finishedCount 1
    · have : ((b.finishedCount 1 : Nat) : Int) ≥ 4 := by omega
      simp [this, h0i, h1]
    · have h1i : ¬ ((b.finishedCount 1 : Nat) : Int) ≥ 4 := by omega
      simp [h0i, h1i]
      omega

/-! ## Moves without and with captures -/

theorem modifyAt_eq_set (f : Piece → Piece) {i : Nat} {ps : List Piece} {m : Piece}
    (h : ps[i]? = some m) : modifyAt f i ps = ps.set i (f m) := by
  unfold modifyAt
  rw [h]

/-- The tail of `makeMove` written out field by field. -/
theorem land_eq (m : Piece) (cur : Int) :
    m.land cur =
      ⟨m.id,
       if m.has_turned_around then (if cur ≤ 0 then 0 else cur)
       else (if 6 ≤ cur then 6 else cur),
       if m.has_turned_around then true else decide (6 ≤ cur),
       m.player⟩ := by
  obtain ⟨a, pos, t, pl⟩ := m
  unfold Piece.land
  cases t
  · by_cases h : 6 ≤ cur
    · simp [h]
    · simp [h]
  · by_cases h : cur ≤ 0
    · simp [h]
    · simp [h]

theorem reset_eq (o : Piece) :
    o.reset = ⟨o.id, if o.has_turned_around then 6 else 0, o.has_turned_around, o.player⟩ :=
  rfl

/-- C5: on a well-formed board, if no opponent intersects any of the squares
`p + d, ..., p + s d` of a piece `m` of the player to move (position `p`, speed
`s`, direction `d`), then `makeMove(m.id)` returns normally with `currentPlayer`
flipped and with the pieces of the board, every piece but `m` unchanged, in
which `m` has the position `p + s d` clamped (6 and the flag set when `m` had
not turned around and `p + s d ≥ 6`; 0 when it had and `p + s d ≤ 0`). -/
theorem makeMove_no_capture (b : Board) (hwf : b.WellFormed) (i : Nat) (m : Piece)
    (hm : b.pieces[i]? = some m) (hown : m.player = b.currentPlayer) (s : Int)
    (hs : getPieceSpeed m = some s)
    (hclear : ∀ t : Nat, 1 ≤ t → (t : Int) ≤ s →
      ∀ o ∈ b.pieces, ¬ intersects m o (m.position + t * m.direction)) :
    b.makeMove (i : Int) =
      .ok { pieces := b.pieces.set i
              ⟨m.id,
               if m.has_turned_around then
                 (if m.position + s * m.direction ≤ 0 then 0 else m.position + s * m.direction)
               else
                 (if 6 ≤ m.position + s * m.direction then 6 else m.position + s * m.direction),
               if m.has_turned_around then true else decide (6 ≤ m.position + s * m.direction),
               m.player⟩
            currentPlayer := 1 - b.currentPlayer } := by
  obtain ⟨hi, -, -⟩ := shaped_piece hwf.1 hm
  obtain ⟨s1, hs1, h1, -⟩ := getPieceSpeed_shaped hwf.1 hm
  rw [hs] at hs1
  cases hs1
  rw [makeMove_of_advance hi hm hown hs (advance_clear h1 hclear), modifyAt_eq_set _ hm, land_eq]

theorem makeMove_no_capture_witness :
    (Board.init.WellFormed ∧
      Board.init.makeMove ((0 : Nat) : Int) = .ok firstMoveBoard ∧
      Board.init.makeMove ((0 : Nat) : Int) =
        .ok { pieces := Board.init.pieces.set 0 ⟨0, 1, false, 0⟩
              currentPlayer := 1 }) ∧
    (turnBoard.WellFormed ∧
      turnBoard.makeMove ((5 : Nat) : Int) = .ok turnedBoard ∧
      turnBoard.makeMove ((5 : Nat) : Int) =
        .ok { pieces := turnBoard.pieces.set 5 ⟨5, 6, true, 1⟩
              currentPlayer := 0 }) :=
  ⟨⟨by decide, by decide,
    makeMove_no_capture Board.init (by decide) 0 ⟨0, 0, false, 0⟩ (by decide) (by decide) 1
      (by decide)
      (by
        intro t h1 h2
        have e : t = 1 := by omega
        subst e
        decide)⟩,
   ⟨by decide, by decide,
    makeMove_no_capture turnBoard (by decide) 5 ⟨5, 5, false, 1⟩ (by decide) (by decide) 3
      (by decide)
      (by
        intro t h1 h2
        have e : t = 1 ∨ t = 2 ∨ t = 3 := by omega
        rcases e with rfl | rfl | rfl <;> decide)⟩⟩

/-- C6: on a well-formed board, if an opponent `o` intersects the first-step
square `p + d` of a piece `m` of the player to move and no opponent intersects
`p + 2 d`, then `makeMove(m.id)` returns normally with `currentPlayer` flipped
and with the pieces of the board in which `o` has the position 0 if it had not
turned around and 6 if it had (flag unchanged), `m` has the position `p + 2 d`
clamped as in the turn-around rule, whatever its speed, and every remaining
piece is unchanged. -/
theorem makeMove_single_capture (b : Board) (hwf : b.WellFormed) (i : Nat) (m : Piece)
    (hm : b.pieces[i]? = some m) (hown : m.player = b.currentPlayer)
    (j : Nat) (o : Piece) (ho : b.pieces[j]? = some o)
    (hhit : intersects m o (m.position + m.direction))
    (hclear : ∀ x ∈ b.pieces, ¬ intersects m x (m.position + 2 * m.direction)) :
    b.makeMove (i : Int) =
      .ok { pieces :=
              (b.pieces.set j
                ⟨o.id, if o.has_turned_around then 6 else 0, o.has_turned_around, o.player⟩).set i
                ⟨m.id,
                 if m.has_turned_around then
                   (if m.position + 2 * m.direction ≤ 0 then 0 else m.position + 2 * m.direction)
                 else
                   (if 6 ≤ m.position + 2 * m.direction then 6
                    else m.position + 2 * m.direction),
                 if m.has_turned_around then true
                 else decide (6 ≤ m.position + 2 * m.direction),
                 m.player⟩
            currentPlayer := 1 - b.currentPlayer } := by
  obtain ⟨hi, -, -⟩ := shaped_piece hwf.1 hm
  obtain ⟨s, hs, h1, -⟩ := getPieceSpeed_shaped hwf.1 hm
  have hm01 : m.player = 0 ∨ m.player = 1 := by rw [hown]; exact hwf.2.2
  have hfind := findOpponent_some_of_intersects hwf.1 hm01 ho hhit
  have hd := direction_cases m
  have ha : advance b.pieces m s
      = some (modifyAt Piece.reset j b.pieces, m.position + 2 * m.direction) := by
    rw [advance_eq,
      stepLoop_hit m m.direction s.toNat b.pieces m.position 1 (le_refl _) (by omega) j
        (fun t ht1 ht2 => by omega) (by simpa using hfind)]
    simp only [if_true, Nat.cast_one, one_mul]
    rw [show m.position + m.direction + m.direction = m.position + 2 * m.direction by ring]
    apply chainLoop_none
    apply findOpponent_none_of_clear
    intro x hx
    obtain ⟨n, hn⟩ := List.getElem?_of_mem hx
    rw [getElem?_modifyAt] at hn
    by_cases hnj : n = j
    · subst hnj
      rw [if_pos rfl, ho] at hn
      simp only [Option.map_some', Option.some.injEq] at hn
      subst hn
      intro hix
      have h2 : o.track = m.position + 2 * m.direction := hix.2.2
      rw [hhit.2.2] at h2
      rcases hd with h | h <;> rw [h] at h2 <;> omega
    · rw [if_neg hnj] at hn
      exact hclear x (List.getElem?_mem hn)
  have hij : i ≠ j := by
    intro e
    subst e
    rw [hm] at ho
    cases ho
    exact hhit.1 rfl
  have hmi : (modifyAt Piece.reset j b.pieces)[i]? = some m := by
    rw [getElem?_modifyAt, if_neg hij, hm]
  rw [makeMove_of_advance hi hm hown hs ha, modifyAt_eq_set _ hmi, land_eq,
    modifyAt_eq_set _ ho, reset_eq]

theorem makeMove_single_capture_witness :
    captureBoard.WellFormed ∧
    captureBoard.makeMove ((0 : Nat) : Int) = .ok capturedBoard ∧
    captureBoard.makeMove ((0 : Nat) : Int) =
      .ok { pieces := (captureBoard.pieces.set 5 ⟨5, 6, true, 1⟩).set 0 ⟨0, 2, false, 0⟩
            currentPlayer := 1 } :=
  ⟨by decide, by decide,
   makeMove_single_capture captureBoard (by decide) 0 ⟨0, 0, false, 0⟩ (by decide) (by decide)
     5 ⟨5, 1, true, 1⟩ (by decide) (by decide) (by decide)⟩

theorem chainBoard_first :
    ∀ t : Nat, 1 ≤ t → t < 2 → ∀ o ∈ chainBoard.pieces,
      ¬ intersects ⟨1, 0, false, 0⟩ o
        ((⟨1, 0, false, 0⟩ : Piece).position + t * (⟨1, 0, false, 0⟩ : Piece).direction) := by
  intro t h1 h2
  have e : t = 1 := by omega
  subst e
  decide

theorem chainBoard_captures :
    ∀ t : Nat, t < 2 → ∃ o ∈ chainBoard.pieces,
      intersects ⟨1, 0, false, 0⟩ o
        ((⟨1, 0, false, 0⟩ : Piece).position + (2 : Nat) * (⟨1, 0, false, 0⟩ : Piece).direction
          + t * (⟨1, 0, false, 0⟩ : Piece).direction) := by
  intro t h
  interval_cases t <;> decide

/-- C7: on a well-formed board, let `n = p + j0 d` be the first square among
`p + d, ..., p + s d` of a piece `m` of the player to move that an opponent
intersects.  If opponents intersect each of the `k ≥ 1` squares
`n, n + d, ..., n + (k-1) d` and none intersects `n + k d`, then `makeMove(m.id)`
returns normally with `currentPlayer` flipped and with the pieces of the board
in which exactly the opponents intersecting those `k` squares have the position
0 (not turned around) or 6 (turned around), the mover has the position
`n + k d` clamped as in the turn-around rule, and all other pieces are
unchanged.  The board reached from the initial one by the moves 0, 7, 0, 6
satisfies these conditions with `k = 2`: `makeMove(1)` sends pieces 6 and 7
from position 2 back to 0 and puts piece 1 at position 4. -/
theorem makeMove_chain_capture :
    (∀ (b : Board) (i : Nat) (m : Piece) (s : Int) (j0 k : Nat),
      b.WellFormed → b.pieces[i]? = some m → m.player = b.currentPlayer →
      getPieceSpeed m = some s → 1 ≤ j0 → (j0 : Int) ≤ s → 1 ≤ k →
      (∀ t : Nat, 1 ≤ t → t < j0 →
        ∀ o ∈ b.pieces, ¬ intersects m o (m.position + t * m.direction)) →
      (∀ t : Nat, t < k →
        ∃ o ∈ b.pieces, intersects m o (m.position + j0 * m.direction + t * m.direction)) →
      (∀ o ∈ b.pieces,
        ¬ intersects m o (m.position + j0 * m.direction + k * m.direction)) →
      b.makeMove (i : Int) =
        .ok { pieces :=
                (b.pieces.map fun o =>
                  if ∃ t : Nat, t < k ∧
                      intersects m o (m.position + j0 * m.direction + t * m.direction)
                  then
                    ⟨o.id, if o.has_turned_around then 6 else 0, o.has_turned_around, o.player⟩
                  else o).set i
                  ⟨m.id,
                   if m.has_turned_around then
                     (if m.position + j0 * m.direction + k * m.direction ≤ 0 then 0
                      else m.position + j0 * m.direction + k * m.direction)
                   else
                     (if 6 ≤ m.position + j0 * m.direction + k * m.direction then 6
                      else m.position + j0 * m.direction + k * m.direction),
                   if m.has_turned_around then true
                   else decide (6 ≤ m.position + j0 * m.direction + k * m.direction),
                   m.player⟩
              currentPlayer := 1 - b.currentPlayer }) ∧
    (∃ (b : Board) (i : Nat) (m : Piece) (s : Int) (j0 k : Nat),
      2 ≤ k ∧ Board.init.play [0, 7, 0, 6] = .ok b ∧
      b.WellFormed ∧ b.pieces[i]? = some m ∧ m.player = b.currentPlayer ∧
      getPieceSpeed m = some s ∧ 1 ≤ j0 ∧ (j0 : Int) ≤ s ∧
      (∀ t : Nat, 1 ≤ t → t < j0 →
        ∀ o ∈ b.pieces, ¬ intersects m o (m.position + t * m.direction)) ∧
      (∀ t : Nat, t < k →
        ∃ o ∈ b.pieces, intersects m o (m.position + j0 * m.direction + t * m.direction)) ∧
      (∀ o ∈ b.pieces,
        ¬ intersects m o (m.position + j0 * m.direction + k * m.direction)) ∧
      b.pieces[6]? = some ⟨6, 2, false, 1⟩ ∧ b.pieces[7]? = some ⟨7, 2, false, 1⟩ ∧
      b.makeMove (i : Int) = .ok chainedBoard ∧
      chainedBoard.pieces[6]? = some ⟨6, 0, false, 1⟩ ∧
      chainedBoard.pieces[7]? = some ⟨7, 0, false, 1⟩ ∧
      chainedBoard.pieces[i]? = some ⟨1, 4, false, 0⟩) := by
  constructor
  · intro b i m s j0 k hwf hm hown hs hj1 hj2 hk hfirst hcap hclear
    obtain ⟨hi, -, -⟩ := shaped_piece hwf.1 hm
    have hm01 : m.player = 0 ∨ m.player = 1 := by rw [hown]; exact hwf.2.2
    have hmi : (b.pieces.map fun o =>
        if ∃ t : Nat, t < k ∧
            intersects m o (m.position + j0 * m.direction + t * m.direction)
        then o.reset else o)[i]? = some m := by
      rw [List.getElem?_map, hm]
      simp only [Option.map_some', Option.some.injEq]
      rw [if_neg]
      rintro ⟨t, -, hx⟩
      exact hx.1 rfl
    rw [makeMove_of_advance hi hm hown hs
      (advance_hit hwf.1 hm01 j0 k hj1 hj2 hk hfirst hcap hclear), modifyAt_eq_set _ hmi, land_eq]
    rfl
  · exact ⟨chainBoard, 1, ⟨1, 0, false, 0⟩, 3, 2, 2, le_refl _, by decide, by decide, by decide,
      by decide, by decide, by decide, by decide, chainBoard_first, chainBoard_captures,
      by decide, by decide, by decide, by decide, by decide, by decide, by decide⟩

theorem makeMove_chain_capture_witness :
    chainBoard.WellFormed ∧
    chainBoard.makeMove ((1 : Nat) : Int) = .ok chainedBoard ∧
    chainBoard.makeMove ((1 : Nat) : Int) =
      .ok { pieces :=
              (chainBoard.pieces.map fun o =>
                if ∃ t : Nat, t < 2 ∧
                    intersects ⟨1, 0, false, 0⟩ o
                      ((⟨1, 0, false, 0⟩ : Piece).position
                        + (2 : Nat) * (⟨1, 0, false, 0⟩ : Piece).direction
                        + t * (⟨1, 0, false, 0⟩ : Piece).direction)
                then
                  ⟨o.id, if o.has_turned_around then 6 else 0, o.has_turned_around, o.player⟩
                else o).set 1 ⟨1, 4, false, 0⟩
            currentPlayer := 1 } :=
  ⟨by decide, by decide,
   makeMove_chain_capture.1 chainBoard 1 ⟨1, 0, false, 0⟩ 3 2 2 (by decide) (by decide)
     (by decide) (by decide) (by decide) (by decide) (by decide)
     chainBoard_first chainBoard_captures (by decide)⟩

/-! ## Invariants of `makeMove` -/

/-- A normal return of `makeMove` comes from the last branch of its definition. -/
theorem makeMove_ok_inv {b : Board} {pieceId : Int} {b1 : Board}
    (h : b.makeMove pieceId = .ok b1) :
    ∃ (i : Nat) (m : Piece) (s : Int) (ps : List Piece) (cur : Int),
      pieceId = (i : Int) ∧ i < 10 ∧ b.pieces[i]? = some m ∧ m.player = b.currentPlayer ∧
      getPieceSpeed m = some s ∧ advance b.pieces m s = some (ps, cur) ∧
      b1 = { pieces := modifyAt (fun p => p.land cur) i ps
             currentPlayer := 1 - b.currentPlayer } := by
  unfold Board.makeMove at h
  split at h
  · cases h
  · rename_i hr
    simp only [Bool.or_eq_true, decide_eq_true_eq, not_or, not_lt, ge_iff_le, not_le] at hr
    obtain ⟨i, rfl⟩ := Int.eq_ofNat_of_zero_le hr.1
    split at h
    · cases h
    · rename_i m hm
      split at h
      · cases h
      · rename_i hown
        split at h
        · cases h
        · rename_i s hs
          split at h
          · cases h
          · rename_i ps cur ha
            simp only [MoveResult.ok.injEq] at h
            refine ⟨i, m, s, ps, cur, rfl, by omega, by simpa using hm, ?_, hs, ha, ?_⟩
            · simpa using hown
            · rw [← h]; simp

theorem land_flag (m : Piece) (cur : Int) (h : m.has_turned_around = true) :
    (m.land cur).has_turned_around = true := by
  unfold Piece.land
  simp only [h]
  split
  · rfl
  · split <;> rfl

theorem land_cases (m : Piece) (cur : Int) :
    (m.has_turned_around = false → 6 ≤ cur →
      (m.land cur).position = 6 ∧ (m.land cur).has_turned_around = true) ∧
    (m.has_turned_around = false → cur < 6 →
      (m.land cur).position = cur ∧ (m.land cur).has_turned_around = false) ∧
    (m.has_turned_around = true → cur ≤ 0 → (m.land cur).position = 0) ∧
    (m.has_turned_around = true → 0 < cur → (m.land cur).position = cur) ∧
    (m.land cur).id = m.id ∧ (m.land cur).player = m.player := by
  obtain ⟨a, pos, t, pl⟩ := m
  unfold Piece.land
  cases t
  · by_cases h : 6 ≤ cur
    · simp [h]
    · simp [h]
  · by_cases h : cur ≤ 0
    · simp [h]
    · simp [h]

/-- The moving piece is not touched by the captures of its own move. -/
theorem capturedFrom_mover {m : Piece} {ps ps1 : List Piece} (h : CapturedFrom m ps ps1)
    {i : Nat} (hm : ps[i]? = some m) : ps1[i]? = some m := by
  rcases h.2 i m hm with h1 | ⟨h1, -⟩
  · exact h1
  · exact absurd rfl h1

theorem makeMove_flags {b : Board} {pieceId : Int} {b1 : Board}
    (h : b.makeMove pieceId = .ok b1) (n : Nat) (p : Piece) (hp : b.pieces[n]? = some p)
    (ht : p.has_turned_around = true) :
    ∃ p1, b1.pieces[n]? = some p1 ∧ p1.has_turned_around = true := by
  obtain ⟨i, m, s, ps, cur, -, -, hm, -, -, ha, rfl⟩ := makeMove_ok_inv h
  obtain ⟨hc, -⟩ := advance_inv ha
  simp only
  rw [getElem?_modifyAt]
  have hq : ∃ q, ps[n]? = some q ∧ q.has_turned_around = true := by
    rcases hc.2 n p hp with h1 | ⟨-, h1⟩
    · exact ⟨p, h1, ht⟩
    · exact ⟨p.reset, h1, ht⟩
  obtain ⟨q, hq1, hq2⟩ := hq
  split
  · exact ⟨q.land cur, by simp [hq1], land_flag q cur hq2⟩
  · exact ⟨q, hq1, hq2⟩

theorem play_cons_ok {b : Board} {pieceId : Int} {rest : List Int} {b2 : Board}
    (h : b.play (pieceId :: rest) = .ok b2) :
    ∃ b1, b.makeMove pieceId = .ok b1 ∧ b1.play rest = .ok b2 := by
  unfold Board.play at h
  split at h
  · rename_i b1 hb1
    exact ⟨b1, hb1, h⟩
  · rename_i r hr
    rw [h] at hr
    exact absurd rfl (hr b2)

theorem makeMove_wellFormed {b : Board} (hwf : b.WellFormed) {pieceId : Int} {b1 : Board}
    (h : b.makeMove pieceId = .ok b1) : b1.WellFormed := by
  obtain ⟨i, m, s, ps, cur, -, -, hm, hown, -, ha, rfl⟩ := makeMove_ok_inv h
  obtain ⟨hc, t, hcur⟩ := advance_inv ha
  have hs1 : shaped ps := shaped_capturedFrom hwf.1 hc
  have hmi := capturedFrom_mover hc hm
  have hmpos := hwf.2.1 m (List.getElem?_mem hm)
  have hlen : ps.length = b.pieces.length := hc.1
  refine ⟨?_, ?_, ?_⟩
  · exact shaped_modifyAt hs1 _ (fun p => (land_cases p cur).2.2.2.2.1)
      (fun p => (land_cases p cur).2.2.2.2.2) i
  · intro p hp
    obtain ⟨n, hn⟩ := List.getElem?_of_mem hp
    simp only at hn
    rw [getElem?_modifyAt] at hn
    by_cases hni : n = i
    · subst hni
      rw [if_pos rfl, hmi] at hn
      simp only [Option.map_some', Option.some.injEq] at hn
      subst hn
      have lc := land_cases m cur
      have hd : m.direction = if m.has_turned_around then -1 else 1 := rfl
      cases htr : m.has_turned_around
      · rw [htr] at hd
        simp only [Bool.false_eq_true, if_false] at hd
        rw [hd] at hcur
        by_cases h6 : 6 ≤ cur
        · rw [(lc.1 htr h6).1]; omega
        · rw [(lc.2.1 htr (by omega)).1]; omega
      · rw [htr] at hd
        simp only [if_true] at hd
        rw [hd] at hcur
        by_cases h0 : cur ≤ 0
        · rw [lc.2.2.1 htr h0]; omega
        · rw [lc.2.2.2.1 htr (by omega)]; omega
    · rw [if_neg hni] at hn
      have hlt : n < b.pieces.length := by
        rw [← hlen]
        exact (List.getElem?_eq_some_iff.1 hn).1
      rcases hc.2 n _ (List.getElem?_eq_getElem hlt) with h1 | ⟨-, h1⟩
      · rw [hn] at h1
        cases h1
        exact hwf.2.1 _ (List.getElem_mem hlt)
      · rw [hn] at h1
        cases h1
        unfold Piece.reset
        simp only
        split <;> omega
  · simp only
    rcases hwf.2.2 with h0 | h0 <;> rw [h0] <;> simp

theorem play_wellFormed {b : Board} (hwf : b.WellFormed) (ids : List Int) {b1 : Board}
    (h : b.play ids = .ok b1) : b1.WellFormed := by
  induction ids generalizing b with
  | nil =>
    simp only [Board.play, MoveResult.ok.injEq] at h
    rw [← h]
    exact hwf
  | cons pieceId rest ih =>
    obtain ⟨b2, h1, h2⟩ := play_cons_ok h
    exact ih (makeMove_wellFormed hwf h1) h2

/-- C8: for a well-formed board and a call `makeMove(i)` that returns
normally, let `cur` be the landing position computed by the stepping and
capture loops.  If the mover had not turned around and `cur ≥ 6`, its final
position is exactly 6 and its flag is set; if it had not turned around and
`cur < 6`, its flag stays false; if it had turned around and `cur ≤ 0`, its
final position is exactly 0.  No flag goes from true to false in `makeMove`,
hence along any sequence of moves a flag that is set stays set. -/
theorem makeMove_turnaround :
    (∀ (b : Board) (i : Nat) (m : Piece) (b1 : Board),
      b.WellFormed → b.pieces[i]? = some m → b.makeMove (i : Int) = .ok b1 →
      ∃ (s cur : Int) (ps : List Piece) (m1 : Piece),
        getPieceSpeed m = some s ∧ advance b.pieces m s = some (ps, cur) ∧
        b1.pieces[i]? = some m1 ∧
        (m.has_turned_around = false → 6 ≤ cur →
          m1.position = 6 ∧ m1.has_turned_around = true) ∧
        (m.has_turned_around = false → cur < 6 → m1.has_turned_around = false) ∧
        (m.has_turned_around = true → cur ≤ 0 → m1.position = 0) ∧
        ∀ (n : Nat) (p : Piece), b.pieces[n]? = some p → p.has_turned_around = true →
          ∃ p1, b1.pieces[n]? = some p1 ∧ p1.has_turned_around = true) ∧
    (∀ (b : Board) (ids : List Int) (b1 : Board),
      b.WellFormed → b.play ids = .ok b1 →
      ∀ (n : Nat) (p : Piece), b.pieces[n]? = some p → p.has_turned_around = true →
        ∃ p1, b1.pieces[n]? = some p1 ∧ p1.has_turned_around = true) := by
  constructor
  · intro b i m b1 _ hm h
    obtain ⟨i1, m0, s, ps, cur, hi, -, hm0, -, hs, ha, hb1⟩ := makeMove_ok_inv h
    have e : i1 = i := by omega
    subst e
    rw [hm] at hm0
    cases hm0
    have hmi := capturedFrom_mover (advance_inv ha).1 hm
    have lc := land_cases m cur
    refine ⟨s, cur, ps, m.land cur, hs, ha, ?_, lc.1, fun h1 h2 => (lc.2.1 h1 h2).2, lc.2.2.1,
      fun n p hp ht => makeMove_flags h n p hp ht⟩
    rw [hb1]
    simp only
    rw [getElem?_modifyAt, if_pos rfl, hmi]
    rfl
  · intro b ids
    induction ids generalizing b with
    | nil =>
      intro b1 _ h n p hp ht
      simp only [Board.play, MoveResult.ok.injEq] at h
      rw [← h]
      exact ⟨p, hp, ht⟩
    | cons pieceId rest ih =>
      intro b1 hwf h n p hp ht
      obtain ⟨b2, h1, h2⟩ := play_cons_ok h
      obtain ⟨p2, hp2, ht2⟩ := makeMove_flags h1 n p hp ht
      exact ih b2 b1 (makeMove_wellFormed hwf h1) h2 n p2 hp2 ht2

theorem makeMove_turnaround_witness :
    (Board.init.play [0, 5, 3, 5, 3] = .ok turnBoard ∧
      turnBoard.WellFormed ∧ turnBoard.pieces[5]? = some ⟨5, 5, false, 1⟩ ∧
      turnBoard.makeMove ((5 : Nat) : Int) = .ok turnedBoard ∧
      advance turnBoard.pieces ⟨5, 5, false, 1⟩ 3 = some (turnBoard.pieces, 8) ∧
      turnedBoard.pieces[5]? = some ⟨5, 6, true, 1⟩ ∧
      ∃ (s cur : Int) (ps : List Piece) (m1 : Piece),
        getPieceSpeed ⟨5, 5, false, 1⟩ = some s ∧
        advance turnBoard.pieces ⟨5, 5, false, 1⟩ s = some (ps, cur) ∧
        turnedBoard.pieces[5]? = some m1 ∧
        ((⟨5, 5, false, 1⟩ : Piece).has_turned_around = false → 6 ≤ cur →
          m1.position = 6 ∧ m1.has_turned_around = true) ∧
        ((⟨5, 5, false, 1⟩ : Piece).has_turned_around = false → cur < 6 →
          m1.has_turned_around = false) ∧
        ((⟨5, 5, false, 1⟩ : Piece).has_turned_around = true → cur ≤ 0 → m1.position = 0) ∧
        ∀ (n : Nat) (p : Piece), turnBoard.pieces[n]? = some p → p.has_turned_around = true →
          ∃ p1, turnedBoard.pieces[n]? = some p1 ∧ p1.has_turned_around = true) ∧
    (Board.init.play [2, 6, 2, 6, 2, 6, 2, 7, 2, 6] = .ok returnBoard ∧
      returnBoard.WellFormed ∧ returnBoard.pieces[2]? = some ⟨2, 1, true, 0⟩ ∧
      returnBoard.makeMove ((2 : Nat) : Int) = .ok returnedBoard ∧
      advance returnBoard.pieces ⟨2, 1, true, 0⟩ 2 = some (returnBoard.pieces, -1) ∧
      returnedBoard.pieces[2]? = some ⟨2, 0, true, 0⟩ ∧
      ∃ (s cur : Int) (ps : List Piece) (m1 : Piece),
        getPieceSpeed ⟨2, 1, true, 0⟩ = some s ∧
        advance returnBoard.pieces ⟨2, 1, true, 0⟩ s = some (ps, cur) ∧
        returnedBoard.pieces[2]? = some m1 ∧
        ((⟨2, 1, true, 0⟩ : Piece).has_turned_around = false → 6 ≤ cur →
          m1.position = 6 ∧ m1.has_turned_around = true) ∧
        ((⟨2, 1, true, 0⟩ : Piece).has_turned_around = false → cur < 6 →
          m1.has_turned_around = false) ∧
        ((⟨2, 1, true, 0⟩ : Piece).has_turned_around = true → cur ≤ 0 → m1.position = 0) ∧
        ∀ (n : Nat) (p : Piece), returnBoard.pieces[n]? = some p → p.has_turned_around = true →
          ∃ p1, returnedBoard.pieces[n]? = some p1 ∧ p1.has_turned_around = true) ∧
    (turnBoard.play [5, 3, 5] = .ok laterBoard ∧
      turnBoard.pieces[3]? = some ⟨3, 6, true, 0⟩ ∧
      laterBoard.pieces[3]? = some ⟨3, 5, true, 0⟩ ∧
      ∀ (n : Nat) (p : Piece), turnBoard.pieces[n]? = some p → p.has_turned_around = true →
        ∃ p1, laterBoard.pieces[n]? = some p1 ∧ p1.has_turned_around = true) :=
  ⟨⟨by decide, by decide, by decide, by decide, by decide, by decide,
    makeMove_turnaround.1 turnBoard 5 ⟨5, 5, false, 1⟩ turnedBoard (by decide) (by decide)
      (by decide)⟩,
   ⟨by decide, by decide, by decide, by decide, by decide, by decide,
    makeMove_turnaround.1 returnBoard 2 ⟨2, 1, true, 0⟩ returnedBoard (by decide) (by decide)
      (by decide)⟩,
   ⟨by decide, by decide, by decide,
    makeMove_turnaround.2 turnBoard [5, 3, 5] laterBoard (by decide) (by decide)⟩⟩

/-- C9: every board reached from the constructed board by calls of `makeMove`
that return normally is well-formed: it has exactly 10 pieces, `pieces[i].id`
is `i`, ids 0-4 are owned by player 0 and ids 5-9 by player 1 (five pieces
each), every position lies in `[0,6]` and `currentPlayer` is 0 or 1. -/
theorem reachable_wellFormed (ids : List Int) (b : Board)
    (h : Board.init.play ids = .ok b) :
    b.WellFormed ∧ b.pieces.length = 10 ∧
    b.pieces.map Piece.id = [0, 1, 2, 3, 4, 5, 6, 7, 8, 9] ∧
    b.pieces.map Piece.player = [0, 0, 0, 0, 0, 1, 1, 1, 1, 1] ∧
    b.pieces.countP (fun p => p.player == 0) = 5 ∧
    b.pieces.countP (fun p => p.player == 1) = 5 ∧
    (∀ p ∈ b.pieces, 0 ≤ p.position ∧ p.position ≤ 6) ∧
    (b.currentPlayer = 0 ∨ b.currentPlayer = 1) := by
  have hwf : b.WellFormed := play_wellFormed (by decide) ids h
  refine ⟨hwf, shaped_length hwf.1, hwf.1.1, hwf.1.2, ?_, ?_, hwf.2.1, hwf.2.2⟩
  · have e : b.pieces.countP (fun p => p.player == 0)
        = (b.pieces.map Piece.player).countP (fun x => x == 0) := by
      rw [List.countP_map]; rfl
    rw [e, hwf.1.2]
    decide
  · have e : b.pieces.countP (fun p => p.player == 1)
        = (b.pieces.map Piece.player).countP (fun x => x == 1) := by
      rw [List.countP_map]; rfl
    rw [e, hwf.1.2]
    decide

theorem reachable_wellFormed_witness :
    Board.init.play [0, 7, 0, 6] = .ok chainBoard ∧
    (chainBoard.WellFormed ∧ chainBoard.pieces.length = 10 ∧
    chainBoard.pieces.map Piece.id = [0, 1, 2, 3, 4, 5, 6, 7, 8, 9] ∧
    chainBoard.pieces.map Piece.player = [0, 0, 0, 0, 0, 1, 1, 1, 1, 1] ∧
    chainBoard.pieces.countP (fun p => p.player == 0) = 5 ∧
    chainBoard.pieces.countP (fun p => p.player == 1) = 5 ∧
    (∀ p ∈ chainBoard.pieces, 0 ≤ p.position ∧ p.position ≤ 6) ∧
    (chainBoard.currentPlayer = 0 ∨ chainBoard.currentPlayer = 1)) :=
  ⟨by decide, reachable_wellFormed [0, 7, 0, 6] chainBoard (by decide)⟩

/-! ## Speeds and the static evaluator -/

/-- C11: for every piece with id in `0..9`, `getPieceSpeed` returns a value in
`{1,2,3}`: the entry at `id mod 5` of `speeds_h = [1,3,2,3,1]` for player 0 and
of `speeds_v = [3,1,2,1,3]` otherwise when the piece has not turned around, and
4 minus that entry when it has. -/
theorem getPieceSpeed_spec (piece : Piece) (h0 : 0 ≤ piece.id) (h9 : piece.id ≤ 9) :
    speeds_h = [1, 3, 2, 3, 1] ∧ speeds_v = [3, 1, 2, 1, 3] ∧
    ∃ base s : Int,
      (if piece.player = 0 then speeds_h else speeds_v)[(piece.id % 5).toNat]? = some base ∧
      getPieceSpeed piece = some s ∧ (s = 1 ∨ s = 2 ∨ s = 3) ∧
      (piece.has_turned_around = false → s = base) ∧
      (piece.has_turned_around = true → s = 4 - base) := by
  refine ⟨rfl, rfl, ?_⟩
  obtain ⟨a, pos, t, pl⟩ := piece
  simp only at h0 h9
  obtain ⟨n, rfl⟩ := Int.eq_ofNat_of_zero_le h0
  have hn : n < 10 := by omega
  by_cases hp : pl = 0
  · subst hp
    interval_cases n <;> cases t <;>
      simp [getPieceSpeed, vecAt, speeds_h, speeds_v] <;> decide
  · interval_cases n <;> cases t <;>
      simp [getPieceSpeed, vecAt, speeds_h, speeds_v, hp] <;> decide

theorem getPieceSpeed_spec_witness :
    (0 : Int) ≤ (⟨6, 2, true, 1⟩ : Piece).id ∧ (⟨6, 2, true, 1⟩ : Piece).id ≤ 9 ∧
    (speeds_h = [1, 3, 2, 3, 1] ∧ speeds_v = [3, 1, 2, 1, 3] ∧
    ∃ base s : Int,
      (if (⟨6, 2, true, 1⟩ : Piece).player = 0 then speeds_h else speeds_v)[
        ((⟨6, 2, true, 1⟩ : Piece).id % 5).toNat]? = some base ∧
      getPieceSpeed ⟨6, 2, true, 1⟩ = some s ∧ (s = 1 ∨ s = 2 ∨ s = 3) ∧
      ((⟨6, 2, true, 1⟩ : Piece).has_turned_around = false → s = base) ∧
      ((⟨6, 2, true, 1⟩ : Piece).has_turned_around = true → s = 4 - base)) :=
  ⟨by decide, by decide, getPieceSpeed_spec ⟨6, 2, true, 1⟩ (by decide) (by decide)⟩

theorem evaluateLoop_step (p : Piece) (hp : p.player = 0 ∨ p.player = 1) (a c e : Int) :
    (let piece_score := if p.has_turned_around then (6 - p.position) * 2 + 10 else p.position
     let score := if p.player == 0 then a + piece_score else a - piece_score
     if p.position == 0 && p.has_turned_around then
       if p.player == 0 then (score, c + 1, e)
       else (score, c, e + 1)
     else (score, c, e))
    = (a + p.sign * p.contribution,
       c + (if (p.player == 0 && p.finished) = true then 1 else 0),
       e + (if (p.player == 1 && p.finished) = true then 1 else 0)) := by
  obtain ⟨id, pos, t, pl⟩ := p
  simp only at hp
  rcases hp with rfl | rfl <;> cases t <;> by_cases h : pos = 0 <;>
    simp [Piece.sign, Piece.contribution, Piece.finished, h] <;> ring

theorem evaluateLoop_foldl (ps : List Piece) (hp : ∀ p ∈ ps, p.player = 0 ∨ p.player = 1)
    (a c e : Int) :
    ps.foldl
      (fun acc p =>
        let piece_score := if p.has_turned_around then (6 - p.position) * 2 + 10 else p.position
        let score := if p.player == 0 then acc.1 + piece_score else acc.1 - piece_score
        if p.position == 0 && p.has_turned_around then
          if p.player == 0 then (score, acc.2.1 + 1, acc.2.2)
          else (score, acc.2.1, acc.2.2 + 1)
        else (score, acc.2.1, acc.2.2))
      (a, c, e)
    = (a + (ps.map fun p => p.sign * p.contribution).sum,
       c + ((ps.countP fun p => p.player == 0 && p.finished : Nat) : Int),
       e + ((ps.countP fun p => p.player == 1 && p.finished : Nat) : Int)) := by
  induction ps generalizing a c e with
  | nil => simp
  | cons p ps ih =>
    have hp0 := hp p (List.mem_cons_self _ _)
    rw [List.foldl_cons]
    simp only
    rw [evaluateLoop_step p hp0, ih (fun q hq => hp q (List.mem_cons_of_mem _ hq)),
      List.map_cons, List.sum_cons, List.countP_cons, List.countP_cons]
    push_cast
    refine Prod.ext ?_ (Prod.ext ?_ ?_) <;> simp only <;> ring

/-- C12: on every board whose pieces are owned by player 0 or player 1,
`evaluateState` equals the reference definition: `+1000` if `getWinner()` is 0,
`-1000` if it is 1, and otherwise the sum of `sign * c` over the pieces plus 30
per finished piece of player 0 minus 30 per finished piece of player 1. -/
theorem evaluateState_eq_ref (b : Board) (hp : ∀ p ∈ b.pieces, p.player = 0 ∨ p.player = 1) :
    evaluateState b = evaluateRef b := by
  unfold evaluateState evaluateRef evaluateLoop Board.finishedCount
  rw [evaluateLoop_foldl b.pieces hp]
  by_cases h0 : b.getWinner = 0
  · simp [h0]
  · by_cases h1 : b.getWinner = 1
    · simp [h1]
    · simp only [beq_iff_eq, h0, h1, if_false, zero_add]
      ring

theorem evaluateState_eq_ref_witness :
    (∀ p ∈ chainBoard.pieces, p.player = 0 ∨ p.player = 1) ∧
    evaluateState chainBoard = evaluateRef chainBoard :=
  ⟨by decide, evaluateState_eq_ref chainBoard (by decide)⟩
/-! ## Pieces that a move cannot touch -/

theorem reset_found_keeps {mp : Piece} {sq : Int} {ps : List Piece} {j : Nat}
    (h : findOpponent mp sq ps = some j) {i : Nat} {o : Piece} (ho : ps[i]? = some o)
    (hpos : o.position ≠ mp.track) : (modifyAt Piece.reset j ps)[i]? = some o := by
  obtain ⟨x, hx, -, hh⟩ := findOpponent_eq_some mp sq ps j h
  rw [hit_iff] at hh
  rw [getElem?_modifyAt]
  by_cases hij : i = j
  · subst hij
    rw [ho] at hx
    cases hx
    exact absurd hh.2.1 hpos
  · rw [if_neg hij]
    exact ho

theorem stepLoop_keeps (mp : Piece) (d : Int) (n : Nat) (ps : List Piece) (cur : Int)
    {i : Nat} {o : Piece} (ho : ps[i]? = some o) (hpos : o.position ≠ mp.track) :
    (stepLoop mp d n ps cur).1[i]? = some o := by
  induction n generalizing cur with
  | zero => simpa [stepLoop] using ho
  | succ n ih =>
    cases hf : findOpponent mp (cur + d) ps with
    | some j =>
      rw [stepLoop_some n hf]
      exact reset_found_keeps hf ho hpos
    | none =>
      rw [stepLoop_none n hf]
      exact ih (cur + d)

theorem chainLoop_keeps (mp : Piece) (d : Int) (fuel : Nat) (ps : List Piece) (cur : Int)
    (ps1 : List Piece) (cur1 : Int) (h : chainLoop mp d fuel ps cur = some (ps1, cur1))
    {i : Nat} {o : Piece} (ho : ps[i]? = some o) (hpos : o.position ≠ mp.track) :
    ps1[i]? = some o := by
  induction fuel generalizing ps cur with
  | zero => simp [chainLoop] at h
  | succ fuel ih =>
    cases hf : findOpponent mp cur ps with
    | some j =>
      rw [chainLoop_some fuel hf] at h
      exact ih _ _ h (reset_found_keeps hf ho hpos)
    | none =>
      rw [chainLoop_none fuel hf] at h
      simp only [Option.some.injEq, Prod.mk.injEq] at h
      rw [← h.1]
      exact ho

/-- A piece that does not stand on the mover's track is not touched by the
captures of a move. -/
theorem advance_keeps {ps : List Piece} {mp : Piece} {s : Int} {ps1 : List Piece} {cur : Int}
    (h : advance ps mp s = some (ps1, cur)) {i : Nat} {o : Piece} (ho : ps[i]? = some o)
    (hpos : o.position ≠ mp.track) : ps1[i]? = some o := by
  rw [advance_eq] at h
  exact chainLoop_keeps _ _ _ _ _ _ _ h (stepLoop_keeps mp mp.direction s.toNat ps mp.position ho hpos)
    hpos

theorem land_finished (m : Piece) (cur : Int) (hpos : m.position = 0)
    (ht : m.has_turned_around = true) (hcur : cur ≤ 0) : m.land cur = m := by
  obtain ⟨id, pos, t, pl⟩ := m
  simp only at hpos ht
  subst hpos ht
  simp [Piece.land, hcur]

/-- A finished piece is left as it is by every move on a well-formed board. -/
theorem makeMove_keeps_finished {b : Board} (hwf : b.WellFormed) {pieceId : Int} {b1 : Board}
    (h : b.makeMove pieceId = .ok b1) {n : Nat} {p : Piece} (hp : b.pieces[n]? = some p)
    (hpos : p.position = 0) (ht : p.has_turned_around = true) : b1.pieces[n]? = some p := by
  obtain ⟨i, m, s, ps, cur, -, -, hm, -, -, ha, rfl⟩ := makeMove_ok_inv h
  have htr := shaped_track_range hwf.1 (List.getElem?_mem hm)
  have hkeep : ps[n]? = some p := advance_keeps ha hp (by rw [hpos]; omega)
  simp only
  rw [getElem?_modifyAt]
  by_cases hni : n = i
  · subst hni
    rw [hp] at hm
    cases hm
    rw [if_pos rfl, hkeep]
    obtain ⟨-, t, hcur⟩ := advance_inv ha
    have hd : p.direction = -1 := by simp [Piece.direction, ht]
    rw [hpos, hd] at hcur
    simp only [Option.map_some', Option.some.injEq]
    exact land_finished p cur hpos ht (by omega)
  · rw [if_neg hni]
    exact hkeep

theorem countP_le_of_aligned (P : Piece → Bool) (l1 l2 : List Piece)
    (hlen : l1.length = l2.length)
    (h : ∀ (i : Nat) (x : Piece), l1[i]? = some x → P x = true →
      ∃ y, l2[i]? = some y ∧ P y = true) :
    l1.countP P ≤ l2.countP P := by
  induction l1 generalizing l2 with
  | nil => simp
  | cons x xs ih =>
    cases l2 with
    | nil => simp at hlen
    | cons y ys =>
      have hrest := ih ys (by simpa using hlen)
        (fun i z hz hPz => by simpa using h (i + 1) z (by simpa using hz) hPz)
      rw [List.countP_cons, List.countP_cons]
      by_cases hx : P x = true
      · obtain ⟨y1, hy1, hPy⟩ := h 0 x (by simp) hx
        simp only [List.getElem?_cons_zero, Option.some.injEq] at hy1
        subst hy1
        simp only [hx, hPy, if_true]
        omega
      · simp only [hx, Bool.false_eq_true, if_false]
        split <;> omega

theorem makeMove_length {b : Board} {pieceId : Int} {b1 : Board}
    (h : b.makeMove pieceId = .ok b1) : b1.pieces.length = b.pieces.length := by
  obtain ⟨i, m, s, ps, cur, -, -, -, -, -, ha, rfl⟩ := makeMove_ok_inv h
  simp only
  rw [length_modifyAt]
  exact (advance_inv ha).1.1

/-- The number of finished pieces of a player never decreases in a move. -/
theorem finishedCount_mono {b : Board} (hwf : b.WellFormed) {pieceId : Int} {b1 : Board}
    (h : b.makeMove pieceId = .ok b1) (player : Int) :
    b.finishedCount player ≤ b1.finishedCount player := by
  unfold Board.finishedCount
  apply countP_le_of_aligned _ _ _ (makeMove_length h).symm
  intro i x hx hP
  refine ⟨x, ?_, hP⟩
  simp only [Piece.finished, Bool.and_eq_true, beq_iff_eq] at hP
  exact makeMove_keeps_finished hwf h hx hP.2.1 hP.2.2

theorem getWinner_eq (b : Board) :
    b.getWinner = if 4 ≤ b.finishedCount 0 then 0 else if 4 ≤ b.finishedCount 1 then 1 else -1 := by
  unfold Board.getWinner
  rw [countReturned_eq]
  simp only
  by_cases h0 : 4 ≤ b.finishedCount 0
  · have : ((b.finishedCount 0 : Nat) : Int) ≥ 4 := by omega
    simp [this, h0]
  · have h0i : ¬ ((b.finishedCount 0 : Nat) : Int) ≥ 4 := by omega
    by_cases h1 : 4 ≤ b.finishedCount 1
    · have : ((b.finishedCount 1 : Nat) : Int) ≥ 4 := by omega
      simp [this, h0i, h0, h1]
    · have h1i : ¬ ((b.finishedCount 1 : Nat) : Int) ≥ 4 := by omega
      simp [h0i, h1i, h0, h1]

/-- C17 (counterexample): after 64 moves of a game player 1 has won
(`getWinner()` is 1) with player 0 to move; the further call `makeMove(0)`
returns normally and finishes a fourth piece of player 0, after which
`getWinner()` is 0. -/
theorem winner_stability_counterexample :
    Board.init.play
      [2, 6, 2, 6, 2, 5, 2, 7, 0, 6, 1, 7, 3, 7, 3, 7, 0, 8, 3, 8, 2, 6, 2, 6, 1, 5, 1, 7, 2, 6,
       3, 8, 3, 7, 3, 7, 3, 9, 0, 9, 1, 8, 1, 9, 0, 9, 3, 9, 1, 6, 1, 8, 1, 6, 0, 8, 0, 9, 1, 5,
       0, 9, 3, 9] = .ok wonBoard ∧
    wonBoard.WellFormed ∧ wonBoard.getWinner = 1 ∧
    wonBoard.makeMove 0 = .ok flippedBoard ∧ flippedBoard.getWinner = 0 := by
  decide

/-- C17 (amended): on a well-formed board on which `getWinner()` returns a
player, after any further call of `makeMove` that returns normally
`getWinner()` does not revert to -1; if it returned 0 it still returns 0, and if
it returned 1 it returns 1 unless player 0 now has four finished pieces, in
which case it returns 0. -/
theorem winner_stability (b : Board) (hwf : b.WellFormed) (pieceId : Int) (b1 : Board)
    (h : b.makeMove pieceId = .ok b1) :
    (b.getWinner = 0 → b1.getWinner = 0) ∧
    (b.getWinner = 1 →
      (b1.finishedCount 0 < 4 ∧ b1.getWinner = 1) ∨
      (4 ≤ b1.finishedCount 0 ∧ b1.getWinner = 0)) ∧
    (b.getWinner ≠ -1 → b1.getWinner ≠ -1) := by
  have m0 := finishedCount_mono hwf h 0
  have m1 := finishedCount_mono hwf h 1
  rw [getWinner_eq b, getWinner_eq b1]
  refine ⟨?_, ?_, ?_⟩
  · intro hw
    split at hw
    · rw [if_pos (by omega)]
    · split at hw <;> omega
  · intro hw
    split at hw
    · omega
    · split at hw
      · by_cases h4 : 4 ≤ b1.finishedCount 0
        · exact Or.inr ⟨h4, by rw [if_pos h4]⟩
        · exact Or.inl ⟨by omega, by rw [if_neg h4, if_pos (by omega)]⟩
      · omega
  · intro hw
    split at hw
    · rw [if_pos (by omega)]; omega
    · split at hw
      · split
        · omega
        · rw [if_pos (by omega)]; omega
      · exact absurd rfl hw

theorem winner_stability_witness :
    wonBoard.WellFormed ∧ wonBoard.makeMove 0 = .ok flippedBoard ∧
    ((wonBoard.getWinner = 0 → flippedBoard.getWinner = 0) ∧
    (wonBoard.getWinner = 1 →
      (flippedBoard.finishedCount 0 < 4 ∧ flippedBoard.getWinner = 1) ∨
      (4 ≤ flippedBoard.finishedCount 0 ∧ flippedBoard.getWinner = 0)) ∧
    (wonBoard.getWinner ≠ -1 → flippedBoard.getWinner ≠ -1)) :=
  ⟨by decide, by decide, winner_stability wonBoard (by decide) 0 flippedBoard (by decide)⟩

/-! ## Termination and the number of captures -/

/-- How the step loop ends: after `T` steps, either without a capture (then
`T = n` and all `T` squares were clear) or with the capture of the opponent
found on the `T`-th square, the squares before it being clear. -/
theorem stepLoop_cases (mp : Piece) (d : Int) (n : Nat) (ps : List Piece) (cur : Int) :
    ∃ T : Nat, T ≤ n ∧ (stepLoop mp d n ps cur).2.1 = cur + T * d ∧
      (∀ t : Nat, 1 ≤ t → t < T → findOpponent mp (cur + t * d) ps = none) ∧
      (((stepLoop mp d n ps cur).2.2 = false ∧ (stepLoop mp d n ps cur).1 = ps ∧ T = n ∧
          (1 ≤ T → findOpponent mp (cur + T * d) ps = none)) ∨
        ((stepLoop mp d n ps cur).2.2 = true ∧ 1 ≤ T ∧
          ∃ j, findOpponent mp (cur + T * d) ps = some j ∧
            (stepLoop mp d n ps cur).1 = modifyAt Piece.reset j ps)) := by
  induction n generalizing cur with
  | zero =>
    refine ⟨0, le_refl _, by simp [stepLoop], fun t h1 h2 => by omega, Or.inl ?_⟩
    exact ⟨rfl, rfl, rfl, fun h => by omega⟩
  | succ n ih =>
    cases hf : findOpponent mp (cur + d) ps with
    | some j =>
      rw [stepLoop_some n hf]
      refine ⟨1, by omega, by simp, fun t h1 h2 => by omega, Or.inr ⟨rfl, le_refl _, j, ?_, rfl⟩⟩
      simpa using hf
    | none =>
      rw [stepLoop_none n hf]
      obtain ⟨T, hT, hcur, hclear, hend⟩ := ih (cur + d)
      have e : ∀ t : Nat, cur + d + (t : Int) * d = cur + ((t + 1 : Nat) : Int) * d := by
        intro t; push_cast; ring
      refine ⟨T + 1, by omega, by rw [hcur, e], ?_, ?_⟩
      · intro t h1 h2
        by_cases ht : t = 1
        · subst ht; simpa using hf
        · have := hclear (t - 1) (by omega) (by omega)
          rw [e, Nat.sub_add_cancel h1] at this
          exact this
      · rcases hend with ⟨h1, h2, h3, h4⟩ | ⟨h1, h2, j, h3, h4⟩
        · refine Or.inl ⟨h1, h2, by omega, fun _ => ?_⟩
          by_cases hT0 : T = 0
          · subst hT0; simpa using hf
          · rw [← e]; exact h4 (by omega)
        · exact Or.inr ⟨h1, by omega, j, by rw [← e]; exact h3, h4⟩

/-- On a shaped board the chain loop captures only while `current_pos` is in
`1..5`, and `current_pos` advances by one square per capture. -/
theorem chainCaptures_le (mp : Piece) (d : Int) (hd : d = 1 ∨ d = -1) (fuel : Nat)
    (ps : List Piece) (cur : Int) (hs : shaped ps) :
    (chainCaptures mp d fuel ps cur : Int) ≤
      if 1 ≤ cur ∧ cur ≤ 5 then (if d = 1 then 6 - cur else cur) else 0 := by
  induction fuel generalizing ps cur with
  | zero =>
    simp only [chainCaptures, Nat.cast_zero]
    split
    · split <;> omega
    · exact le_refl _
  | succ fuel ih =>
    unfold chainCaptures
    cases hf : findOpponent mp cur ps with
    | none =>
      simp only [Nat.cast_zero]
      split
      · split <;> omega
      · exact le_refl _
    | some j =>
      simp only
      obtain ⟨o, ho, -, hh⟩ := findOpponent_eq_some mp cur ps j hf
      rw [hit_iff] at hh
      have hr := shaped_track_range hs (List.getElem?_mem ho)
      rw [hh.2.2] at hr
      have hs1 : shaped (modifyAt Piece.reset j ps) :=
        shaped_modifyAt hs Piece.reset (fun _ => rfl) (fun _ => rfl) j
      have := ih (modifyAt Piece.reset j ps) (cur + d) hs1
      rw [if_pos hr]
      push_cast
      have e1 : ((1 : Int) = 1) = True := by simp
      have e2 : ((-1 : Int) = 1) = False := by simp
      rcases hd with hd | hd <;> subst hd
      · simp only [e1, if_true] at this ⊢
        split at this <;> omega
      · simp only [e2, if_false] at this ⊢
        split at this <;> omega

theorem moveCaptures_le {ps : List Piece} (hs : shaped ps) (mp : Piece) (s : Int) (fuel : Nat) :
    moveCaptures ps mp s fuel ≤ 5 := by
  have hd := direction_cases mp
  have key : moveCaptures ps mp s fuel =
      (if (stepLoop mp mp.direction s.toNat ps mp.position).2.2 then 1 else 0)
        + chainCaptures mp mp.direction fuel (stepLoop mp mp.direction s.toNat ps mp.position).1
          (if (stepLoop mp mp.direction s.toNat ps mp.position).2.2 then
            (stepLoop mp mp.direction s.toNat ps mp.position).2.1 + mp.direction
           else (stepLoop mp mp.direction s.toNat ps mp.position).2.1) := rfl
  rw [key]
  generalize mp.direction = d at hd ⊢
  obtain ⟨T, -, hcur, -, hend⟩ := stepLoop_cases mp d s.toNat ps mp.position
  have hs1 := shaped_capturedFrom hs (stepLoop_inv mp d s.toNat ps mp.position).1
  rcases hend with ⟨h1, -, -, -⟩ | ⟨h1, -, j, h3, -⟩
  · rw [h1]
    simp only [Bool.false_eq_true, if_false, zero_add]
    have := chainCaptures_le mp d hd fuel _ (stepLoop mp d s.toNat ps mp.position).2.1 hs1
    have e1 : ((1 : Int) = 1) = True := by simp
    have e2 : ((-1 : Int) = 1) = False := by simp
    split at this
    · rcases hd with hd | hd <;> subst hd
      · simp only [e1, if_true] at this; omega
      · simp only [e2, if_false] at this; omega
    · omega
  · rw [h1]
    simp only [if_true]
    obtain ⟨o, ho, -, hh⟩ := findOpponent_eq_some mp _ ps j h3
    rw [hit_iff] at hh
    have hr := shaped_track_range hs (List.getElem?_mem ho)
    rw [hh.2.2, ← hcur] at hr
    have := chainCaptures_le mp d hd fuel _
      ((stepLoop mp d s.toNat ps mp.position).2.1 + d) hs1
    have e1 : ((1 : Int) = 1) = True := by simp
    have e2 : ((-1 : Int) = 1) = False := by simp
    split at this
    · rcases hd with hd | hd <;> subst hd
      · simp only [e1, if_true] at this; omega
      · simp only [e2, if_false] at this; omega
    · omega

theorem chainCaptures_le_five (mp : Piece) (d : Int) (hd : d = 1 ∨ d = -1) (fuel : Nat)
    (ps : List Piece) (cur : Int) (hs : shaped ps) : chainCaptures mp d fuel ps cur ≤ 5 := by
  have := chainCaptures_le mp d hd fuel ps cur hs
  have e1 : ((1 : Int) = 1) = True := by simp
  have e2 : ((-1 : Int) = 1) = False := by simp
  split at this
  · rcases hd with hd | hd <;> subst hd
    · simp only [e1, if_true] at this; omega
    · simp only [e2, if_false] at this; omega
  · omega
/-- C19: on a well-formed board a call of `makeMove` for a piece of the player
to move returns normally.  The loop `while (true)` breaks for every fuel of at
least 6 with the same result, it executes at most 5 capturing iterations
however many iterations it is allowed, and the whole call captures at most 5
opponents.  Every piece other than the mover is either left as it is or is an
opponent that stood on the mover's track (a value in `1..5`) and now stands at
0 or 6. -/
theorem makeMove_terminates (b : Board) (hwf : b.WellFormed) (i : Nat) (m : Piece)
    (hm : b.pieces[i]? = some m) (hown : m.player = b.currentPlayer) :
    ∃ (s : Int) (ps : List Piece) (cur : Int) (b1 : Board),
      getPieceSpeed m = some s ∧ b.makeMove (i : Int) = .ok b1 ∧
      (∀ fuel : Nat, 6 ≤ fuel →
        chainLoop m m.direction fuel
          (stepLoop m m.direction s.toNat b.pieces m.position).1
          (if (stepLoop m m.direction s.toNat b.pieces m.position).2.2 then
            (stepLoop m m.direction s.toNat b.pieces m.position).2.1 + m.direction
           else (stepLoop m m.direction s.toNat b.pieces m.position).2.1)
        = some (ps, cur)) ∧
      (∀ fuel : Nat,
        chainCaptures m m.direction fuel
          (stepLoop m m.direction s.toNat b.pieces m.position).1
          (if (stepLoop m m.direction s.toNat b.pieces m.position).2.2 then
            (stepLoop m m.direction s.toNat b.pieces m.position).2.1 + m.direction
           else (stepLoop m m.direction s.toNat b.pieces m.position).2.1) ≤ 5) ∧
      (∀ fuel : Nat, moveCaptures b.pieces m s fuel ≤ 5) ∧
      (∀ (n : Nat) (o : Piece), b.pieces[n]? = some o → n ≠ i →
        b1.pieces[n]? = some o ∨
        (o.player ≠ m.player ∧ o.position = m.track ∧ 1 ≤ m.track ∧ m.track ≤ 5 ∧
          b1.pieces[n]? = some o.reset ∧ (o.reset.position = 0 ∨ o.reset.position = 6))) := by
  obtain ⟨hi, -, -⟩ := shaped_piece hwf.1 hm
  obtain ⟨s, hs, -, -⟩ := getPieceSpeed_shaped hwf.1 hm
  obtain ⟨⟨ps, cur⟩, ha⟩ := advance_total hwf.1 m s
  have hd := direction_cases m
  have hs1 := shaped_capturedFrom hwf.1 (stepLoop_inv m m.direction s.toNat b.pieces m.position).1
  have htr := shaped_track_range hwf.1 (List.getElem?_mem hm)
  refine ⟨s, ps, cur, _, hs, makeMove_of_advance hi hm hown hs ha, ?_, ?_,
    fun fuel => moveCaptures_le hwf.1 m s fuel, ?_⟩
  · intro fuel hfuel
    obtain ⟨r, hr⟩ := chainLoop_fuel m m.direction hd 6 _
      (if (stepLoop m m.direction s.toNat b.pieces m.position).2.2 then
        (stepLoop m m.direction s.toNat b.pieces m.position).2.1 + m.direction
       else (stepLoop m m.direction s.toNat b.pieces m.position).2.1) hs1 (by omega)
      (by intro h1 h2; split <;> push_cast <;> omega)
    have h11 := chainLoop_mono _ _ _ _ _ _ hr (b.pieces.length + 1 - 6)
    rw [show 6 + (b.pieces.length + 1 - 6) = b.pieces.length + 1 by
      rw [shaped_length hwf.1], ← advance_eq, ha] at h11
    have hfu := chainLoop_mono _ _ _ _ _ _ hr (fuel - 6)
    rw [show 6 + (fuel - 6) = fuel by omega] at hfu
    rw [hfu, h11]
  · intro fuel
    exact chainCaptures_le_five m m.direction hd fuel _ _ hs1
  · intro n o ho hni
    simp only
    rw [getElem?_modifyAt, if_neg hni]
    by_cases hpos : o.position = m.track
    · rcases (advance_inv ha).1.2 n o ho with h1 | ⟨h1, h2⟩
      · exact Or.inl h1
      · refine Or.inr ⟨h1, hpos, htr.1, htr.2, h2, ?_⟩
        unfold Piece.reset
        simp only
        split
        · exact Or.inr rfl
        · exact Or.inl rfl
    · exact Or.inl (advance_keeps ha ho hpos)

theorem makeMove_terminates_witness :
    chainBoard.WellFormed ∧ chainBoard.pieces[1]? = some ⟨1, 0, false, 0⟩ ∧
    (⟨1, 0, false, 0⟩ : Piece).player = chainBoard.currentPlayer ∧
    ∃ (s : Int) (ps : List Piece) (cur : Int) (b1 : Board),
      getPieceSpeed ⟨1, 0, false, 0⟩ = some s ∧ chainBoard.makeMove ((1 : Nat) : Int) = .ok b1 ∧
      (∀ fuel : Nat, 6 ≤ fuel →
        chainLoop ⟨1, 0, false, 0⟩ (⟨1, 0, false, 0⟩ : Piece).direction fuel
          (stepLoop ⟨1, 0, false, 0⟩ (⟨1, 0, false, 0⟩ : Piece).direction s.toNat
            chainBoard.pieces (⟨1, 0, false, 0⟩ : Piece).position).1
          (if (stepLoop ⟨1, 0, false, 0⟩ (⟨1, 0, false, 0⟩ : Piece).direction s.toNat
                chainBoard.pieces (⟨1, 0, false, 0⟩ : Piece).position).2.2 then
            (stepLoop ⟨1, 0, false, 0⟩ (⟨1, 0, false, 0⟩ : Piece).direction s.toNat
              chainBoard.pieces (⟨1, 0, false, 0⟩ : Piece).position).2.1
              + (⟨1, 0, false, 0⟩ : Piece).direction
           else (stepLoop ⟨1, 0, false, 0⟩ (⟨1, 0, false, 0⟩ : Piece).direction s.toNat
              chainBoard.pieces (⟨1, 0, false, 0⟩ : Piece).position).2.1)
        = some (ps, cur)) ∧
      (∀ fuel : Nat,
        chainCaptures ⟨1, 0, false, 0⟩ (⟨1, 0, false, 0⟩ : Piece).direction fuel
          (stepLoop ⟨1, 0, false, 0⟩ (⟨1, 0, false, 0⟩ : Piece).direction s.toNat
            chainBoard.pieces (⟨1, 0, false, 0⟩ : Piece).position).1
          (if (stepLoop ⟨1, 0, false, 0⟩ (⟨1, 0, false, 0⟩ : Piece).direction s.toNat
                chainBoard.pieces (⟨1, 0, false, 0⟩ : Piece).position).2.2 then
            (stepLoop ⟨1, 0, false, 0⟩ (⟨1, 0, false, 0⟩ : Piece).direction s.toNat
              chainBoard.pieces (⟨1, 0, false, 0⟩ : Piece).position).2.1
              + (⟨1, 0, false, 0⟩ : Piece).direction
           else (stepLoop ⟨1, 0, false, 0⟩ (⟨1, 0, false, 0⟩ : Piece).direction s.toNat
              chainBoard.pieces (⟨1, 0, false, 0⟩ : Piece).position).2.1) ≤ 5) ∧
      (∀ fuel : Nat, moveCaptures chainBoard.pieces ⟨1, 0, false, 0⟩ s fuel ≤ 5) ∧
      (∀ (n : Nat) (o : Piece), chainBoard.pieces[n]? = some o → n ≠ 1 →
        b1.pieces[n]? = some o ∨
        (o.player ≠ (⟨1, 0, false, 0⟩ : Piece).player ∧
          o.position = (⟨1, 0, false, 0⟩ : Piece).track ∧
          1 ≤ (⟨1, 0, false, 0⟩ : Piece).track ∧ (⟨1, 0, false, 0⟩ : Piece).track ≤ 5 ∧
          b1.pieces[n]? = some o.reset ∧ (o.reset.position = 0 ∨ o.reset.position = 6))) :=
  ⟨by decide, by decide, by decide,
   makeMove_terminates chainBoard (by decide) 1 ⟨1, 0, false, 0⟩ (by decide) (by decide)⟩
/-! ## No shared intersections -/

/-- When the chain loop breaks, no opponent passes the intersection test on
the landing square. -/
theorem chainLoop_exit (mp : Piece) (d : Int) (fuel : Nat) (ps : List Piece) (cur : Int)
    (ps1 : List Piece) (cur1 : Int) (h : chainLoop mp d fuel ps cur = some (ps1, cur1)) :
    findOpponent mp cur1 ps1 = none := by
  induction fuel generalizing ps cur with
  | zero => simp [chainLoop] at h
  | succ fuel ih =>
    cases hf : findOpponent mp cur ps with
    | some j =>
      rw [chainLoop_some fuel hf] at h
      exact ih _ _ h
    | none =>
      rw [chainLoop_none fuel hf] at h
      simp only [Option.some.injEq, Prod.mk.injEq] at h
      rw [← h.1, ← h.2]
      exact hf

theorem reset_position_ne_track (o mp : Piece) (h1 : 1 ≤ mp.track) (h5 : mp.track ≤ 5) :
    o.reset.position ≠ mp.track := by
  unfold Piece.reset
  simp only
  split <;> omega

/-- The chain loop captures every opponent standing on one of the squares it
moves over. -/
theorem chainLoop_path (mp : Piece) (hm : mp.player = 0 ∨ mp.player = 1)
    (h1 : 1 ≤ mp.track) (h5 : mp.track ≤ 5) (d : Int) (hd : d ≠ 0) (fuel : Nat)
    (ps : List Piece) (cur : Int) (hs : shaped ps) (ps1 : List Piece) (cur1 : Int)
    (h : chainLoop mp d fuel ps cur = some (ps1, cur1)) :
    ∃ T : Nat, cur1 = cur + T * d ∧
      ∀ t : Nat, t < T → ∀ (n : Nat) (o : Piece), ps[n]? = some o →
        intersects mp o (cur + t * d) → ps1[n]? = some o.reset := by
  induction fuel generalizing ps cur with
  | zero => simp [chainLoop] at h
  | succ fuel ih =>
    cases hf : findOpponent mp cur ps with
    | none =>
      rw [chainLoop_none fuel hf] at h
      simp only [Option.some.injEq, Prod.mk.injEq] at h
      exact ⟨0, by simp [h.2], fun t ht => by omega⟩
    | some j =>
      rw [chainLoop_some fuel hf] at h
      have hs1 : shaped (modifyAt Piece.reset j ps) :=
        shaped_modifyAt hs Piece.reset (fun _ => rfl) (fun _ => rfl) j
      obtain ⟨T, hT, hcap⟩ := ih _ _ hs1 h
      obtain ⟨x, hx, -, hhx⟩ := findOpponent_eq_some mp cur ps j hf
      rw [hit_iff] at hhx
      refine ⟨T + 1, by rw [hT]; push_cast; ring, ?_⟩
      intro t ht n o ho hio
      rcases Nat.eq_zero_or_pos t with h0 | h0
      · subst h0
        simp only [Nat.cast_zero, zero_mul, add_zero] at hio
        have hfind := findOpponent_some_of_intersects hs hm ho hio
        rw [hf] at hfind
        cases hfind
        apply chainLoop_keeps _ _ _ _ _ _ _ h
        · rw [getElem?_modifyAt, if_pos rfl, ho]; rfl
        · exact reset_position_ne_track o mp h1 h5
      · have hnj : n ≠ j := by
          rintro rfl
          rw [hx] at ho
          cases ho
          have e : cur + (t : Int) * d = cur := hio.2.2.symm.trans hhx.2.2
          have : (t : Int) * d = 0 := by linarith
          rcases mul_eq_zero.1 this with h | h
          · omega
          · exact hd h
        have ho1 : (modifyAt Piece.reset j ps)[n]? = some o := by
          rw [getElem?_modifyAt, if_neg hnj]; exact ho
        apply hcap (t - 1) (by omega) n o ho1
        have e : cur + d + ((t - 1 : Nat) : Int) * d = cur + (t : Int) * d := by
          rw [Nat.cast_sub h0]; push_cast; ring
        rw [e]
        exact hio

/-- The stepping and capture loops capture every opponent standing on a square
the mover passes before its landing square. -/
theorem advance_path {ps : List Piece} {mp : Piece} {s : Int} (hs : shaped ps)
    (hm : mp.player = 0 ∨ mp.player = 1) (h1 : 1 ≤ mp.track) (h5 : mp.track ≤ 5)
    {ps1 : List Piece} {cur : Int} (h : advance ps mp s = some (ps1, cur)) :
    ∃ T : Nat, cur = mp.position + T * mp.direction ∧
      ∀ t : Nat, 1 ≤ t → t < T → ∀ (n : Nat) (o : Piece), ps[n]? = some o →
        intersects mp o (mp.position + t * mp.direction) → ps1[n]? = some o.reset := by
  rw [advance_eq] at h
  have hd := direction_cases mp
  generalize mp.direction = d at hd h ⊢
  have hd0 : d ≠ 0 := by rcases hd with h | h <;> rw [h] <;> decide
  obtain ⟨J, -, hcur, hclear, hend⟩ := stepLoop_cases mp d s.toNat ps mp.position
  rcases hend with ⟨hj, hps, -, hlast⟩ | ⟨hj, hJ1, j, hfind, hps⟩
  · rw [hj, hps, hcur] at h
    simp only [Bool.false_eq_true, if_false] at h
    obtain ⟨T, hT, hcap⟩ := chainLoop_path mp hm h1 h5 d hd0 _ ps _ hs ps1 cur h
    refine ⟨J + T, by rw [hT]; push_cast; ring, ?_⟩
    intro t ht1 ht2 n o ho hio
    by_cases htJ : t < J
    · have := hclear t ht1 htJ
      rw [findOpponent_some_of_intersects hs hm ho hio] at this
      cases this
    · apply hcap (t - J) (by omega) n o ho
      have e : mp.position + (J : Int) * d + ((t - J : Nat) : Int) * d
          = mp.position + (t : Int) * d := by
        rw [Nat.cast_sub (by omega)]; ring
      rw [e]
      exact hio
  · rw [hj, hps, hcur] at h
    simp only [if_true] at h
    have hs1 : shaped (modifyAt Piece.reset j ps) :=
      shaped_modifyAt hs Piece.reset (fun _ => rfl) (fun _ => rfl) j
    obtain ⟨T, hT, hcap⟩ := chainLoop_path mp hm h1 h5 d hd0 _ _ _ hs1 ps1 cur h
    obtain ⟨x, hx, -, hhx⟩ := findOpponent_eq_some mp _ ps j hfind
    rw [hit_iff] at hhx
    refine ⟨J + 1 + T, by rw [hT]; push_cast; ring, ?_⟩
    intro t ht1 ht2 n o ho hio
    by_cases htJ : t < J
    · have := hclear t ht1 htJ
      rw [findOpponent_some_of_intersects hs hm ho hio] at this
      cases this
    · by_cases htJ1 : t = J
      · subst htJ1
        have hfind1 := findOpponent_some_of_intersects hs hm ho hio
        rw [hfind] at hfind1
        cases hfind1
        apply chainLoop_keeps _ _ _ _ _ _ _ h
        · rw [getElem?_modifyAt, if_pos rfl, ho]; rfl
        · exact reset_position_ne_track o mp h1 h5
      · have hnj : n ≠ j := by
          rintro rfl
          rw [hx] at ho
          cases ho
          have e : mp.position + (t : Int) * d = mp.position + (J : Int) * d :=
            hio.2.2.symm.trans hhx.2.2
          have : ((t : Int) - J) * d = 0 := by linarith
          rcases mul_eq_zero.1 this with h | h
          · omega
          · exact hd0 h
        have ho1 : (modifyAt Piece.reset j ps)[n]? = some o := by
          rw [getElem?_modifyAt, if_neg hnj]; exact ho
        apply hcap (t - J - 1) (by omega) n o ho1
        have e : mp.position + (J : Int) * d + d + ((t - J - 1 : Nat) : Int) * d
            = mp.position + (t : Int) * d := by
          have : ((t - J - 1 : Nat) : Int) = (t : Int) - J - 1 := by omega
          rw [this]; ring
        rw [e]
        exact hio
theorem land_track (m : Piece) (cur : Int) : (m.land cur).track = m.track := by
  unfold Piece.track
  rw [(land_cases m cur).2.2.2.2.1]

theorem land_position_mid (m : Piece) (cur : Int) (h1 : 1 ≤ (m.land cur).position)
    (h5 : (m.land cur).position ≤ 5) : (m.land cur).position = cur := by
  have lc := land_cases m cur
  cases ht : m.has_turned_around
  · by_cases h6 : 6 ≤ cur
    · have := (lc.1 ht h6).1; omega
    · exact (lc.2.1 ht (by omega)).1
  · by_cases h0 : cur ≤ 0
    · have := lc.2.2.1 ht h0; omega
    · exact lc.2.2.2.1 ht (by omega)

/-- After a move no opponent intersects the square the mover ends on. -/
theorem makeMove_final_clear {b : Board} (hwf : b.WellFormed) {i : Nat} {m : Piece}
    (hm : b.pieces[i]? = some m) {b1 : Board} (h : b.makeMove (i : Int) = .ok b1) :
    ∃ (cur : Int) (ps : List Piece) (s : Int), advance b.pieces m s = some (ps, cur) ∧
      b1.pieces[i]? = some (m.land cur) ∧
      (∀ (n : Nat), n ≠ i → b1.pieces[n]? = ps[n]?) ∧
      ∀ o ∈ b1.pieces, ¬ intersects (m.land cur) o (m.land cur).position := by
  obtain ⟨i1, m0, s, ps, cur, hi, -, hm0, hown, -, ha, hb1⟩ := makeMove_ok_inv h
  have e : i1 = i := by omega
  subst e
  rw [hm] at hm0
  cases hm0
  have hc := (advance_inv ha).1
  have hmi := capturedFrom_mover hc hm
  have hs1 : shaped ps := shaped_capturedFrom hwf.1 hc
  have hm01 : m.player = 0 ∨ m.player = 1 := by rw [hown]; exact hwf.2.2
  have hbi : b1.pieces[i1]? = some (m.land cur) := by
    rw [hb1]; simp only
    rw [getElem?_modifyAt, if_pos rfl, hmi]; rfl
  have hbn : ∀ (n : Nat), n ≠ i1 → b1.pieces[n]? = ps[n]? := by
    intro n hn
    rw [hb1]; simp only
    rw [getElem?_modifyAt, if_neg hn]
  refine ⟨cur, ps, s, ha, hbi, hbn, ?_⟩
  intro o ho hio
  obtain ⟨n, hn⟩ := List.getElem?_of_mem ho
  have hni : n ≠ i1 := by
    rintro rfl
    rw [hbi] at hn
    cases hn
    exact hio.1 rfl
  rw [hbn n hni] at hn
  have hr := shaped_track_range hs1 (List.getElem?_mem hn)
  rw [hio.2.2] at hr
  have hpos := land_position_mid m cur hr.1 hr.2
  have hexit : findOpponent m cur ps = none := by
    rw [advance_eq] at ha
    exact chainLoop_exit _ _ _ _ _ _ _ ha
  rw [findOpponent_eq_none] at hexit
  have hp : o.player ≠ m.player := by
    have := hio.1
    rwa [(land_cases m cur).2.2.2.2.2] at this
  have hh := hexit o (List.getElem?_mem hn) hp
  have : hit m o cur = true := by
    rw [hit_iff]
    refine ⟨hm01, ?_, ?_⟩
    · rw [hio.2.1, land_track]
    · rw [hio.2.2, hpos]
  rw [hh] at this
  cases this

/-- A move keeps the board free of shared intersections. -/
theorem makeMove_noShared {b : Board} (hwf : b.WellFormed) (hns : b.NoShared) {pieceId : Int}
    {b1 : Board} (h : b.makeMove pieceId = .ok b1) : b1.NoShared := by
  obtain ⟨i, m, s0, ps0, cur0, rfl, -, hm, -, -, -, -⟩ := makeMove_ok_inv h
  obtain ⟨cur, ps, s, ha, hbi, hbn, hclear⟩ := makeMove_final_clear hwf hm h
  have hwf1 := makeMove_wellFormed hwf h
  have hc := (advance_inv ha).1
  have back : ∀ (n : Nat) (x : Piece), n ≠ i → b1.pieces[n]? = some x →
      1 ≤ x.position → x.position ≤ 5 → b.pieces[n]? = some x := by
    intro n x hn hx h1 h5
    rw [hbn n hn] at hx
    have hlt : n < b.pieces.length := by
      rw [← hc.1]
      exact (List.getElem?_eq_some_iff.1 hx).1
    rcases hc.2 n _ (List.getElem?_eq_getElem hlt) with h2 | ⟨-, h2⟩
    · rw [hx] at h2
      cases h2
      exact List.getElem?_eq_getElem hlt
    · rw [hx] at h2
      cases h2
      have := reset_position_ne_track b.pieces[n] ⟨0, 0, false, 0⟩ (by decide) (by decide)
      have h0 : (b.pieces[n]).reset.position = 0 ∨ (b.pieces[n]).reset.position = 6 := by
        unfold Piece.reset
        simp only
        split
        · exact Or.inr rfl
        · exact Or.inl rfl
      omega
  intro a ha1 o ho1 hpa hpo hshare
  obtain ⟨na, hna⟩ := List.getElem?_of_mem ha1
  obtain ⟨no, hno⟩ := List.getElem?_of_mem ho1
  have hra := shaped_track_range hwf1.1 ha1
  have hro := shaped_track_range hwf1.1 ho1
  by_cases hai : na = i
  · subst hai
    rw [hbi] at hna
    cases hna
    exact hclear o ho1 ⟨by rw [hpa, hpo]; decide, hshare.2, hshare.1.symm⟩
  · by_cases hoi : no = i
    · subst hoi
      rw [hbi] at hno
      cases hno
      exact hclear a ha1 ⟨by rw [hpa, hpo]; decide, hshare.1, hshare.2.symm⟩
    · have ha0 := back na a hai hna (by rw [hshare.1]; exact hro.1) (by rw [hshare.1]; exact hro.2)
      have ho0 := back no o hoi hno (by rw [hshare.2]; exact hra.1) (by rw [hshare.2]; exact hra.2)
      exact hns a (List.getElem?_mem ha0) o (List.getElem?_mem ho0) hpa hpo hshare

theorem play_noShared {b : Board} (hwf : b.WellFormed) (hns : b.NoShared) (ids : List Int)
    {b1 : Board} (h : b.play ids = .ok b1) : b1.NoShared := by
  induction ids generalizing b with
  | nil =>
    simp only [Board.play, MoveResult.ok.injEq] at h
    rw [← h]
    exact hns
  | cons pieceId rest ih =>
    obtain ⟨b2, h1, h2⟩ := play_cons_ok h
    exact ih (makeMove_wellFormed hwf h1) (makeMove_noShared hwf hns h1) h2

theorem shaped_track_mod {ps : List Piece} (h : shaped ps) {p : Piece} (hp : p ∈ ps) :
    p.track = p.id % 5 + 1 := by
  obtain ⟨i, hi⟩ := List.getElem?_of_mem hp
  obtain ⟨hi10, hid, -⟩ := shaped_piece h hi
  unfold Piece.track
  rw [hid]
  interval_cases i <;> rfl

/-- C20: in every state reached from the constructed board by calls of
`makeMove` that return normally there is no piece `a` of player 0 and piece `o`
of player 1 with `a.position == o.id mod 5 + 1` and
`o.position == a.id mod 5 + 1`.  After every call of `makeMove` that returns
normally on a well-formed board no opponent intersects the square the mover
ends on, and every opponent that intersected a square the mover passed before
its landing square has been captured (reset). -/
theorem no_shared_intersection :
    (∀ (ids : List Int) (b : Board), Board.init.play ids = .ok b →
      ∀ a ∈ b.pieces, ∀ o ∈ b.pieces, a.player = 0 → o.player = 1 →
        ¬ (a.position = o.id % 5 + 1 ∧ o.position = a.id % 5 + 1)) ∧
    (∀ (b : Board) (i : Nat) (m : Piece) (b1 : Board),
      b.WellFormed → b.pieces[i]? = some m → b.makeMove (i : Int) = .ok b1 →
      ∃ (m1 : Piece) (cur : Int) (T : Nat),
        b1.pieces[i]? = some m1 ∧ m1 = m.land cur ∧
        cur = m.position + T * m.direction ∧
        (∀ o ∈ b1.pieces, ¬ intersects m1 o m1.position) ∧
        ∀ t : Nat, 1 ≤ t → t < T → ∀ (n : Nat) (o : Piece), b.pieces[n]? = some o →
          intersects m o (m.position + t * m.direction) → b1.pieces[n]? = some o.reset) := by
  constructor
  · intro ids b h a ha o ho hpa hpo
    have hwf : b.WellFormed := play_wellFormed (by decide) ids h
    have hns : b.NoShared := play_noShared (by decide) (by decide) ids h
    rw [← shaped_track_mod hwf.1 ha, ← shaped_track_mod hwf.1 ho]
    exact hns a ha o ho hpa hpo
  · intro b i m b1 hwf hm h
    obtain ⟨cur, ps, s, ha, hbi, hbn, hclear⟩ := makeMove_final_clear hwf hm h
    obtain ⟨i1, m0, -, -, -, hi, -, hm0, hown, -, -, -⟩ := makeMove_ok_inv h
    have e : i1 = i := by omega
    subst e
    rw [hm] at hm0
    cases hm0
    have hm01 : m.player = 0 ∨ m.player = 1 := by rw [hown]; exact hwf.2.2
    have htr := shaped_track_range hwf.1 (List.getElem?_mem hm)
    obtain ⟨T, hT, hcap⟩ := advance_path hwf.1 hm01 htr.1 htr.2 ha
    refine ⟨m.land cur, cur, T, hbi, rfl, hT, hclear, ?_⟩
    intro t ht1 ht2 n o ho hio
    have hni : n ≠ i1 := by
      rintro rfl
      rw [hm] at ho
      cases ho
      exact hio.1 rfl
    rw [hbn n hni]
    exact hcap t ht1 ht2 n o ho hio

theorem no_shared_intersection_witness :
    chainBoard.WellFormed ∧ chainBoard.pieces[1]? = some ⟨1, 0, false, 0⟩ ∧
    chainBoard.makeMove ((1 : Nat) : Int) = .ok chainedBoard ∧
    ∃ (m1 : Piece) (cur : Int) (T : Nat),
      chainedBoard.pieces[1]? = some m1 ∧
      m1 = (⟨1, 0, false, 0⟩ : Piece).land cur ∧
      cur = (⟨1, 0, false, 0⟩ : Piece).position + T * (⟨1, 0, false, 0⟩ : Piece).direction ∧
      (∀ o ∈ chainedBoard.pieces, ¬ intersects m1 o m1.position) ∧
      ∀ t : Nat, 1 ≤ t → t < T → ∀ (n : Nat) (o : Piece), chainBoard.pieces[n]? = some o →
        intersects ⟨1, 0, false, 0⟩ o
          ((⟨1, 0, false, 0⟩ : Piece).position + t * (⟨1, 0, false, 0⟩ : Piece).direction) →
        chainedBoard.pieces[n]? = some o.reset :=
  ⟨by decide, by decide, by decide,
   no_shared_intersection.2 chainBoard 1 ⟨1, 0, false, 0⟩ chainedBoard (by decide) (by decide)
     (by decide)⟩

/-! ## Facts used by the search -/

theorem list_sum_bound (l : List Int) (c : Int) (h : ∀ x ∈ l, -c ≤ x ∧ x ≤ c) :
    -c * l.length ≤ l.sum ∧ l.sum ≤ c * l.length := by
  induction l with
  | nil => simp
  | cons x xs ih =>
    have hx := h x (List.mem_cons_self _ _)
    have := ih (fun y hy => h y (List.mem_cons_of_mem _ hy))
    rw [List.sum_cons, List.length_cons]
    push_cast
    constructor <;> nlinarith [this.1, this.2, hx.1, hx.2]

theorem shaped_player {ps : List Piece} (h : shaped ps) {p : Piece} (hp : p ∈ ps) :
    p.player = 0 ∨ p.player = 1 := by
  obtain ⟨i, hi⟩ := List.getElem?_of_mem hp
  obtain ⟨-, -, hpl⟩ := shaped_piece h hi
  rw [hpl]
  split
  · exact Or.inl rfl
  · exact Or.inr rfl

/-- On a well-formed board the static evaluation lies in `[-1000, 1000]`. -/
theorem evaluateState_bounds {b : Board} (hwf : b.WellFormed) :
    -1000 ≤ evaluateState b ∧ evaluateState b ≤ 1000 := by
  unfold evaluateState
  simp only
  by_cases h0 : (b.getWinner == 0) = true
  · rw [if_pos h0]; omega
  · rw [if_neg h0]
    by_cases h1 : (b.getWinner == 1) = true
    · rw [if_pos h1]; omega
    · rw [if_neg h1]
      unfold evaluateLoop
      rw [evaluateLoop_foldl b.pieces (fun p hp => shaped_player hwf.1 hp)]
      simp only [zero_add]
      have hsum := list_sum_bound (b.pieces.map fun p => p.sign * p.contribution) 22 (by
        intro x hx
        obtain ⟨p, hp, rfl⟩ := List.mem_map.1 hx
        have hpos := hwf.2.1 p hp
        unfold Piece.sign Piece.contribution
        split <;> split <;> (try split) <;> omega)
      rw [List.length_map, shaped_length hwf.1] at hsum
      have c0 : b.pieces.countP (fun p => p.player == 0 && p.finished) ≤ 10 := by
        rw [← shaped_length hwf.1]; exact List.countP_le_length _
      have c1 : b.pieces.countP (fun p => p.player == 1 && p.finished) ≤ 10 := by
        rw [← shaped_length hwf.1]; exact List.countP_le_length _
      push_cast at hsum
      omega

/-- Every legal move of a well-formed board can be made, and leads to a
well-formed board with the other player to move. -/
theorem legal_moves_ok {b : Board} (hwf : b.WellFormed) :
    ∃ l, b.getLegalMoves = some l ∧ (∀ x ∈ l, 0 ≤ x) ∧
      ∀ mv ∈ l, ∃ nb, b.makeMove mv = .ok nb ∧ nb.WellFormed ∧
        nb.currentPlayer = 1 - b.currentPlayer := by
  obtain ⟨l, hl, -, hmem⟩ := getLegalMoves_shaped b hwf.1 hwf.2.2
  have hid : ∀ mv ∈ l, ∃ (i : Nat) (p : Piece), mv = (i : Int) ∧ b.pieces[i]? = some p ∧
      p.player = b.currentPlayer := by
    intro mv hmv
    obtain ⟨p, hp, hid, hown, -⟩ := (hmem mv).1 hmv
    obtain ⟨i, hi⟩ := List.getElem?_of_mem hp
    obtain ⟨-, hid1, -⟩ := shaped_piece hwf.1 hi
    exact ⟨i, p, by rw [← hid, hid1], hi, hown⟩
  refine ⟨l, hl, ?_, ?_⟩
  · intro x hx
    obtain ⟨i, p, rfl, -, -⟩ := hid x hx
    omega
  · intro mv hmv
    obtain ⟨i, p, rfl, hp, hown⟩ := hid mv hmv
    obtain ⟨hi, -, -⟩ := shaped_piece hwf.1 hp
    obtain ⟨s, hs, -, -⟩ := getPieceSpeed_shaped hwf.1 hp
    obtain ⟨⟨ps1, cur⟩, ha⟩ := advance_total hwf.1 p s
    have hmk := makeMove_of_advance hi hp hown hs ha
    exact ⟨_, hmk, makeMove_wellFormed hwf hmk, rfl⟩

theorem minimax_expired {clock : Nat → Bool} {tick : Nat} (h : clock tick = true) (depth : Nat)
    (board : Board) (f : Bool) (alpha beta : Int) :
    minimax clock depth board f alpha beta tick = some (evaluateState board, tick + 1) := by
  cases depth <;> simp [minimax, h]

theorem minimax_zero (clock : Nat → Bool) (tick : Nat) (board : Board) (f : Bool)
    (alpha beta : Int) :
    minimax clock 0 board f alpha beta tick = some (evaluateState board, tick + 1) := by
  simp [minimax]

theorem minimax_succ {clock : Nat → Bool} {tick : Nat} (h : clock tick = false) (depth : Nat)
    (board : Board) (f : Bool) (alpha beta : Int) :
    minimax clock (depth + 1) board f alpha beta tick =
      if board.isGameOver then some (evaluateState board, tick + 1)
      else
        match board.getLegalMoves with
        | none => none
        | some legalMoves =>
          if legalMoves.isEmpty then some (evaluateState board, tick + 1)
          else if f then
            maxLoop (fun nextBoard a b t => minimax clock depth nextBoard false a b t)
              board legalMoves INT_MIN alpha beta (tick + 1)
          else
            minLoop (fun nextBoard a b t => minimax clock depth nextBoard true a b t)
              board legalMoves INT_MAX alpha beta (tick + 1) := by
  rw [minimax]
  simp [h]
/-! ## Alpha-beta pruning against the exhaustive search -/

theorem childValues_total (value : Board → Option Int) (board : Board) (Q : Int → Prop)
    (moves : List Int)
    (h : ∀ mv ∈ moves, ∃ nb v, board.makeMove mv = .ok nb ∧ value nb = some v ∧ Q v) :
    ∃ vs, childValues value board moves = some vs ∧ vs.length = moves.length ∧
      ∀ v ∈ vs, Q v := by
  induction moves with
  | nil => exact ⟨[], rfl, rfl, by simp⟩
  | cons mv rest ih =>
    obtain ⟨nb, v, h1, h2, h3⟩ := h mv (List.mem_cons_self _ _)
    obtain ⟨vs, h4, h5, h6⟩ := ih (fun x hx => h x (List.mem_cons_of_mem _ hx))
    refine ⟨v :: vs, ?_, by simp [h5], ?_⟩
    · simp only [childValues, h1, h2, h4]
    · intro x hx
      rcases List.mem_cons.1 hx with rfl | hx
      · exact h3
      · exact h6 x hx

theorem childValues_cons {value : Board → Option Int} {board : Board} {mv : Int}
    {rest : List Int} {nb : Board} {v : Int} {vs : List Int}
    (h1 : board.makeMove mv = .ok nb) (h2 : value nb = some v)
    (h3 : childValues value board rest = some vs) :
    childValues value board (mv :: rest) = some (v :: vs) := by
  simp only [childValues, h1, h2, h3]

theorem foldl_max_spec (vs : List Int) (v : Int) :
    v ≤ vs.foldl max v ∧ (∀ x ∈ vs, x ≤ vs.foldl max v) ∧
      (vs.foldl max v = v ∨ vs.foldl max v ∈ vs) := by
  induction vs generalizing v with
  | nil => simp
  | cons x xs ih =>
    obtain ⟨h1, h2, h3⟩ := ih (max v x)
    rw [List.foldl_cons]
    refine ⟨le_trans (le_max_left v x) h1, ?_, ?_⟩
    · intro y hy
      rcases List.mem_cons.1 hy with rfl | hy
      · exact le_trans (le_max_right v y) h1
      · exact h2 y hy
    · rcases h3 with h | h
      · rcases max_cases v x with ⟨e, -⟩ | ⟨e, -⟩
        · left; rw [h, e]
        · right; rw [h, e]; exact List.mem_cons_self _ _
      · right; exact List.mem_cons_of_mem _ h

theorem foldl_min_spec (vs : List Int) (v : Int) :
    vs.foldl min v ≤ v ∧ (∀ x ∈ vs, vs.foldl min v ≤ x) ∧
      (vs.foldl min v = v ∨ vs.foldl min v ∈ vs) := by
  induction vs generalizing v with
  | nil => simp
  | cons x xs ih =>
    obtain ⟨h1, h2, h3⟩ := ih (min v x)
    rw [List.foldl_cons]
    refine ⟨le_trans h1 (min_le_left v x), ?_, ?_⟩
    · intro y hy
      rcases List.mem_cons.1 hy with rfl | hy
      · exact le_trans h1 (min_le_right v y)
      · exact h2 y hy
    · rcases h3 with h | h
      · rcases min_cases v x with ⟨e, -⟩ | ⟨e, -⟩
        · left; rw [h, e]
        · right; rw [h, e]; exact List.mem_cons_self _ _
      · right; exact List.mem_cons_of_mem _ h

/-- The maximizing loop with pruning, against the values of all children. -/
theorem maxLoop_exact (recurse : Board → Int → Int → Nat → Option (Int × Nat))
    (value : Board → Option Int) (board : Board) (alpha0 beta : Int) (moves : List Int)
    (hrec : ∀ mv ∈ moves, ∃ nb v, board.makeMove mv = .ok nb ∧ value nb = some v ∧
      ∀ (a : Int) (tick : Nat), alpha0 ≤ a → a < beta →
        ∃ r t1, recurse nb a beta tick = some (r, t1) ∧ Brackets a beta v r)
    (m a : Int) (tick : Nat) (done : List Int)
    (ha : a = max alpha0 m) (hab : a < beta) (hdone : ∀ v ∈ done, v ≤ m)
    (hmem : alpha0 < m → m ∈ done) :
    ∃ r vs t1, maxLoop recurse board moves m a beta tick = some (r, t1) ∧
      childValues value board moves = some vs ∧
      (r ≤ alpha0 → ∀ v ∈ done ++ vs, v ≤ r) ∧
      (beta ≤ r → ∃ v ∈ done ++ vs, r ≤ v) ∧
      (alpha0 < r → r < beta → (∀ v ∈ done ++ vs, v ≤ r) ∧ r ∈ done ++ vs) := by
  induction moves generalizing m a tick done with
  | nil =>
    refine ⟨m, [], tick, rfl, rfl, ?_, ?_, ?_⟩
    · intro _ v hv
      exact hdone v (by simpa using hv)
    · intro h
      have : m ≤ a := by rw [ha]; exact le_max_right _ _
      omega
    · intro h1 _
      exact ⟨fun v hv => hdone v (by simpa using hv), by simpa using hmem h1⟩
  | cons mv rest ih =>
    obtain ⟨nb, v1, hmk, hval, hcall⟩ := hrec mv (List.mem_cons_self _ _)
    have hrest : ∀ x ∈ rest, ∃ nb v, board.makeMove x = .ok nb ∧ value nb = some v ∧
        ∀ (a : Int) (tick : Nat), alpha0 ≤ a → a < beta →
          ∃ r t1, recurse nb a beta tick = some (r, t1) ∧ Brackets a beta v r :=
      fun x hx => hrec x (List.mem_cons_of_mem _ hx)
    have ha0 : alpha0 ≤ a := by rw [ha]; exact le_max_left _ _
    have hma : m ≤ a := by rw [ha]; exact le_max_right _ _
    obtain ⟨r1, t1, hr1, hbr⟩ := hcall a tick ha0 hab
    obtain ⟨vs, hvs, -, -⟩ := childValues_total value board (fun _ => True) rest
      (fun x hx => by
        obtain ⟨nb, v, h1, h2, -⟩ := hrest x hx
        exact ⟨nb, v, h1, h2, trivial⟩)
    have hcv := childValues_cons hmk hval hvs
    by_cases hbreak : beta ≤ max a r1
    · have hr1b : beta ≤ r1 := by
        rcases max_cases a r1 with ⟨e, -⟩ | ⟨e, -⟩ <;> rw [e] at hbreak <;> omega
      have hmax : max m r1 = r1 := max_eq_right (by omega)
      refine ⟨r1, v1 :: vs, t1, ?_, hcv, ?_, ?_, ?_⟩
      · simp only [maxLoop, hmk, hr1, if_pos hbreak, hmax]
      · intro h; omega
      · intro _
        exact ⟨v1, by simp, hbr.2.1 hr1b⟩
      · intro _ h; omega
    · have hnb : max a r1 < beta := by omega
      have hr1b : r1 < beta := lt_of_le_of_lt (le_max_right a r1) hnb
      have hv1 : v1 ≤ max m r1 := by
        by_cases h : r1 ≤ a
        · exact le_trans (hbr.1 h) (le_max_right _ _)
        · have := hbr.2.2 (by omega) hr1b
          rw [← this]; exact le_max_right _ _
      obtain ⟨r, vs1, t2, hloop, hvs1, c1, c2, c3⟩ := ih hrest (max m r1) (max a r1) t1
        (done ++ [v1])
        (by rw [ha, max_assoc])
        hnb
        (by
          intro v hv
          rcases List.mem_append.1 hv with h | h
          · exact le_trans (hdone v h) (le_max_left _ _)
          · simp only [List.mem_singleton] at h
            rw [h]; exact hv1)
        (by
          intro h
          rcases max_cases m r1 with ⟨e, hle⟩ | ⟨e, hlt⟩
          · rw [e] at h ⊢
            exact List.mem_append_left _ (hmem h)
          · rw [e] at h ⊢
            have har : a < r1 := by
              rw [ha]; exact max_lt h hlt
            have := hbr.2.2 har hr1b
            rw [this]
            exact List.mem_append_right _ (by simp))
      rw [hvs] at hvs1
      cases hvs1
      refine ⟨r, v1 :: vs, t2, ?_, hcv, ?_, ?_, ?_⟩
      · simp only [maxLoop, hmk, hr1, if_neg hbreak]
        exact hloop
      · simpa [List.append_assoc] using c1
      · simpa [List.append_assoc] using c2
      · simpa [List.append_assoc] using c3
/-- The minimizing loop with pruning, against the values of all children. -/
theorem minLoop_exact (recurse : Board → Int → Int → Nat → Option (Int × Nat))
    (value : Board → Option Int) (board : Board) (alpha beta0 : Int) (moves : List Int)
    (hrec : ∀ mv ∈ moves, ∃ nb v, board.makeMove mv = .ok nb ∧ value nb = some v ∧
      ∀ (b : Int) (tick : Nat), b ≤ beta0 → alpha < b →
        ∃ r t1, recurse nb alpha b tick = some (r, t1) ∧ Brackets alpha b v r)
    (m b : Int) (tick : Nat) (done : List Int)
    (hb : b = min beta0 m) (hab : alpha < b) (hdone : ∀ v ∈ done, m ≤ v)
    (hmem : m < beta0 → m ∈ done) :
    ∃ r vs t1, minLoop recurse board moves m alpha b tick = some (r, t1) ∧
      childValues value board moves = some vs ∧
      (beta0 ≤ r → ∀ v ∈ done ++ vs, r ≤ v) ∧
      (r ≤ alpha → ∃ v ∈ done ++ vs, v ≤ r) ∧
      (alpha < r → r < beta0 → (∀ v ∈ done ++ vs, r ≤ v) ∧ r ∈ done ++ vs) := by
  induction moves generalizing m b tick done with
  | nil =>
    refine ⟨m, [], tick, rfl, rfl, ?_, ?_, ?_⟩
    · intro _ v hv
      exact hdone v (by simpa using hv)
    · intro h
      have : b ≤ m := by rw [hb]; exact min_le_right _ _
      omega
    · intro _ h1
      exact ⟨fun v hv => hdone v (by simpa using hv), by simpa using hmem h1⟩
  | cons mv rest ih =>
    obtain ⟨nb, v1, hmk, hval, hcall⟩ := hrec mv (List.mem_cons_self _ _)
    have hrest : ∀ x ∈ rest, ∃ nb v, board.makeMove x = .ok nb ∧ value nb = some v ∧
        ∀ (b : Int) (tick : Nat), b ≤ beta0 → alpha < b →
          ∃ r t1, recurse nb alpha b tick = some (r, t1) ∧ Brackets alpha b v r :=
      fun x hx => hrec x (List.mem_cons_of_mem _ hx)
    have hb0 : b ≤ beta0 := by rw [hb]; exact min_le_left _ _
    have hbm : b ≤ m := by rw [hb]; exact min_le_right _ _
    obtain ⟨r1, t1, hr1, hbr⟩ := hcall b tick hb0 hab
    obtain ⟨vs, hvs, -, -⟩ := childValues_total value board (fun _ => True) rest
      (fun x hx => by
        obtain ⟨nb, v, h1, h2, -⟩ := hrest x hx
        exact ⟨nb, v, h1, h2, trivial⟩)
    have hcv := childValues_cons hmk hval hvs
    by_cases hbreak : min b r1 ≤ alpha
    · have hr1a : r1 ≤ alpha := by
        rcases min_cases b r1 with ⟨e, -⟩ | ⟨e, -⟩ <;> rw [e] at hbreak <;> omega
      have hmin : min m r1 = r1 := min_eq_right (by omega)
      refine ⟨r1, v1 :: vs, t1, ?_, hcv, ?_, ?_, ?_⟩
      · simp only [minLoop, hmk, hr1, if_pos hbreak, hmin]
      · intro h; omega
      · intro _
        exact ⟨v1, by simp, hbr.1 hr1a⟩
      · intro h _; omega
    · have hnb : alpha < min b r1 := by omega
      have hr1a : alpha < r1 := lt_of_lt_of_le hnb (min_le_right b r1)
      have hv1 : min m r1 ≤ v1 := by
        by_cases h : b ≤ r1
        · exact le_trans (min_le_right _ _) (hbr.2.1 h)
        · have := hbr.2.2 hr1a (by omega)
          rw [← this]; exact min_le_right _ _
      obtain ⟨r, vs1, t2, hloop, hvs1, c1, c2, c3⟩ := ih hrest (min m r1) (min b r1) t1
        (done ++ [v1])
        (by rw [hb, min_assoc])
        hnb
        (by
          intro v hv
          rcases List.mem_append.1 hv with h | h
          · exact le_trans (min_le_left _ _) (hdone v h)
          · simp only [List.mem_singleton] at h
            rw [h]; exact hv1)
        (by
          intro h
          rcases min_cases m r1 with ⟨e, hle⟩ | ⟨e, hlt⟩
          · rw [e] at h ⊢
            exact List.mem_append_left _ (hmem h)
          · rw [e] at h ⊢
            have hrb : r1 < b := by
              rw [hb]; exact lt_min h hlt
            have := hbr.2.2 hr1a hrb
            rw [this]
            exact List.mem_append_right _ (by simp))
      rw [hvs] at hvs1
      cases hvs1
      refine ⟨r, v1 :: vs, t2, ?_, hcv, ?_, ?_, ?_⟩
      · simp only [minLoop, hmk, hr1, if_neg hbreak]
        exact hloop
      · simpa [List.append_assoc] using c1
      · simpa [List.append_assoc] using c2
      · simpa [List.append_assoc] using c3

/-- Alpha-beta against the exhaustive search, for every window inside the `int`
range: the result brackets the exact value. -/
theorem minimax_brackets (depth : Nat) :
    ∀ (b : Board), b.WellFormed → ∀ (alpha beta : Int) (tick : Nat),
      INT_MIN ≤ alpha → alpha < beta → beta ≤ INT_MAX →
      ∃ r v t1, minimax (fun _ => false) depth b (b.currentPlayer == 0) alpha beta tick
          = some (r, t1) ∧
        exhaustive depth b = some v ∧ -1000 ≤ v ∧ v ≤ 1000 ∧ Brackets alpha beta v r := by
  induction depth with
  | zero =>
    intro b hwf alpha beta tick _ _ _
    have hb := evaluateState_bounds hwf
    exact ⟨_, _, _, minimax_zero _ _ _ _ _ _, rfl, hb.1, hb.2,
      fun _ => le_refl _, fun _ => le_refl _, fun _ _ => rfl⟩
  | succ depth ih =>
    intro b hwf alpha beta tick hα hαβ hβ
    have hb := evaluateState_bounds hwf
    have leaf : Brackets alpha beta (evaluateState b) (evaluateState b) :=
      ⟨fun _ => le_refl _, fun _ => le_refl _, fun _ _ => rfl⟩
    rw [minimax_succ rfl]
    by_cases hgo : b.isGameOver = true
    · refine ⟨_, _, _, by rw [if_pos hgo], ?_, hb.1, hb.2, leaf⟩
      simp only [exhaustive, hgo, if_true]
    · rw [if_neg hgo]
      obtain ⟨l, hl, -, hmoves⟩ := legal_moves_ok hwf
      have hchildren := childValues_total (exhaustive depth) b
        (fun v => -1000 ≤ v ∧ v ≤ 1000) l (by
          intro mv hmv
          obtain ⟨nb, h1, h2, -⟩ := hmoves mv hmv
          obtain ⟨-, v, -, -, h3, h4, h5, -⟩ := ih nb h2 INT_MIN INT_MAX 0 (le_refl _)
            (by decide) (le_refl _)
          exact ⟨nb, v, h1, h3, h4, h5⟩)
      obtain ⟨vs, hvs, hlen, hrange⟩ := hchildren
      simp only [hl]
      cases l with
      | nil =>
        simp only [childValues, Option.some.injEq] at hvs
        subst hvs
        refine ⟨evaluateState b, _, tick + 1, by simp, ?_, hb.1, hb.2, leaf⟩
        simp [exhaustive, hgo, hl, childValues]
      | cons mv0 rest =>
        cases vs with
        | nil => simp at hlen
        | cons v0 vs0 =>
          have hex : exhaustive (depth + 1) b =
              some (if b.currentPlayer = 0 then vs0.foldl max v0 else vs0.foldl min v0) := by
            simp [exhaustive, hgo, hl, hvs]
          simp only [List.isEmpty_cons, Bool.false_eq_true, if_false]
          rcases hwf.2.2 with hcp | hcp
          · -- player 0 maximizes
            have hflag : (b.currentPlayer == 0) = true := by simp [hcp]
            rw [hflag]
            simp only [if_true]
            obtain ⟨r, vs1, t1, hloop, hvs1, c1, c2, c3⟩ :=
              maxLoop_exact (fun nextBoard a b t => minimax (fun _ => false) depth nextBoard false a b t)
                (exhaustive depth) b alpha beta (mv0 :: rest)
                (by
                  intro mv hmv
                  obtain ⟨nb, h1, h2, h3⟩ := hmoves mv hmv
                  have hnf : (nb.currentPlayer == 0) = false := by
                    rw [h3, hcp]; decide
                  obtain ⟨-, v, -, -, hv, -, -, -⟩ := ih nb h2 INT_MIN INT_MAX 0 (le_refl _)
                    (by decide) (le_refl _)
                  refine ⟨nb, v, h1, hv, ?_⟩
                  intro a t ha hab
                  obtain ⟨r, v2, t2, hr, hv2, -, -, hbr⟩ := ih nb h2 a beta t (by omega) hab hβ
                  rw [hv] at hv2
                  cases hv2
                  rw [hnf] at hr
                  exact ⟨r, t2, hr, hbr⟩)
                INT_MIN alpha (tick + 1) []
                (by rw [max_eq_left hα]) hαβ (by simp)
                (by intro h; omega)
            rw [hvs] at hvs1
            cases hvs1
            simp only [List.nil_append] at c1 c2 c3
            obtain ⟨m1, m2, m3⟩ := foldl_max_spec vs0 v0
            have hV : vs0.foldl max v0 ∈ v0 :: vs0 := by
              rcases m3 with h | h
              · rw [h]; exact List.mem_cons_self _ _
              · exact List.mem_cons_of_mem _ h
            have hall : ∀ x ∈ v0 :: vs0, x ≤ vs0.foldl max v0 := by
              intro x hx
              rcases List.mem_cons.1 hx with rfl | hx
              · exact m1
              · exact m2 x hx
            refine ⟨r, _, t1, hloop, by rw [hex, if_pos hcp], (hrange _ hV).1, (hrange _ hV).2,
              ?_, ?_, ?_⟩
            · intro h
              exact c1 h _ hV
            · intro h
              obtain ⟨x, hx, hrx⟩ := c2 h
              exact le_trans hrx (hall x hx)
            · intro h1 h2
              obtain ⟨h3, h4⟩ := c3 h1 h2
              exact le_antisymm (hall r h4) (h3 _ hV)
          · -- player 1 minimizes
            have hflag : (b.currentPlayer == 0) = false := by rw [hcp]; decide
            have hne : ¬ b.currentPlayer = 0 := by rw [hcp]; decide
            rw [hflag]
            simp only [Bool.false_eq_true, if_false]
            obtain ⟨r, vs1, t1, hloop, hvs1, c1, c2, c3⟩ :=
              minLoop_exact (fun nextBoard a b t => minimax (fun _ => false) depth nextBoard true a b t)
                (exhaustive depth) b alpha beta (mv0 :: rest)
                (by
                  intro mv hmv
                  obtain ⟨nb, h1, h2, h3⟩ := hmoves mv hmv
                  have hnf : (nb.currentPlayer == 0) = true := by
                    rw [h3, hcp]; decide
                  obtain ⟨-, v, -, -, hv, -, -, -⟩ := ih nb h2 INT_MIN INT_MAX 0 (le_refl _)
                    (by decide) (le_refl _)
                  refine ⟨nb, v, h1, hv, ?_⟩
                  intro bt t hbt hab
                  obtain ⟨r, v2, t2, hr, hv2, -, -, hbr⟩ := ih nb h2 alpha bt t hα hab (by omega)
                  rw [hv] at hv2
                  cases hv2
                  rw [hnf] at hr
                  exact ⟨r, t2, hr, hbr⟩)
                INT_MAX beta (tick + 1) []
                (by rw [min_eq_left hβ]) hαβ (by simp)
                (by intro h; omega)
            rw [hvs] at hvs1
            cases hvs1
            simp only [List.nil_append] at c1 c2 c3
            obtain ⟨m1, m2, m3⟩ := foldl_min_spec vs0 v0
            have hV : vs0.foldl min v0 ∈ v0 :: vs0 := by
              rcases m3 with h | h
              · rw [h]; exact List.mem_cons_self _ _
              · exact List.mem_cons_of_mem _ h
            have hall : ∀ x ∈ v0 :: vs0, vs0.foldl min v0 ≤ x := by
              intro x hx
              rcases List.mem_cons.1 hx with rfl | hx
              · exact m1
              · exact m2 x hx
            refine ⟨r, _, t1, hloop, by rw [hex, if_neg hne], (hrange _ hV).1, (hrange _ hV).2,
              ?_, ?_, ?_⟩
            · intro h
              obtain ⟨x, hx, hrx⟩ := c2 h
              exact le_trans (hall x hx) hrx
            · intro h
              exact c1 h _ hV
            · intro h1 h2
              obtain ⟨h3, h4⟩ := c3 h1 h2
              exact le_antisymm (h3 _ hV) (hall r h4)
/-- C13: on a well-formed board, for every depth and with a clock that never
reaches the deadline, `minimax` called with the full window
`(INT_MIN, INT_MAX)` and the flag of the player to move returns exactly the
value of the exhaustive full-width minimax of the same depth. -/
theorem pruning_preserves_result (b : Board) (hwf : b.WellFormed) (depth tick : Nat) :
    ∃ v t1, minimax (fun _ => false) depth b (b.currentPlayer == 0) INT_MIN INT_MAX tick
        = some (v, t1) ∧
      exhaustive depth b = some v := by
  obtain ⟨r, v, t1, hr, hv, h1, h2, hbr⟩ :=
    minimax_brackets depth b hwf INT_MIN INT_MAX tick (le_refl _) (by decide) (le_refl _)
  have hlo : INT_MIN < r := by
    by_contra hcon
    have := hbr.1 (by omega)
    unfold INT_MIN at hcon
    omega
  have hhi : r < INT_MAX := by
    by_contra hcon
    have := hbr.2.1 (by omega)
    unfold INT_MAX at hcon
    omega
  have := hbr.2.2 hlo hhi
  subst this
  exact ⟨r, t1, hr, hv⟩

theorem pruning_preserves_result_witness :
    chainBoard.WellFormed ∧
    ∃ v t1, minimax (fun _ => false) 3 chainBoard (chainBoard.currentPlayer == 0)
        INT_MIN INT_MAX 0 = some (v, t1) ∧
      exhaustive 3 chainBoard = some v :=
  ⟨by decide, pruning_preserves_result chainBoard (by decide) 3 0⟩

/-! ## Range of the values of `minimax` -/

theorem maxLoop_bounds (recurse : Board → Int → Int → Nat → Option (Int × Nat))
    (board : Board) (moves : List Int)
    (hrec : ∀ mv ∈ moves, ∃ nb, board.makeMove mv = .ok nb ∧
      ∀ (a b : Int) (tick : Nat), ∃ r t1, recurse nb a b tick = some (r, t1) ∧
        -1000 ≤ r ∧ r ≤ 1000)
    (m a beta : Int) (tick : Nat) (hm : m ≤ 1000) :
    ∃ r t1, maxLoop recurse board moves m a beta tick = some (r, t1) ∧ r ≤ 1000 ∧
      (moves ≠ [] ∨ -1000 ≤ m → -1000 ≤ r) := by
  induction moves generalizing m a tick with
  | nil =>
    exact ⟨m, tick, rfl, hm, fun h => by
      rcases h with h | h
      · exact absurd rfl h
      · exact h⟩
  | cons mv rest ih =>
    obtain ⟨nb, hmk, hcall⟩ := hrec mv (List.mem_cons_self _ _)
    obtain ⟨r1, t1, hr1, hlo, hhi⟩ := hcall a beta tick
    have hmax : max m r1 ≤ 1000 := max_le hm hhi
    have hmax1 : -1000 ≤ max m r1 := le_trans hlo (le_max_right _ _)
    by_cases hbreak : beta ≤ max a r1
    · exact ⟨max m r1, t1, by simp only [maxLoop, hmk, hr1, if_pos hbreak], hmax,
        fun _ => hmax1⟩
    · obtain ⟨r, t2, hloop, h1, h2⟩ :=
        ih (fun x hx => hrec x (List.mem_cons_of_mem _ hx)) (max m r1) (max a r1) t1 hmax
      refine ⟨r, t2, ?_, h1, fun _ => h2 (Or.inr hmax1)⟩
      simp only [maxLoop, hmk, hr1, if_neg hbreak]
      exact hloop

theorem minLoop_bounds (recurse : Board → Int → Int → Nat → Option (Int × Nat))
    (board : Board) (moves : List Int)
    (hrec : ∀ mv ∈ moves, ∃ nb, board.makeMove mv = .ok nb ∧
      ∀ (a b : Int) (tick : Nat), ∃ r t1, recurse nb a b tick = some (r, t1) ∧
        -1000 ≤ r ∧ r ≤ 1000)
    (m alpha b : Int) (tick : Nat) (hm : -1000 ≤ m) :
    ∃ r t1, minLoop recurse board moves m alpha b tick = some (r, t1) ∧ -1000 ≤ r ∧
      (moves ≠ [] ∨ m ≤ 1000 → r ≤ 1000) := by
  induction moves generalizing m b tick with
  | nil =>
    exact ⟨m, tick, rfl, hm, fun h => by
      rcases h with h | h
      · exact absurd rfl h
      · exact h⟩
  | cons mv rest ih =>
    obtain ⟨nb, hmk, hcall⟩ := hrec mv (List.mem_cons_self _ _)
    obtain ⟨r1, t1, hr1, hlo, hhi⟩ := hcall alpha b tick
    have hmin : -1000 ≤ min m r1 := le_min hm hlo
    have hmin1 : min m r1 ≤ 1000 := le_trans (min_le_right _ _) hhi
    by_cases hbreak : min b r1 ≤ alpha
    · exact ⟨min m r1, t1, by simp only [minLoop, hmk, hr1, if_pos hbreak], hmin,
        fun _ => hmin1⟩
    · obtain ⟨r, t2, hloop, h1, h2⟩ :=
        ih (fun x hx => hrec x (List.mem_cons_of_mem _ hx)) (min m r1) (min b r1) t1 hmin
      refine ⟨r, t2, ?_, h1, fun _ => h2 (Or.inr hmin1)⟩
      simp only [minLoop, hmk, hr1, if_neg hbreak]
      exact hloop

/-- On a well-formed board `minimax` returns a value in `[-1000, 1000]`, for
every clock, flag and window. -/
theorem minimax_bounds (clock : Nat → Bool) (depth : Nat) :
    ∀ (b : Board), b.WellFormed → ∀ (f : Bool) (alpha beta : Int) (tick : Nat),
      ∃ r t1, minimax clock depth b f alpha beta tick = some (r, t1) ∧
        -1000 ≤ r ∧ r ≤ 1000 := by
  induction depth with
  | zero =>
    intro b hwf f alpha beta tick
    have hb := evaluateState_bounds hwf
    exact ⟨_, _, minimax_zero _ _ _ _ _ _, hb.1, hb.2⟩
  | succ depth ih =>
    intro b hwf f alpha beta tick
    have hb := evaluateState_bounds hwf
    cases hc : clock tick with
    | true => exact ⟨_, _, minimax_expired hc _ _ _ _ _, hb.1, hb.2⟩
    | false =>
      rw [minimax_succ hc]
      by_cases hgo : b.isGameOver = true
      · exact ⟨_, _, by rw [if_pos hgo], hb.1, hb.2⟩
      · rw [if_neg hgo]
        obtain ⟨l, hl, -, hmoves⟩ := legal_moves_ok hwf
        simp only [hl]
        cases l with
        | nil => exact ⟨evaluateState b, tick + 1, by simp, hb.1, hb.2⟩
        | cons mv0 rest =>
          simp only [List.isEmpty_cons, Bool.false_eq_true, if_false]
          cases f with
          | true =>
            simp only [if_true]
            obtain ⟨r, t1, hloop, h1, h2⟩ := maxLoop_bounds
              (fun nextBoard a b t => minimax clock depth nextBoard false a b t) b (mv0 :: rest)
              (by
                intro mv hmv
                obtain ⟨nb, h1, h2, -⟩ := hmoves mv hmv
                exact ⟨nb, h1, fun a b t => ih nb h2 false a b t⟩)
              INT_MIN alpha beta (tick + 1) (by decide)
            exact ⟨r, t1, hloop, h2 (Or.inl (by simp)), h1⟩
          | false =>
            simp only [Bool.false_eq_true, if_false]
            obtain ⟨r, t1, hloop, h1, h2⟩ := minLoop_bounds
              (fun nextBoard a b t => minimax clock depth nextBoard true a b t) b (mv0 :: rest)
              (by
                intro mv hmv
                obtain ⟨nb, h1, h2, -⟩ := hmoves mv hmv
                exact ⟨nb, h1, fun a b t => ih nb h2 true a b t⟩)
              INT_MAX alpha beta (tick + 1) (by decide)
            exact ⟨r, t1, hloop, h1, h2 (Or.inl (by simp))⟩

/-! ## The selection of the root move -/

theorem selectLoop_max (ms vs : List Int) (bm bv : Int) (hlen : ms.length = vs.length) :
    ∃ res, selectLoop true ms vs bm bv = some res ∧
      (((∀ v ∈ vs, v ≤ bv) ∧ res = (bm, bv)) ∨
        ∃ (k : Nat) (mv val : Int), ms[k]? = some mv ∧ vs[k]? = some val ∧ res = (mv, val) ∧
          bv < val ∧ (∀ v ∈ vs, v ≤ val) ∧
          ∀ (j : Nat) (w : Int), j < k → vs[j]? = some w → w < val) := by
  induction ms generalizing vs bm bv with
  | nil =>
    cases vs with
    | nil => exact ⟨(bm, bv), rfl, Or.inl ⟨by simp, rfl⟩⟩
    | cons v vs => simp at hlen
  | cons m ms ih =>
    cases vs with
    | nil => simp at hlen
    | cons v vs =>
      have hlen1 : ms.length = vs.length := by simpa using hlen
      by_cases hgt : v > bv
      · obtain ⟨res, hres, hcase⟩ := ih vs m v hlen1
        refine ⟨res, by simp only [selectLoop, Bool.true_and, decide_eq_true hgt]; simpa using hres,
          Or.inr ?_⟩
        rcases hcase with ⟨hall, rfl⟩ | ⟨k, mv, val, h1, h2, h3, h4, h5, h6⟩
        · refine ⟨0, m, v, by simp, by simp, rfl, hgt, ?_, fun j w hj => by omega⟩
          intro x hx
          rcases List.mem_cons.1 hx with rfl | hx
          · exact le_refl _
          · exact hall x hx
        · refine ⟨k + 1, mv, val, by simpa using h1, by simpa using h2, h3, by omega, ?_, ?_⟩
          · intro x hx
            rcases List.mem_cons.1 hx with rfl | hx
            · omega
            · exact h5 x hx
          · intro j w hj hw
            cases j with
            | zero =>
              simp only [List.getElem?_cons_zero, Option.some.injEq] at hw
              omega
            | succ j => exact h6 j w (by omega) (by simpa using hw)
      · obtain ⟨res, hres, hcase⟩ := ih vs bm bv hlen1
        have hng : decide (v > bv) = false := decide_eq_false hgt
        refine ⟨res, by simp only [selectLoop, Bool.true_and, hng]; simpa using hres, ?_⟩
        rcases hcase with ⟨hall, rfl⟩ | ⟨k, mv, val, h1, h2, h3, h4, h5, h6⟩
        · refine Or.inl ⟨?_, rfl⟩
          intro x hx
          rcases List.mem_cons.1 hx with rfl | hx
          · omega
          · exact hall x hx
        · refine Or.inr ⟨k + 1, mv, val, by simpa using h1, by simpa using h2, h3, h4, ?_, ?_⟩
          · intro x hx
            rcases List.mem_cons.1 hx with rfl | hx
            · omega
            · exact h5 x hx
          · intro j w hj hw
            cases j with
            | zero =>
              simp only [List.getElem?_cons_zero, Option.some.injEq] at hw
              omega
            | succ j => exact h6 j w (by omega) (by simpa using hw)

theorem selectLoop_min (ms vs : List Int) (bm bv : Int) (hlen : ms.length = vs.length) :
    ∃ res, selectLoop false ms vs bm bv = some res ∧
      (((∀ v ∈ vs, bv ≤ v) ∧ res = (bm, bv)) ∨
        ∃ (k : Nat) (mv val : Int), ms[k]? = some mv ∧ vs[k]? = some val ∧ res = (mv, val) ∧
          val < bv ∧ (∀ v ∈ vs, val ≤ v) ∧
          ∀ (j : Nat) (w : Int), j < k → vs[j]? = some w → val < w) := by
  induction ms generalizing vs bm bv with
  | nil =>
    cases vs with
    | nil => exact ⟨(bm, bv), rfl, Or.inl ⟨by simp, rfl⟩⟩
    | cons v vs => simp at hlen
  | cons m ms ih =>
    cases vs with
    | nil => simp at hlen
    | cons v vs =>
      have hlen1 : ms.length = vs.length := by simpa using hlen
      by_cases hlt : v < bv
      · obtain ⟨res, hres, hcase⟩ := ih vs m v hlen1
        refine ⟨res, by simp only [selectLoop, Bool.false_and, Bool.not_false, Bool.true_and,
          Bool.false_or, decide_eq_true hlt]; simpa using hres, Or.inr ?_⟩
        rcases hcase with ⟨hall, rfl⟩ | ⟨k, mv, val, h1, h2, h3, h4, h5, h6⟩
        · refine ⟨0, m, v, by simp, by simp, rfl, hlt, ?_, fun j w hj => by omega⟩
          intro x hx
          rcases List.mem_cons.1 hx with rfl | hx
          · exact le_refl _
          · exact hall x hx
        · refine ⟨k + 1, mv, val, by simpa using h1, by simpa using h2, h3, by omega, ?_, ?_⟩
          · intro x hx
            rcases List.mem_cons.1 hx with rfl | hx
            · omega
            · exact h5 x hx
          · intro j w hj hw
            cases j with
            | zero =>
              simp only [List.getElem?_cons_zero, Option.some.injEq] at hw
              omega
            | succ j => exact h6 j w (by omega) (by simpa using hw)
      · obtain ⟨res, hres, hcase⟩ := ih vs bm bv hlen1
        have hng : decide (v < bv) = false := decide_eq_false hlt
        refine ⟨res, by simp only [selectLoop, Bool.false_and, Bool.not_false, Bool.true_and,
          Bool.false_or, hng]; simpa using hres, ?_⟩
        rcases hcase with ⟨hall, rfl⟩ | ⟨k, mv, val, h1, h2, h3, h4, h5, h6⟩
        · refine Or.inl ⟨?_, rfl⟩
          intro x hx
          rcases List.mem_cons.1 hx with rfl | hx
          · omega
          · exact hall x hx
        · refine Or.inr ⟨k + 1, mv, val, by simpa using h1, by simpa using h2, h3, h4, ?_, ?_⟩
          · intro x hx
            rcases List.mem_cons.1 hx with rfl | hx
            · omega
            · exact h5 x hx
          · intro j w hj hw
            cases j with
            | zero =>
              simp only [List.getElem?_cons_zero, Option.some.injEq] at hw
              omega
            | succ j => exact h6 j w (by omega) (by simpa using hw)

/-- The selection over the scores of one depth: the earliest move whose score
is extreme. -/
theorem selectBest_extreme (isMaximizing : Bool) (legalMoves move_values : List Int)
    (hlen : legalMoves.length = move_values.length) (hne : legalMoves ≠ [])
    (hrange : ∀ v ∈ move_values, INT_MIN < v ∧ v < INT_MAX) :
    ∃ (k : Nat) (mv val : Int), legalMoves[k]? = some mv ∧ move_values[k]? = some val ∧
      selectBest isMaximizing legalMoves move_values = some mv ∧
      (isMaximizing = true → (∀ v ∈ move_values, v ≤ val) ∧
        ∀ (j : Nat) (w : Int), j < k → move_values[j]? = some w → w < val) ∧
      (isMaximizing = false → (∀ v ∈ move_values, val ≤ v) ∧
        ∀ (j : Nat) (w : Int), j < k → move_values[j]? = some w → val < w) := by
  have hv : ∃ v0, v0 ∈ move_values := by
    cases move_values with
    | nil =>
      cases legalMoves with
      | nil => exact absurd rfl hne
      | cons m ms => simp at hlen
    | cons v vs => exact ⟨v, List.mem_cons_self _ _⟩
  obtain ⟨v0, hv0⟩ := hv
  cases isMaximizing with
  | true =>
    obtain ⟨res, hres, hcase⟩ := selectLoop_max legalMoves move_values (-1) INT_MIN hlen
    rcases hcase with ⟨hall, -⟩ | ⟨k, mv, val, h1, h2, h3, -, h5, h6⟩
    · have := hall v0 hv0
      have := (hrange v0 hv0).1
      omega
    · refine ⟨k, mv, val, h1, h2, ?_, fun _ => ⟨h5, h6⟩, fun h => Bool.noConfusion h⟩
      simp only [selectBest, if_true, hres, h3, Option.map_some']
  | false =>
    obtain ⟨res, hres, hcase⟩ := selectLoop_min legalMoves move_values (-1) INT_MAX hlen
    rcases hcase with ⟨hall, -⟩ | ⟨k, mv, val, h1, h2, h3, -, h5, h6⟩
    · have := hall v0 hv0
      have := (hrange v0 hv0).2
      omega
    · refine ⟨k, mv, val, h1, h2, ?_, fun h => Bool.noConfusion h, fun _ => ⟨h5, h6⟩⟩
      simp only [selectBest, Bool.false_eq_true, if_false, hres, h3, Option.map_some']

/-! ## The scores of the tasks and `findBestMove` -/

theorem tally_foldl (f : Int × Int → Nat → Int × Int)
    (hf : ∀ (acc : Int × Int) (i : Nat), acc.1 ≤ (f acc i).1 ∧ acc.2 ≤ (f acc i).2 ∧
      (f acc i).1 + (f acc i).2 ≤ acc.1 + acc.2 + 1)
    (l : List Nat) (acc : Int × Int) :
    acc.1 ≤ (l.foldl f acc).1 ∧ acc.2 ≤ (l.foldl f acc).2 ∧
      (l.foldl f acc).1 + (l.foldl f acc).2 ≤ acc.1 + acc.2 + l.length := by
  induction l generalizing acc with
  | nil => simp
  | cons i l ih =>
    rw [List.foldl_cons, List.length_cons]
    have h1 := hf acc i
    have h2 := ih (f acc i)
    push_cast
    omega

/-- The margin of `n` simulations lies in `[-n, n]`. -/
theorem mctsRollout_bounds (outcome : Nat → Board) (n : Nat) :
    -(n : Int) ≤ mctsRollout outcome n ∧ mctsRollout outcome n ≤ n := by
  have := tally_foldl
    (fun acc i =>
      let winner := (outcome i).getWinner
      if winner == 0 then (acc.1 + 1, acc.2)
      else if winner == 1 then (acc.1, acc.2 + 1)
      else acc)
    (by
      intro acc i
      simp only
      split
      · simp only; omega
      · split
        · simp only; omega
        · omega)
    (List.range n) (0, 0)
  rw [List.length_range] at this
  unfold mctsRollout
  simp only at this ⊢
  omega

theorem tdiv_rollouts (m : Int) (h1 : -500 ≤ m) (h2 : m ≤ 500) :
    -1 ≤ Int.tdiv m NUM_MCTS_ROLLOUTS ∧ Int.tdiv m NUM_MCTS_ROLLOUTS ≤ 1 ∧
      (-500 < m → m < 500 → Int.tdiv m NUM_MCTS_ROLLOUTS = 0) := by
  unfold NUM_MCTS_ROLLOUTS
  rcases le_or_lt 0 m with h | h
  · rw [Int.tdiv_eq_ediv h (by decide)]
    omega
  · obtain ⟨k, rfl⟩ : ∃ k : Int, m = -k := ⟨-m, by omega⟩
    rw [Int.neg_tdiv, Int.tdiv_eq_ediv (by omega) (by decide)]
    omega

theorem truncate_bounds (x : ℚ) (c : Int) (hc : 0 ≤ c) (h1 : -(c : ℚ) ≤ x) (h2 : x ≤ c) :
    -c ≤ truncate x ∧ truncate x ≤ c := by
  unfold truncate
  split
  · rename_i h0
    have hf : (0 : Int) ≤ Int.floor x := Int.floor_nonneg.2 h0
    have hle : ((Int.floor x : Int) : ℚ) ≤ c := le_trans (Int.floor_le x) h2
    have : Int.floor x ≤ c := by exact_mod_cast hle
    omega
  · rename_i h0
    have hx : x ≤ ((0 : Int) : ℚ) := by push_cast; linarith
    have hc0 : Int.ceil x ≤ 0 := Int.ceil_le.2 hx
    have hge : ((-c : Int) : ℚ) ≤ Int.ceil x := by
      push_cast
      exact le_trans h1 (Int.le_ceil x)
    have : -c ≤ Int.ceil x := by exact_mod_cast hge
    omega

theorem truncate_small (x : ℚ) (h1 : -1 < x) (h2 : x < 1) : truncate x = 0 := by
  unfold truncate
  split
  · rw [Int.floor_eq_iff]
    constructor
    · simpa using (by assumption : 0 ≤ x)
    · simpa using h2
  · rename_i h0
    rw [Int.ceil_eq_iff]
    constructor
    · simpa using h1
    · push_cast
      linarith

/-- The score of a task never comes near `INT_MIN` or `INT_MAX`. -/
theorem combinedScore_bounds (mm mcts : Int) (depth : Nat) (err : ℚ)
    (hm1 : -1000 ≤ mm) (hm2 : mm ≤ 1000) (hr1 : -500 ≤ mcts) (hr2 : mcts ≤ 500)
    (hd1 : 1 ≤ depth) (hd2 : depth ≤ 29) (he1 : -1 ≤ err) (he2 : err ≤ 1) :
    -719 ≤ combinedScore mm mcts depth err ∧ combinedScore mm mcts depth err ≤ 719 := by
  unfold combinedScore
  obtain ⟨q1, q2, -⟩ := tdiv_rollouts mcts hr1 hr2
  generalize Int.tdiv mcts NUM_MCTS_ROLLOUTS = q at q1 q2
  have hmm1 : (-1000 : ℚ) ≤ mm := by exact_mod_cast hm1
  have hmm2 : (mm : ℚ) ≤ 1000 := by exact_mod_cast hm2
  have hdq1 : (31 : ℚ) ≤ ((60 - (depth : Int) : Int) : ℚ) := by
    have : (31 : Int) ≤ 60 - (depth : Int) := by omega
    exact_mod_cast this
  have hdq2 : ((60 - (depth : Int) : Int) : ℚ) ≤ 59 := by
    have : 60 - (depth : Int) ≤ 59 := by omega
    exact_mod_cast this
  generalize ((60 - (depth : Int) : Int) : ℚ) = e at hdq1 hdq2
  apply truncate_bounds _ 719 (by decide)
  · interval_cases q <;> push_cast <;> linarith
  · interval_cases q <;> push_cast <;> linarith

theorem taskScore_ok (env : SearchEnv)
    (herr : ∀ (d : Nat) (mv : Int), -1 ≤ env.err d mv ∧ env.err d mv ≤ 1)
    {b : Board} (hwf : b.WellFormed) (depth : Nat) (hd1 : 1 ≤ depth) (hd2 : depth ≤ 29)
    (f : Bool) {mv : Int} {nb : Board} (hmk : b.makeMove mv = .ok nb) :
    ∃ v, taskScore env b depth f mv = some v ∧ -719 ≤ v ∧ v ≤ 719 := by
  have hwf1 := makeMove_wellFormed hwf hmk
  obtain ⟨r, t1, hr, h1, h2⟩ :=
    minimax_bounds (env.clock depth mv) (depth - 1) nb hwf1 (!f) INT_MIN INT_MAX 0
  have hroll := mctsRollout_bounds (env.outcome depth mv) NUM_MCTS_ROLLOUTS.toNat
  have hn : ((NUM_MCTS_ROLLOUTS.toNat : Nat) : Int) = 500 := by decide
  rw [hn] at hroll
  refine ⟨combinedScore r (mctsRollout (env.outcome depth mv) NUM_MCTS_ROLLOUTS.toNat) depth
    (env.err depth mv), by simp only [taskScore, hmk, hr], ?_⟩
  exact combinedScore_bounds r _ depth _ h1 h2 hroll.1 hroll.2 hd1 hd2 (herr depth mv).1
    (herr depth mv).2

theorem taskScores_ok (env : SearchEnv)
    (herr : ∀ (d : Nat) (mv : Int), -1 ≤ env.err d mv ∧ env.err d mv ≤ 1)
    {b : Board} (hwf : b.WellFormed) (depth : Nat) (hd1 : 1 ≤ depth) (hd2 : depth ≤ 29)
    (f : Bool) (moves : List Int) (hmoves : ∀ mv ∈ moves, ∃ nb, b.makeMove mv = .ok nb) :
    ∃ vs, taskScores env b depth f moves = some vs ∧ moves.length = vs.length ∧
      ∀ v ∈ vs, INT_MIN < v ∧ v < INT_MAX := by
  induction moves with
  | nil => exact ⟨[], rfl, rfl, by simp⟩
  | cons mv rest ih =>
    obtain ⟨nb, hmk⟩ := hmoves mv (List.mem_cons_self _ _)
    obtain ⟨v, hv, h1, h2⟩ := taskScore_ok env herr hwf depth hd1 hd2 f hmk
    obtain ⟨vs, hvs, hlen, hall⟩ := ih (fun x hx => hmoves x (List.mem_cons_of_mem _ hx))
    refine ⟨v :: vs, by simp only [taskScores, hv, hvs], by simp [hlen], ?_⟩
    intro x hx
    rcases List.mem_cons.1 hx with rfl | hx
    · unfold INT_MIN INT_MAX
      omega
    · exact hall x hx

/-- At every depth the selection records a legal move. -/
theorem depth_selection (env : SearchEnv)
    (herr : ∀ (d : Nat) (mv : Int), -1 ≤ env.err d mv ∧ env.err d mv ≤ 1)
    {b : Board} (hwf : b.WellFormed) (depth : Nat) (hd1 : 1 ≤ depth) (hd2 : depth ≤ 29)
    (f : Bool) (moves : List Int) (hne : moves ≠ [])
    (hmoves : ∀ mv ∈ moves, ∃ nb, b.makeMove mv = .ok nb) :
    ∃ vs mv, taskScores env b depth f moves = some vs ∧ selectBest f moves vs = some mv ∧
      mv ∈ moves := by
  obtain ⟨vs, hvs, hlen, hall⟩ := taskScores_ok env herr hwf depth hd1 hd2 f moves hmoves
  obtain ⟨k, mv, val, h1, -, h3, -, -⟩ := selectBest_extreme f moves vs hlen hne hall
  exact ⟨vs, mv, hvs, h3, List.getElem?_mem h1⟩

theorem depthLoop_mem (env : SearchEnv)
    (herr : ∀ (d : Nat) (mv : Int), -1 ≤ env.err d mv ∧ env.err d mv ≤ 1)
    {b : Board} (hwf : b.WellFormed) (f : Bool) (moves : List Int) (hne : moves ≠ [])
    (hmoves : ∀ mv ∈ moves, ∃ nb, b.makeMove mv = .ok nb)
    (remaining depth : Nat) (best : Int) (hsum : depth + remaining = 30) (hd1 : 1 ≤ depth)
    (hbest : best ∈ moves) :
    ∃ r, depthLoop env b moves f remaining depth best = some r ∧ r ∈ moves := by
  induction remaining generalizing depth best with
  | zero => exact ⟨best, rfl, hbest⟩
  | succ remaining ih =>
    unfold depthLoop
    by_cases hx : env.expired depth = true
    · exact ⟨best, by rw [if_pos hx], hbest⟩
    · rw [if_neg hx]
      obtain ⟨vs, mv, hvs, hsel, hmem⟩ :=
        depth_selection env herr hwf depth hd1 (by omega) f moves hne hmoves
      simp only [hvs, hsel]
      exact ih (depth + 1) mv (by omega) (by omega) hmem

/-- C15: given the combined scores of one completed depth, one per legal move
and none equal to `INT_MIN` or `INT_MAX`, the move recorded for that depth is at
the smallest index whose score is the maximum when the root board's
`currentPlayer` is 0, and at the smallest index whose score is the minimum when
it is 1.  The scores the tasks of a depth compute on a well-formed board are
such a list. -/
theorem root_selection :
    (∀ (b : Board) (legalMoves move_values : List Int),
      legalMoves.length = move_values.length → legalMoves ≠ [] →
      (∀ v ∈ move_values, INT_MIN < v ∧ v < INT_MAX) →
      ∃ (k : Nat) (mv val : Int), legalMoves[k]? = some mv ∧ move_values[k]? = some val ∧
        selectBest (b.currentPlayer == 0) legalMoves move_values = some mv ∧
        (b.currentPlayer = 0 → (∀ v ∈ move_values, v ≤ val) ∧
          ∀ (j : Nat) (w : Int), j < k → move_values[j]? = some w → w < val) ∧
        (b.currentPlayer = 1 → (∀ v ∈ move_values, val ≤ v) ∧
          ∀ (j : Nat) (w : Int), j < k → move_values[j]? = some w → val < w)) ∧
    (∀ (env : SearchEnv) (b : Board) (depth : Nat) (l : List Int),
      (∀ (d : Nat) (mv : Int), -1 ≤ env.err d mv ∧ env.err d mv ≤ 1) →
      b.WellFormed → 1 ≤ depth → depth ≤ 29 → b.getLegalMoves = some l →
      ∃ move_values, taskScores env b depth (b.currentPlayer == 0) l = some move_values ∧
        l.length = move_values.length ∧ ∀ v ∈ move_values, INT_MIN < v ∧ v < INT_MAX) := by
  constructor
  · intro b legalMoves move_values hlen hne hrange
    obtain ⟨k, mv, val, h1, h2, h3, h4, h5⟩ :=
      selectBest_extreme (b.currentPlayer == 0) legalMoves move_values hlen hne hrange
    refine ⟨k, mv, val, h1, h2, h3, ?_, ?_⟩
    · intro hcp
      exact h4 (by simp [hcp])
    · intro hcp
      exact h5 (by rw [hcp]; decide)
  · intro env b depth l herr hwf hd1 hd2 hl
    obtain ⟨l1, hl1, -, hmoves⟩ := legal_moves_ok hwf
    rw [hl] at hl1
    cases hl1
    exact taskScores_ok env herr hwf depth hd1 hd2 (b.currentPlayer == 0) l (by
      intro mv hmv
      obtain ⟨nb, h, -, -⟩ := hmoves mv hmv
      exact ⟨nb, h⟩)

theorem root_selection_witness :
    ([0, 1, 2, 3, 4] : List Int).length = ([3, 5, 5, 1, 2] : List Int).length ∧
    ([0, 1, 2, 3, 4] : List Int) ≠ [] ∧
    (∀ v ∈ ([3, 5, 5, 1, 2] : List Int), INT_MIN < v ∧ v < INT_MAX) ∧
    ∃ (k : Nat) (mv val : Int), ([0, 1, 2, 3, 4] : List Int)[k]? = some mv ∧
      ([3, 5, 5, 1, 2] : List Int)[k]? = some val ∧
      selectBest (Board.init.currentPlayer == 0) [0, 1, 2, 3, 4] [3, 5, 5, 1, 2] = some mv ∧
      (Board.init.currentPlayer = 0 → (∀ v ∈ ([3, 5, 5, 1, 2] : List Int), v ≤ val) ∧
        ∀ (j : Nat) (w : Int), j < k → ([3, 5, 5, 1, 2] : List Int)[j]? = some w → w < val) ∧
      (Board.init.currentPlayer = 1 → (∀ v ∈ ([3, 5, 5, 1, 2] : List Int), val ≤ v) ∧
        ∀ (j : Nat) (w : Int), j < k → ([3, 5, 5, 1, 2] : List Int)[j]? = some w → val < w) :=
  ⟨by decide, by decide, by decide,
   root_selection.1 Board.init [0, 1, 2, 3, 4] [3, 5, 5, 1, 2] (by decide) (by decide)
     (by decide)⟩

/-- C14: on a well-formed board, for every environment (deadline tests, clock
readings, rollout outcomes, floating-point errors of magnitude at most 1),
`findBestMove` returns a value; it is -1 exactly when `getLegalMoves()` is
empty and otherwise an element of `getLegalMoves()`, in particular the only
legal move when there is exactly one.  At every depth the selection records a
legal move, never its initial value -1. -/
theorem findBestMove_spec (env : SearchEnv)
    (herr : ∀ (d : Nat) (mv : Int), -1 ≤ env.err d mv ∧ env.err d mv ≤ 1)
    (b : Board) (hwf : b.WellFormed) :
    ∃ (l : List Int) (r : Int), b.getLegalMoves = some l ∧ findBestMove env b = some r ∧
      (r = -1 ↔ l = []) ∧ (l ≠ [] → r ∈ l) ∧ (∀ x, l = [x] → r = x) ∧
      (l ≠ [] → ∀ depth : Nat, 1 ≤ depth → depth ≤ 29 →
        ∃ vs mv, taskScores env b depth (b.currentPlayer == 0) l = some vs ∧
          selectBest (b.currentPlayer == 0) l vs = some mv ∧ mv ∈ l ∧ mv ≠ -1) := by
  obtain ⟨l, hl, hnonneg, hmoves⟩ := legal_moves_ok hwf
  have hmk : ∀ mv ∈ l, ∃ nb, b.makeMove mv = .ok nb := by
    intro mv hmv
    obtain ⟨nb, h, -, -⟩ := hmoves mv hmv
    exact ⟨nb, h⟩
  cases l with
  | nil =>
    refine ⟨[], -1, hl, by simp only [findBestMove, hl], by simp, fun h => absurd rfl h,
      fun x h => ?_, fun h => absurd rfl h⟩
    exact absurd h (by simp)
  | cons first rest =>
    obtain ⟨r, hr, hmem⟩ := depthLoop_mem env herr hwf (b.currentPlayer == 0) (first :: rest)
      (by simp) hmk 29 1 first rfl (le_refl _) (List.mem_cons_self _ _)
    refine ⟨first :: rest, r, hl, by simp only [findBestMove, hl]; exact hr, ?_,
      fun _ => hmem, ?_, ?_⟩
    · constructor
      · intro h
        have := hnonneg r hmem
        omega
      · intro h
        cases h
    · intro x hx
      rw [hx] at hmem
      simpa using hmem
    · intro _ depth hd1 hd2
      obtain ⟨vs, mv, hvs, hsel, hmv⟩ :=
        depth_selection env herr hwf depth hd1 hd2 (b.currentPlayer == 0) (first :: rest)
          (by simp) hmk
      refine ⟨vs, mv, hvs, hsel, hmv, ?_⟩
      have := hnonneg mv hmv
      omega

theorem findBestMove_spec_witness :
    (∀ (d : Nat) (mv : Int), -1 ≤ sampleEnv.err d mv ∧ sampleEnv.err d mv ≤ 1) ∧
    chainBoard.WellFormed ∧
    ∃ (l : List Int) (r : Int), chainBoard.getLegalMoves = some l ∧
      findBestMove sampleEnv chainBoard = some r ∧
      (r = -1 ↔ l = []) ∧ (l ≠ [] → r ∈ l) ∧ (∀ x, l = [x] → r = x) ∧
      (l ≠ [] → ∀ depth : Nat, 1 ≤ depth → depth ≤ 29 →
        ∃ vs mv, taskScores sampleEnv chainBoard depth (chainBoard.currentPlayer == 0) l
            = some vs ∧
          selectBest (chainBoard.currentPlayer == 0) l vs = some mv ∧ mv ∈ l ∧ mv ≠ -1) :=
  ⟨fun _ _ => by simp [sampleEnv], by decide,
   findBestMove_spec sampleEnv (fun _ _ => by simp [sampleEnv]) chainBoard (by decide)⟩

/-- C16 (the code at the failing input): with a rollout margin of 250 at
depth 1 and an alpha-beta value of 0 the quotient `mcts_score / NUM_MCTS_ROLLOUTS`
is the integer 0 and the score of the task is 0, whereas the score of the
specification, with the exact ratio 1/2, is 8. -/
theorem combinedScore_integer_division :
    Int.tdiv 250 NUM_MCTS_ROLLOUTS = 0 ∧ combinedScore 0 250 1 0 = 0 ∧
    combinedScoreSpec 0 250 1 = 8 := by
  refine ⟨by decide, ?_, ?_⟩
  · unfold combinedScore
    rw [(tdiv_rollouts 250 (by decide) (by decide)).2.2 (by decide) (by decide)]
    apply truncate_small <;> norm_num
  · unfold combinedScoreSpec truncate
    rw [if_pos (by norm_num), Int.floor_eq_iff]
    norm_num

/-! ## Finished pieces stay finished -/

/-- C21: on a well-formed board, after any call of `makeMove` that returns
normally (the moved piece may itself be finished already), every piece that was
finished before the call is unchanged, hence still at position 0 with
`has_turned_around` set: no finished piece is captured, and the number of
finished pieces of either player does not decrease. -/
theorem finished_stay_finished (b : Board) (hwf : b.WellFormed) (pieceId : Int) (b1 : Board)
    (h : b.makeMove pieceId = .ok b1) :
    (∀ (n : Nat) (p : Piece), b.pieces[n]? = some p → p.finished = true →
      b1.pieces[n]? = some p ∧
      ∃ q, b1.pieces[n]? = some q ∧ q.id = p.id ∧ q.player = p.player ∧
        q.position = 0 ∧ q.has_turned_around = true) ∧
    (∀ player : Int, b.finishedCount player ≤ b1.finishedCount player) := by
  refine ⟨?_, fun player => finishedCount_mono hwf h player⟩
  intro n p hp hfin
  simp only [Piece.finished, Bool.and_eq_true, beq_iff_eq] at hfin
  have hk := makeMove_keeps_finished hwf h hp hfin.1 hfin.2
  exact ⟨hk, p, hk, rfl, rfl, hfin.1, hfin.2⟩

theorem finished_stay_finished_witness :
    wonBoard.WellFormed ∧ wonBoard.makeMove 0 = .ok flippedBoard ∧
    ((∀ (n : Nat) (p : Piece), wonBoard.pieces[n]? = some p → p.finished = true →
      flippedBoard.pieces[n]? = some p ∧
      ∃ q, flippedBoard.pieces[n]? = some q ∧ q.id = p.id ∧ q.player = p.player ∧
        q.position = 0 ∧ q.has_turned_around = true) ∧
    (∀ player : Int, wonBoard.finishedCount player ≤ flippedBoard.finishedCount player)) :=
  ⟨by decide, by decide, finished_stay_finished wonBoard (by decide) 0 flippedBoard (by decide)⟩

theorem countP_five (P : Piece → Bool) (a b c d e : Piece) :
    ([a, b, c, d, e].filter fun p => !P p).length + [a, b, c, d, e].countP P = 5 := by
  have h := List.length_eq_countP_add_countP P [a, b, c, d, e]
  rw [← List.countP_eq_length_filter]
  have e1 : List.countP (fun p => !P p) [a, b, c, d, e]
      = List.countP (fun x => decide ¬P x = true) [a, b, c, d, e] := by
    congr 1
    funext p
    cases P p <;> rfl
  rw [e1]
  simp only [List.length_cons, List.length_nil] at h
  omega

/-- On a shaped board the legal moves and the finished pieces of the player to
move add up to that player's five pieces. -/
theorem getLegalMoves_length (b : Board) (hs : b.Shaped)
    (hcp : b.currentPlayer = 0 ∨ b.currentPlayer = 1) :
    ∃ l, b.getLegalMoves = some l ∧ l.length + b.finishedCount b.currentPlayer = 5 := by
  obtain ⟨ps, cp⟩ := b
  obtain ⟨h1, h2⟩ := hs
  simp only [List.map_eq_cons_iff, List.map_eq_nil_iff] at h1
  obtain ⟨p0, r0, rfl, i0, p1, r1, rfl, i1, p2, r2, rfl, i2, p3, r3, rfl, i3, p4, r4, rfl, i4,
    p5, r5, rfl, i5, p6, r6, rfl, i6, p7, r7, rfl, i7, p8, r8, rfl, i8, p9, r9, rfl, i9, rfl⟩ := h1
  simp only [List.map_cons, List.map_nil, List.cons.injEq, and_true] at h2
  obtain ⟨o0, o1, o2, o3, o4, o5, o6, o7, o8, o9⟩ := h2
  simp only at hcp
  rcases hcp with rfl | rfl
  · refine ⟨(([p0, p1, p2, p3, p4].filter fun p => !p.finished).map Piece.id), ?_, ?_⟩
    · exact getLegalMovesLoop_eq _ _ _ _ (by simp [vecAt])
    · rw [List.length_map]
      have hc : Board.finishedCount ⟨[p0, p1, p2, p3, p4, p5, p6, p7, p8, p9], 0⟩ 0
          = [p0, p1, p2, p3, p4].countP Piece.finished := by
        simp [Board.finishedCount, List.countP_cons, o0, o1, o2, o3, o4, o5, o6, o7, o8, o9]
      rw [hc]
      exact countP_five Piece.finished p0 p1 p2 p3 p4
  · refine ⟨(([p5, p6, p7, p8, p9].filter fun p => !p.finished).map Piece.id), ?_, ?_⟩
    · exact getLegalMovesLoop_eq _ _ _ _ (by simp [vecAt])
    · rw [List.length_map]
      have hc : Board.finishedCount ⟨[p0, p1, p2, p3, p4, p5, p6, p7, p8, p9], 1⟩ 1
          = [p5, p6, p7, p8, p9].countP Piece.finished := by
        simp [Board.finishedCount, List.countP_cons, o0, o1, o2, o3, o4, o5, o6, o7, o8, o9]
      rw [hc]
      exact countP_five Piece.finished p5 p6 p7 p8 p9

/-! ## The number of legal moves -/

theorem isGameOver_false_iff (b : Board) : b.isGameOver = false ↔ b.getWinner = -1 := by
  simp [Board.isGameOver]

/-- A well-formed board without a winner offers the player to move at least two
moves. -/
theorem two_legal_moves {b : Board} (hwf : b.WellFormed) (hw : b.getWinner = -1) :
    ∃ l, b.getLegalMoves = some l ∧ 2 ≤ l.length := by
  obtain ⟨l, hl, hlen⟩ := getLegalMoves_length b hwf.1 hwf.2.2
  refine ⟨l, hl, ?_⟩
  rw [getWinner_eq] at hw
  have h0 : ¬ 4 ≤ b.finishedCount 0 := by
    intro h
    rw [if_pos h] at hw
    omega
  rw [if_neg h0] at hw
  have h1 : ¬ 4 ≤ b.finishedCount 1 := by
    intro h
    rw [if_pos h] at hw
    omega
  rcases hwf.2.2 with hc | hc <;> rw [hc] at hlen <;> omega

/-- A random playout from a well-formed board is left through the loop
condition, if it is left at all: never through `break`, and never by a fault. -/
theorem playout_ends (draw : Nat → Nat) (fuel : Nat) :
    ∀ (k : Nat) (b : Board), b.WellFormed →
      (∃ b1, playout draw fuel k b = .game_over b1 ∧ b1.WellFormed ∧ b1.isGameOver = true) ∨
        playout draw fuel k b = .running := by
  induction fuel with
  | zero => intro k b _; exact Or.inr rfl
  | succ fuel ih =>
    intro k b hwf
    unfold playout
    by_cases hg : b.isGameOver = true
    · rw [if_pos hg]
      exact Or.inl ⟨b, rfl, hwf, hg⟩
    · rw [if_neg hg]
      simp only [Bool.not_eq_true] at hg
      obtain ⟨l, hl, -, hmk⟩ := legal_moves_ok hwf
      obtain ⟨l2, hl2, hlen⟩ := two_legal_moves hwf ((isGameOver_false_iff b).1 hg)
      rw [hl] at hl2
      cases hl2
      have hne : l.isEmpty = false := by
        cases l with
        | nil => simp at hlen
        | cons x xs => rfl
      have hlt : draw k % l.length < l.length := Nat.mod_lt _ (by omega)
      simp only [hl, hne, Bool.false_eq_true, if_false]
      rw [List.getElem?_eq_getElem hlt]
      obtain ⟨nb, hnb, hnwf, -⟩ := hmk _ (List.getElem_mem hlt)
      simp only [hnb]
      exact ih (k + 1) nb hnwf

/-- The playout from the initial board in which every draw is 0 is over after
59 moves. -/
theorem playout_sample :
    playout (fun _ => 0) 60 0 Board.init = .game_over playedBoard ∧
    playout (fun _ => 0) 59 0 Board.init = .running := by
  decide

/-- C22: on a well-formed board `getLegalMoves` returns a list whose length is
five minus the number of finished pieces of the player to move; so the list has
at least two members when `getWinner()` is -1, and is empty exactly when the
player to move has all five pieces finished.  On a board that is not game over
the test `legalMoves.empty()` of `minimax` fails, so a call at a positive depth
before the deadline runs the loop over the moves; and a random playout of
`mctsRollout` from the board never executes `if (moves.empty()) break;`: it is
left through the loop condition on a board that is game over, or is still
running. -/
theorem legal_moves_at_least_two (b : Board) (hwf : b.WellFormed) :
    (∃ l, b.getLegalMoves = some l ∧ l.length + b.finishedCount b.currentPlayer = 5 ∧
      (b.getWinner = -1 → 2 ≤ l.length) ∧
      (l = [] ↔ b.finishedCount b.currentPlayer = 5) ∧
      (b.isGameOver = false → l.isEmpty = false ∧
        ∀ (clock : Nat → Bool) (depth : Nat) (f : Bool) (alpha beta : Int) (tick : Nat),
          clock tick = false →
          minimax clock (depth + 1) b f alpha beta tick =
            if f then
              maxLoop (fun nextBoard a b t => minimax clock depth nextBoard false a b t)
                b l INT_MIN alpha beta (tick + 1)
            else
              minLoop (fun nextBoard a b t => minimax clock depth nextBoard true a b t)
                b l INT_MAX alpha beta (tick + 1))) ∧
    (∀ (draw : Nat → Nat) (fuel k : Nat),
      (∀ b1, playout draw fuel k b ≠ .no_moves b1) ∧
      ((∃ b1, playout draw fuel k b = .game_over b1 ∧ b1.isGameOver = true) ∨
        playout draw fuel k b = .running)) := by
  obtain ⟨l, hl, hlen⟩ := getLegalMoves_length b hwf.1 hwf.2.2
  have htwo : b.getWinner = -1 → 2 ≤ l.length := by
    intro hw
    obtain ⟨l2, hl2, h2⟩ := two_legal_moves hwf hw
    rw [hl] at hl2
    cases hl2
    exact h2
  refine ⟨⟨l, hl, hlen, htwo, ?_, ?_⟩, ?_⟩
  · constructor
    · intro h
      rw [h] at hlen
      simpa using hlen
    · intro h
      rw [h] at hlen
      exact List.length_eq_zero.1 (by omega)
  · intro hg
    have h2 := htwo ((isGameOver_false_iff b).1 hg)
    have hne : l.isEmpty = false := by
      cases l with
      | nil => simp at h2
      | cons x xs => rfl
    refine ⟨hne, ?_⟩
    intro clock depth f alpha beta tick hc
    rw [minimax_succ hc, hg]
    simp only [Bool.false_eq_true, if_false, hl, hne]
  · intro draw fuel k
    rcases playout_ends draw fuel k b hwf with ⟨b1, h1, -, h2⟩ | h
    · exact ⟨fun b2 hb => (by rw [h1] at hb; cases hb), Or.inl ⟨b1, h1, h2⟩⟩
    · exact ⟨fun b2 hb => (by rw [h] at hb; cases hb), Or.inr h⟩

theorem legal_moves_at_least_two_witness :
    chainBoard.WellFormed ∧
    ((∃ l, chainBoard.getLegalMoves = some l ∧
      l.length + chainBoard.finishedCount chainBoard.currentPlayer = 5 ∧
      (chainBoard.getWinner = -1 → 2 ≤ l.length) ∧
      (l = [] ↔ chainBoard.finishedCount chainBoard.currentPlayer = 5) ∧
      (chainBoard.isGameOver = false → l.isEmpty = false ∧
        ∀ (clock : Nat → Bool) (depth : Nat) (f : Bool) (alpha beta : Int) (tick : Nat),
          clock tick = false →
          minimax clock (depth + 1) chainBoard f alpha beta tick =
            if f then
              maxLoop (fun nextBoard a b t => minimax clock depth nextBoard false a b t)
                chainBoard l INT_MIN alpha beta (tick + 1)
            else
              minLoop (fun nextBoard a b t => minimax clock depth nextBoard true a b t)
                chainBoard l INT_MAX alpha beta (tick + 1))) ∧
    (∀ (draw : Nat → Nat) (fuel k : Nat),
      (∀ b1, playout draw fuel k chainBoard ≠ .no_moves b1) ∧
      ((∃ b1, playout draw fuel k chainBoard = .game_over b1 ∧ b1.isGameOver = true) ∨
        playout draw fuel k chainBoard = .running))) :=
  ⟨by decide, legal_moves_at_least_two chainBoard (by decide)⟩

/-! ## Heuristic scores against terminal scores -/

/-- The signed contributions of the pieces against the numbers of pieces and of
finished pieces of the two players: a finished piece contributes 22, any other
piece between 0 and 20. -/
theorem contribution_sum_bounds (ps : List Piece)
    (hp : ∀ p ∈ ps, (p.player = 0 ∨ p.player = 1) ∧ 0 ≤ p.position ∧ p.position ≤ 6) :
    (ps.map fun p => p.sign * p.contribution).sum
        ≤ 20 * ((ps.countP fun p => p.player == 0 : Nat) : Int)
          + 2 * ((ps.countP fun p => p.player == 0 && p.finished : Nat) : Int) ∧
    -(20 * ((ps.countP fun p => p.player == 1 : Nat) : Int)
          + 2 * ((ps.countP fun p => p.player == 1 && p.finished : Nat) : Int))
        ≤ (ps.map fun p => p.sign * p.contribution).sum := by
  induction ps with
  | nil => simp
  | cons p ps ih =>
    have hrest := ih (fun q hq => hp q (List.mem_cons_of_mem _ hq))
    obtain ⟨hpl, hlo, hhi⟩ := hp p (List.mem_cons_self _ _)
    rw [List.map_cons, List.sum_cons, List.countP_cons, List.countP_cons, List.countP_cons,
      List.countP_cons]
    generalize (ps.map fun p => p.sign * p.contribution).sum = S at hrest ⊢
    generalize (ps.countP fun p => p.player == 0) = n0 at hrest ⊢
    generalize (ps.countP fun p => p.player == 1) = n1 at hrest ⊢
    generalize (ps.countP fun p => p.player == 0 && p.finished) = f0 at hrest ⊢
    generalize (ps.countP fun p => p.player == 1 && p.finished) = f1 at hrest ⊢
    obtain ⟨id, pos, t, pl⟩ := p
    simp only at hpl hlo hhi
    rcases hpl with rfl | rfl <;> cases t <;> by_cases h0 : pos = 0 <;>
      simp [Piece.sign, Piece.contribution, Piece.finished, h0] <;> omega

theorem shaped_count_player {ps : List Piece} (h : shaped ps) :
    (ps.countP fun p => p.player == 0) = 5 ∧ (ps.countP fun p => p.player == 1) = 5 := by
  have e0 : (ps.countP fun p => p.player == 0) = (ps.map Piece.player).countP (· == 0) := by
    rw [List.countP_map]; rfl
  have e1 : (ps.countP fun p => p.player == 1) = (ps.map Piece.player).countP (· == 1) := by
    rw [List.countP_map]; rfl
  rw [e0, e1, h.2]
  decide

/-- The static evaluation of a well-formed board without a winner lies in
`[-196, 196]`. -/
theorem evaluateState_heuristic {b : Board} (hwf : b.WellFormed) (hw : b.getWinner = -1) :
    -196 ≤ evaluateState b ∧ evaluateState b ≤ 196 := by
  have hf := getWinner_eq b
  rw [hw] at hf
  have h0 : ¬ 4 ≤ b.finishedCount 0 := by
    intro h
    rw [if_pos h] at hf
    omega
  rw [if_neg h0] at hf
  have h1 : ¬ 4 ≤ b.finishedCount 1 := by
    intro h
    rw [if_pos h] at hf
    omega
  unfold evaluateState
  simp only [hw]
  rw [if_neg (by decide), if_neg (by decide)]
  unfold evaluateLoop
  rw [evaluateLoop_foldl b.pieces (fun p hp => shaped_player hwf.1 hp)]
  simp only [zero_add]
  have hs := contribution_sum_bounds b.pieces
    (fun p hp => ⟨shaped_player hwf.1 hp, hwf.2.1 p hp⟩)
  obtain ⟨n0, n1⟩ := shaped_count_player hwf.1
  rw [n0, n1] at hs
  unfold Board.finishedCount at h0 h1
  push_cast at hs
  omega

/-- C23: on a well-formed board without a winner (`getWinner() == -1`) the value
`v` of `evaluateState` satisfies `|v| ≤ 196`, so it lies strictly between the
terminal scores -1000 and 1000; and on every well-formed board the value of
`evaluateState`, and the value that `minimax` returns for any depth, flag,
window and clock, lies in `[-1000, 1000]` and is neither of the sentinels
`INT_MIN` and `INT_MAX`. -/
theorem heuristic_below_terminal (b : Board) (hwf : b.WellFormed) :
    (b.getWinner = -1 →
      |evaluateState b| ≤ 196 ∧ -1000 < evaluateState b ∧ evaluateState b < 1000) ∧
    (-1000 ≤ evaluateState b ∧ evaluateState b ≤ 1000 ∧
      evaluateState b ≠ INT_MIN ∧ evaluateState b ≠ INT_MAX) ∧
    ∀ (clock : Nat → Bool) (depth : Nat) (f : Bool) (alpha beta : Int) (tick : Nat),
      ∃ r t1, minimax clock depth b f alpha beta tick = some (r, t1) ∧
        -1000 ≤ r ∧ r ≤ 1000 ∧ r ≠ INT_MIN ∧ r ≠ INT_MAX := by
  refine ⟨?_, ?_, ?_⟩
  · intro hw
    obtain ⟨h1, h2⟩ := evaluateState_heuristic hwf hw
    exact ⟨abs_le.2 ⟨h1, h2⟩, by omega, by omega⟩
  · obtain ⟨h1, h2⟩ := evaluateState_bounds hwf
    refine ⟨h1, h2, ?_, ?_⟩ <;> simp only [INT_MIN, INT_MAX] <;> omega
  · intro clock depth f alpha beta tick
    obtain ⟨r, t1, hr, h1, h2⟩ := minimax_bounds clock depth b hwf f alpha beta tick
    refine ⟨r, t1, hr, h1, h2, ?_, ?_⟩ <;> simp only [INT_MIN, INT_MAX] <;> omega

theorem heuristic_below_terminal_witness :
    captureBoard.WellFormed ∧
    ((captureBoard.getWinner = -1 →
      |evaluateState captureBoard| ≤ 196 ∧ -1000 < evaluateState captureBoard ∧
        evaluateState captureBoard < 1000) ∧
    (-1000 ≤ evaluateState captureBoard ∧ evaluateState captureBoard ≤ 1000 ∧
      evaluateState captureBoard ≠ INT_MIN ∧ evaluateState captureBoard ≠ INT_MAX) ∧
    ∀ (clock : Nat → Bool) (depth : Nat) (f : Bool) (alpha beta : Int) (tick : Nat),
      ∃ r t1, minimax clock depth captureBoard f alpha beta tick = some (r, t1) ∧
        -1000 ≤ r ∧ r ≤ 1000 ∧ r ≠ INT_MIN ∧ r ≠ INT_MAX) :=
  ⟨by decide, heuristic_below_terminal captureBoard (by decide)⟩

end Squadro
